import Mathlib

/-!
# Verification of the outline-sync local tree synchronization core

This file embeds the core algorithms of the `outline-sync` repository in
Lean and settles the behavioural claims about them:

* the mark-and-sweep cleanup `cleanupUnwrittenFiles` / `getAllPaths`
  (`src/services/output-files.ts`),
* the local tree reader `readCollectionFiles` /
  `readCollectionFilesForDirectory` (`src/services/output-files.ts`),
* the frontmatter writer `writeDocumentFile` (`src/utils/file-manager.ts`),
* the upload pass `uploadFile` / `createNewDocument` /
  `updateExistingDocument` (`src/commands/upload.ts`),
* the attachment reference rewriting `parseAttachments` /
  `parseRelativeImages` / `transformMarkdownImages` /
  `transformMarkdownToAttachments` (`src/services/attachments.ts`).

The filesystem is embedded as a finitely branching tree of named nodes;
asynchronous I/O becomes explicit state passing, and operations that the
TypeScript code performs through the `outline` API service are recorded
as an explicit action trace.
-/

set_option maxHeartbeats 1000000

namespace OutlineSync

/-! ## Filesystem model

A filesystem node is a file (with payload `α`: the raw or parsed content,
or `Unit` when content is irrelevant) or a directory with an ordered list
of named children; the list order is the `readdir` enumeration order.
Paths are segment lists relative to the collection output directory, the
output directory itself being `[]`.  (The TypeScript code manipulates
absolute path strings rooted at `outputDirectory`; since every operation
only joins the root with segment suffixes and compares segment counts,
the relative-segment view is an exact image of it.) -/

inductive FST (α : Type) : Type where
  | file : α → FST α
  | dir : List (String × FST α) → FST α
deriving Repr, Inhabited

abbrev FPath := List String

/-- First child of a directory-entry list carrying the given name
(filesystems have unique names per directory; `wfNames` below records
that invariant for arbitrary trees). -/
def childNamed (cs : List (String × FST α)) (n : String) : Option (FST α) :=
  (cs.find? (fun e => e.1 == n)).map (fun e => e.2)

/-- Resolve a path to the node it denotes, as the OS would (`fs.stat`
succeeds exactly when this returns `some`). -/
def FST.findNode : FPath → FST α → Option (FST α)
  | [], t => some t
  | _ :: _, .file _ => none
  | n :: p, .dir cs =>
    match childNamed cs n with
    | some c => FST.findNode p c
    | none => none

/-- Remove the directory entry at a (nonempty) path: the effect of
`fs.unlink` / `fs.rmdir` on the tree.  Removing a missing entry is a
no-op (the syscall would throw; callers catch). -/
def FST.removeAt : FPath → FST α → FST α
  | [], t => t
  | _ :: _, .file a => .file a
  | [n], .dir cs => .dir (cs.eraseP (fun e => e.1 == n))
  | n :: p₁ :: p₂, .dir cs =>
    .dir (cs.map (fun e => if e.1 == n then (e.1, FST.removeAt (p₁ :: p₂) e.2) else e))

/-- Sibling-name uniqueness invariant every real filesystem satisfies. -/
def wfNames : FST α → Bool
  | .file _ => true
  | .dir cs =>
    decide ((cs.map (fun e => e.1)).Nodup) && cs.attach.all (fun e => wfNames e.1.2)
decreasing_by
  cases e with
  | mk v h =>
    have := List.sizeOf_lt_of_mem h
    cases v with
    | mk n c => simp at this ⊢; omega

/-- Number of nodes strictly below the root of the tree plus one
(used to count deletions: every successful delete removes one node). -/
def FST.size : FST α → Nat
  | .file _ => 1
  | .dir cs => 1 + (cs.attach.map (fun e => FST.size e.1.2)).sum
decreasing_by
  cases e with
  | mk v h =>
    have := List.sizeOf_lt_of_mem h
    cases v with
    | mk n c => simp at this ⊢; omega

/-! ## `getAllPaths` (src/services/output-files.ts, lines 243-263)

```ts
async function getAllPaths(dirPath, paths = new Set()) {
  try {
    const entries = await fs.readdir(dirPath, { withFileTypes: true });
    for (const entry of entries) {
      const fullPath = path.join(dirPath, entry.name);
      paths.add(fullPath);
      if (entry.isDirectory()) await getAllPaths(fullPath, paths);
    }
  } catch { /- Directory doesn't exist -/ }
  return paths;
}
```

`subPaths` is the recursive body once `readdir` of the root has
succeeded: every entry's path is recorded, and directories are entered
recursively.  `getAllPaths` resolves the root first; a missing root (or
a root that is a plain file, where `readdir` throws) yields the empty
enumeration, mirroring the `catch`. -/

def subPaths : FST α → FPath → List FPath
  | .file _, _ => []
  | .dir cs, pre =>
    cs.attach.flatMap (fun e =>
      (pre ++ [e.1.1]) :: subPaths e.1.2 (pre ++ [e.1.1]))
decreasing_by
  cases e with
  | mk v h =>
    have := List.sizeOf_lt_of_mem h
    cases v with
    | mk n c => simp at this ⊢; omega

/-- `getAllPaths` over an output directory that may not exist:
`none` models a non-existent root. -/
def getAllPaths : Option (FST α) → List FPath
  | none => []
  | some (.file _) => []
  | some (.dir cs) => subPaths (.dir cs) []

/-! ## `cleanupUnwrittenFiles` (src/services/output-files.ts, lines 272-306)

```ts
const allPaths = await getAllPaths(outputDirectory);
let deletedCount = 0;
const sortedPaths = [...allPaths].sort(
  (a, b) => b.split(path.sep).length - a.split(path.sep).length);
for (const filePath of sortedPaths) {
  if (!writtenPaths.has(filePath)) {
    try {
      const stat = await fs.stat(filePath);
      if (stat.isDirectory()) {
        const contents = await fs.readdir(filePath);
        if (contents.length === 0) { await fs.rmdir(filePath); deletedCount++; }
      } else { await fs.unlink(filePath); deletedCount++; }
    } catch { /- File already deleted or doesn't exist -/ }
  }
}
return deletedCount;
```

The comparator orders by segment count, deepest first; ECMAScript
`Array.prototype.sort` is stable, and a stable sort's output is uniquely
determined by the comparator and the input order, so we model it with
the stable structural `List.insertionSort`.  (Absolute paths all share
the root prefix, so the segment-count differences equal those of the
relative paths.)

Failures of the per-entry syscalls are modelled by the oracle
`fails : FPath → Bool`: a failing `stat`/`readdir`/`unlink`/`rmdir` makes
the `try` block abort without deleting, which the `catch` swallows.  A
path that no longer resolves (`findNode = none`) is the thrown-`stat`
case of an already-deleted entry. -/

def deeperFirst (a b : FPath) : Prop := b.length ≤ a.length

instance : DecidableRel (α := FPath) deeperFirst :=
  fun a b => inferInstanceAs (Decidable (b.length ≤ a.length))

instance : IsTotal FPath deeperFirst :=
  ⟨fun a b => Nat.le_total b.length a.length⟩

instance : IsTrans FPath deeperFirst :=
  ⟨fun _ _ _ h h₂ => Nat.le_trans h₂ h⟩

def cleanupStep (written : List FPath) (fails : FPath → Bool)
    (st : FST α × Nat) (p : FPath) : FST α × Nat :=
  if p ∈ written then st
  else if fails p then st
  else
    match FST.findNode p st.1 with
    | none => st
    | some (.file _) => (FST.removeAt p st.1, st.2 + 1)
    | some (.dir cs) =>
      if cs.isEmpty then (FST.removeAt p st.1, st.2 + 1) else st

/-- The sweep over an existing output directory tree. -/
def cleanupDir (t : FST α) (written : List FPath) (fails : FPath → Bool) :
    FST α × Nat :=
  ((subPaths t []).insertionSort deeperFirst).foldl (cleanupStep written fails) (t, 0)

/-- `cleanupUnwrittenFiles`, with `none` for a non-existent output
directory.  Always returns (never raises): every syscall failure is
caught inside the loop or inside `getAllPaths`. -/
def cleanupUnwrittenFiles (root : Option (FST α)) (written : List FPath)
    (fails : FPath → Bool) : Option (FST α) × Nat :=
  match root with
  | none => (none, 0)
  | some (.file a) => (some (.file a), 0)
  | some (.dir cs) =>
    let r := cleanupDir (FST.dir cs) written fails
    (some r.1, r.2)

/-! ### Clean recursion equations

The tree-recursive definitions above use `List.attach` for their
termination argument; these lemmas restate their equations in plain
`map` / `flatMap` / `all` form, which is what every proof below uses. -/

theorem attach_map {β γ : Type} (l : List β) (g : β → γ) :
    l.attach.map (fun e => g e.1) = l.map g := List.attach_map_val l g

theorem attach_flatMap {β γ : Type} (l : List β) (g : β → List γ) :
    l.attach.flatMap (fun e => g e.1) = l.flatMap g := by
  calc l.attach.flatMap (fun e => g e.1)
      = (l.attach.map (fun e => g e.1)).flatten := by rw [List.flatMap_def]
    _ = (l.map g).flatten := by rw [attach_map]
    _ = l.flatMap g := by rw [List.flatMap_def]

theorem attach_all {β : Type} (l : List β) (g : β → Bool) :
    l.attach.all (fun e => g e.1) = l.all g := by
  rw [Bool.eq_iff_iff, List.all_eq_true, List.all_eq_true]
  exact ⟨fun h a ha => h ⟨a, ha⟩ (List.mem_attach _ _), fun h e _ => h e.1 e.2⟩

@[simp] theorem subPaths_file (a : α) (pre : FPath) :
    subPaths (.file a) pre = [] := by
  simp [subPaths]

@[simp] theorem subPaths_dir (cs : List (String × FST α)) (pre : FPath) :
    subPaths (.dir cs) pre
      = cs.flatMap (fun e => (pre ++ [e.1]) :: subPaths e.2 (pre ++ [e.1])) := by
  rw [subPaths, attach_flatMap cs (fun e => (pre ++ [e.1]) :: subPaths e.2 (pre ++ [e.1]))]

@[simp] theorem wfNames_file (a : α) : wfNames (.file a) = true := by
  simp [wfNames]

@[simp] theorem wfNames_dir (cs : List (String × FST α)) :
    wfNames (.dir cs)
      = (decide ((cs.map (fun e => e.1)).Nodup) && cs.all (fun e => wfNames e.2)) := by
  rw [wfNames, attach_all cs (fun e => wfNames e.2)]

@[simp] theorem size_file (a : α) : FST.size (.file a) = 1 := by
  simp [FST.size]

@[simp] theorem size_dir (cs : List (String × FST α)) :
    FST.size (.dir cs) = 1 + (cs.map (fun e => FST.size e.2)).sum := by
  rw [FST.size, attach_map cs (fun e => FST.size e.2)]

theorem attach_any {β : Type} (l : List β) (g : β → Bool) :
    l.attach.any (fun e => g e.1) = l.any g := by
  rw [Bool.eq_iff_iff, List.any_eq_true, List.any_eq_true]
  refine ⟨fun h => ?_, fun h => ?_⟩
  · obtain ⟨e, _, hg⟩ := h
    exact ⟨e.1, e.2, hg⟩
  · obtain ⟨a, ha, hg⟩ := h
    exact ⟨⟨a, ha⟩, List.mem_attach _ _, hg⟩

/-! ### Specification-side characterization of the sweep

`survives S t q` decides, on the initial tree, whether the node sitting
at path `q` (with subtree `t`) is still present after a failure-free
sweep with written set `S`: a node survives exactly when its own path
was written, or when it is a directory one of whose children survives
(the code never deletes a non-empty directory).  `pruneBy` rebuilds a
tree keeping only the children whose full path satisfies `keep`. -/

def survives (S : List FPath) : FST α → FPath → Bool
  | .file _, q => decide (q ∈ S)
  | .dir cs, q =>
    decide (q ∈ S) || cs.attach.any (fun e => survives S e.1.2 (q ++ [e.1.1]))
decreasing_by
  cases e with
  | mk v h =>
    have := List.sizeOf_lt_of_mem h
    cases v with
    | mk n c => simp at this ⊢; omega

@[simp] theorem survives_file (S : List FPath) (a : α) (q : FPath) :
    survives S (.file a) q = decide (q ∈ S) := by
  simp [survives]

@[simp] theorem survives_dir (S : List FPath) (cs : List (String × FST α)) (q : FPath) :
    survives S (.dir cs) q
      = (decide (q ∈ S) || cs.any (fun e => survives S e.2 (q ++ [e.1]))) := by
  rw [survives, attach_any cs (fun e => survives S e.2 (q ++ [e.1]))]

/-- Whether the node of the initial tree `t` denoted by path `q`
survives the sweep (`false` when there is no such node). -/
def survivesAt (t : FST α) (S : List FPath) (q : FPath) : Bool :=
  match FST.findNode q t with
  | some s => survives S s q
  | none => false

/-- Keep exactly the children whose full path satisfies `keep`;
subtrees of dropped children are dropped with them. -/
def pruneBy (keep : FPath → Bool) : FST α → FPath → FST α
  | .file a, _ => .file a
  | .dir cs, q =>
    .dir ((cs.filter (fun e => keep (q ++ [e.1]))).attach.map
      (fun e => (e.1.1, pruneBy keep e.1.2 (q ++ [e.1.1]))))
decreasing_by
  cases e with
  | mk v h =>
    have := List.sizeOf_lt_of_mem (List.mem_of_mem_filter h)
    cases v with
    | mk n c => simp at this ⊢; omega

@[simp] theorem pruneBy_file (keep : FPath → Bool) (a : α) (q : FPath) :
    pruneBy keep (.file a) q = .file a := by
  simp [pruneBy]

@[simp] theorem pruneBy_dir (keep : FPath → Bool) (cs : List (String × FST α)) (q : FPath) :
    pruneBy keep (.dir cs) q
      = .dir ((cs.filter (fun e => keep (q ++ [e.1]))).map
          (fun e => (e.1, pruneBy keep e.2 (q ++ [e.1])))) := by
  rw [pruneBy,
    attach_map (cs.filter (fun e => keep (q ++ [e.1])))
      (fun e => (e.1, pruneBy keep e.2 (q ++ [e.1])))]

/-- `chainKeep keep pre q`: every nonempty prefix of `q` (taken from
`pre`) satisfies `keep`; the condition under which the node at
`pre ++ q` is reachable in `pruneBy keep`. -/
def chainKeep (keep : FPath → Bool) (pre : FPath) : FPath → Bool
  | [] => true
  | n :: q => keep (pre ++ [n]) && chainKeep keep (pre ++ [n]) q

/-! ### Basic tree lemmas -/

/-- Induction principle for `FST` exposing the children of a directory
as a membership hypothesis. -/
theorem FST.inductionOn {α : Type} {motive : FST α → Prop}
    (file : ∀ a, motive (.file a))
    (dir : ∀ cs, (∀ e ∈ cs, motive e.2) → motive (.dir cs)) :
    ∀ t, motive t
  | .file a => file a
  | .dir cs => dir cs (fun e he =>
      have := List.sizeOf_lt_of_mem he
      FST.inductionOn file dir e.2)
decreasing_by
  cases e with
  | mk n c => simp at this ⊢; omega

theorem childNamed_mem {cs : List (String × FST α)} {n : String} {c : FST α}
    (h : childNamed cs n = some c) : (n, c) ∈ cs := by
  unfold childNamed at h
  cases hf : cs.find? (fun e => e.1 == n) with
  | none => simp [hf] at h
  | some e =>
    simp [hf] at h
    have hmem := List.mem_of_find?_eq_some hf
    have hpred := List.find?_some hf
    cases e with
    | mk n₂ c₂ =>
      simp at hpred
      subst hpred
      rw [← h]
      exact hmem

theorem childNamed_isSome_of_mem {cs : List (String × FST α)} {n : String} {c : FST α}
    (h : (n, c) ∈ cs) : (childNamed cs n).isSome := by
  unfold childNamed
  cases hf : cs.find? (fun e => e.1 == n) with
  | none =>
    have := List.find?_eq_none.mp hf (n, c) h
    simp at this
  | some e => simp

theorem childNamed_eq_of_mem_nodup {cs : List (String × FST α)} {n : String} {c : FST α}
    (hnd : (cs.map (fun e => e.1)).Nodup) (h : (n, c) ∈ cs) :
    childNamed cs n = some c := by
  induction cs with
  | nil => simp at h
  | cons e cs ih =>
    simp only [List.map_cons, List.nodup_cons] at hnd
    rcases List.mem_cons.mp h with heq | hmem
    · subst heq
      simp [childNamed, List.find?_cons_of_pos]
    · have hne : (e.1 == n) = false := by
        rw [beq_eq_false_iff_ne]
        intro hcontra
        exact hnd.1 (hcontra ▸ (List.mem_map.mpr ⟨(n, c), hmem, rfl⟩))
      unfold childNamed
      rw [List.find?_cons, hne]
      exact ih hnd.2 hmem

theorem findNode_append (p q : FPath) (t : FST α) :
    FST.findNode (p ++ q) t = (FST.findNode p t).bind (FST.findNode q) := by
  induction p generalizing t with
  | nil => simp [FST.findNode]
  | cons n p ih =>
    cases t with
    | file a => simp [FST.findNode]
    | dir cs =>
      simp only [List.cons_append, FST.findNode]
      cases childNamed cs n with
      | none => simp
      | some c => simpa using ih c

theorem wfNames_child {cs : List (String × FST α)} {n : String} {c : FST α}
    (hwf : wfNames (.dir cs)) (h : (n, c) ∈ cs) : wfNames c := by
  rw [wfNames_dir, Bool.and_eq_true, List.all_eq_true] at hwf
  exact hwf.2 (n, c) h

theorem wfNames_names_nodup {cs : List (String × FST α)}
    (hwf : wfNames (.dir cs)) : (cs.map (fun e => e.1)).Nodup := by
  rw [wfNames_dir, Bool.and_eq_true] at hwf
  exact of_decide_eq_true hwf.1

theorem wfNames_findNode {t : FST α} {p : FPath} {s : FST α}
    (hwf : wfNames t) (h : FST.findNode p t = some s) : wfNames s := by
  induction p generalizing t with
  | nil => simp [FST.findNode] at h; exact h ▸ hwf
  | cons n p ih =>
    cases t with
    | file a => simp [FST.findNode] at h
    | dir cs =>
      simp only [FST.findNode] at h
      cases hc : childNamed cs n with
      | none => rw [hc] at h; simp at h
      | some c =>
        rw [hc] at h
        exact ih (wfNames_child hwf (childNamed_mem hc)) h

theorem findNode_cons_dir (n : String) (q : FPath) (cs : List (String × FST α)) :
    FST.findNode (n :: q) (.dir cs)
      = (childNamed cs n).bind (FST.findNode q) := by
  simp only [FST.findNode]
  cases childNamed cs n <;> simp

/-- The paths enumerated below `pre` are exactly the nonempty suffixes
resolving to a node of the tree (on well-formed trees). -/
theorem mem_subPaths {α : Type} :
    ∀ (t : FST α), wfNames t → ∀ pre q,
      (q ∈ subPaths t pre
        ↔ ∃ r, r ≠ [] ∧ q = pre ++ r ∧ (FST.findNode r t).isSome) := by
  intro t
  induction t using FST.inductionOn with
  | file a =>
    intro _ pre q
    simp only [subPaths_file, List.not_mem_nil, false_iff]
    rintro ⟨r, hr, -, hsome⟩
    cases r with
    | nil => exact hr rfl
    | cons n r => simp [FST.findNode] at hsome
  | dir cs ih =>
    intro hwf pre q
    rw [subPaths_dir, List.mem_flatMap]
    constructor
    · rintro ⟨e, he, hq⟩
      rcases List.mem_cons.mp hq with rfl | hsub
      · refine ⟨[e.1], by simp, rfl, ?_⟩
        rw [findNode_cons_dir,
          childNamed_eq_of_mem_nodup (wfNames_names_nodup hwf) (by simpa using he)]
        simp [FST.findNode]
      · obtain ⟨r, hr, rfl, hsome⟩ :=
          (ih e he (wfNames_child hwf (by simpa using he)) (pre ++ [e.1]) _).mp hsub
        refine ⟨e.1 :: r, by simp, by simp, ?_⟩
        rw [findNode_cons_dir,
          childNamed_eq_of_mem_nodup (wfNames_names_nodup hwf) (by simpa using he)]
        simpa using hsome
    · rintro ⟨r, hr, rfl, hsome⟩
      cases r with
      | nil => exact absurd rfl hr
      | cons n r =>
        rw [findNode_cons_dir] at hsome
        cases hc : childNamed cs n with
        | none => rw [hc] at hsome; simp at hsome
        | some c =>
          rw [hc] at hsome
          rw [Option.some_bind] at hsome
          have hmem := childNamed_mem hc
          cases r with
          | nil => exact ⟨(n, c), hmem, by simp⟩
          | cons m r =>
            refine ⟨(n, c), hmem, List.mem_cons.mpr (Or.inr ?_)⟩
            rw [ih (n, c) hmem (wfNames_child hwf hmem) (pre ++ [n]) _]
            exact ⟨m :: r, by simp, by simp, hsome⟩

theorem mem_subPaths_nil {t : FST α} (hwf : wfNames t) (q : FPath) :
    q ∈ subPaths t [] ↔ q ≠ [] ∧ (FST.findNode q t).isSome := by
  rw [mem_subPaths t hwf [] q]
  constructor
  · rintro ⟨r, hr, rfl, hsome⟩
    simpa using ⟨hr, hsome⟩
  · rintro ⟨hq, hsome⟩
    exact ⟨q, hq, by simp, hsome⟩

theorem findNode_child {t : FST α} {p : FPath} {ds : List (String × FST α)}
    {e : String × FST α} (hwf : wfNames t)
    (h : FST.findNode p t = some (.dir ds)) (he : e ∈ ds) :
    FST.findNode (p ++ [e.1]) t = some e.2 := by
  rw [findNode_append, h, Option.some_bind, findNode_cons_dir,
    childNamed_eq_of_mem_nodup (wfNames_names_nodup (wfNames_findNode hwf h))
      (by simpa using he)]
  simp [FST.findNode]

theorem subPaths_shape {t : FST α} (hwf : wfNames t) {pre q : FPath}
    (h : q ∈ subPaths t pre) : ∃ r, r ≠ [] ∧ q = pre ++ r := by
  obtain ⟨r, hr, rfl, -⟩ := (mem_subPaths t hwf pre q).mp h
  exact ⟨r, hr, rfl⟩

theorem nodup_subPaths_entries {α : Type} (pre : FPath) :
    ∀ (cs : List (String × FST α)),
      (cs.map (fun e => e.1)).Nodup →
      (∀ e ∈ cs, wfNames e.2) →
      (∀ e ∈ cs, ∀ pre₂, (subPaths e.2 pre₂).Nodup) →
      (cs.flatMap (fun e => (pre ++ [e.1]) :: subPaths e.2 (pre ++ [e.1]))).Nodup := by
  intro cs
  induction cs with
  | nil => intro _ _ _; simp
  | cons e cs ih =>
    intro hnd hwf hsub
    simp only [List.map_cons, List.nodup_cons] at hnd
    rw [List.flatMap_cons]
    have hblock : ((pre ++ [e.1]) :: subPaths e.2 (pre ++ [e.1])).Nodup := by
      rw [List.nodup_cons]
      refine ⟨?_, hsub e (by simp) (pre ++ [e.1])⟩
      intro hmem
      obtain ⟨r, hr, heq⟩ := subPaths_shape (hwf e (by simp)) hmem
      exact hr (List.self_eq_append_right.mp heq)
    refine List.Nodup.append hblock
      (ih hnd.2 (fun x hx => hwf x (by simp [hx])) (fun x hx => hsub x (by simp [hx]))) ?_
    intro x hx hx₂
    have hshape₁ : ∃ r, x = pre ++ (e.1 :: r) := by
      rcases List.mem_cons.mp hx with rfl | hmem
      · exact ⟨[], by simp⟩
      · obtain ⟨r, hr, heq⟩ := subPaths_shape (hwf e (by simp)) hmem
        exact ⟨r, by simp [heq]⟩
    obtain ⟨e₂, he₂, hx₃⟩ := List.mem_flatMap.mp hx₂
    have hshape₂ : ∃ r, x = pre ++ (e₂.1 :: r) := by
      rcases List.mem_cons.mp hx₃ with rfl | hmem
      · exact ⟨[], by simp⟩
      · obtain ⟨r, hr, heq⟩ := subPaths_shape (hwf e₂ (by simp [he₂])) hmem
        exact ⟨r, by simp [heq]⟩
    obtain ⟨r₁, hr₁⟩ := hshape₁
    obtain ⟨r₂, hr₂⟩ := hshape₂
    have : e.1 :: r₁ = e₂.1 :: r₂ := List.append_cancel_left (hr₁ ▸ hr₂)
    have hname : e.1 = e₂.1 := by injection this
    exact hnd.1 (hname ▸ List.mem_map.mpr ⟨e₂, he₂, rfl⟩)

theorem nodup_subPaths {α : Type} :
    ∀ (t : FST α), wfNames t → ∀ pre, (subPaths t pre).Nodup := by
  intro t
  induction t using FST.inductionOn with
  | file a => intro _ pre; simp
  | dir cs ih =>
    intro hwf pre
    rw [subPaths_dir]
    exact nodup_subPaths_entries pre cs (wfNames_names_nodup hwf)
      (fun e he => wfNames_child hwf (by simpa using he))
      (fun e he => ih e he (wfNames_child hwf (by simpa using he)))

/-! ### How `findNode` and `removeAt` interact with pruning -/

theorem childNamed_filter_map (cs : List (String × FST α)) (kp : String → Bool)
    (g : String × FST α → FST α) (n : String) :
    childNamed ((cs.filter (fun e => kp e.1)).map (fun e => (e.1, g e))) n
      = if kp n then (cs.find? (fun e => e.1 == n)).map (fun e => g e) else none := by
  induction cs with
  | nil => cases hk : kp n <;> simp [childNamed, hk]
  | cons e cs ih =>
    rw [List.filter_cons]
    by_cases hk : kp e.1
    · rw [if_pos hk, List.map_cons]
      by_cases hn : (e.1 == n) = true
      · have hn₂ : e.1 = n := by simpa using hn
        unfold childNamed
        rw [List.find?_cons, List.find?_cons]
        simp only [hn]
        rw [if_pos (hn₂ ▸ hk)]
        rfl
      · have hn₃ : (e.1 == n) = false := by simpa using hn
        unfold childNamed
        rw [List.find?_cons, List.find?_cons]
        simp only [hn₃]
        unfold childNamed at ih
        rw [ih]
    · rw [if_neg hk]
      by_cases hn : (e.1 == n) = true
      · have hn₂ : e.1 = n := by simpa using hn
        rw [ih, if_neg (hn₂ ▸ hk)]
        rw [if_neg (hn₂ ▸ hk)]
      · have hn₃ : (e.1 == n) = false := by simpa using hn
        rw [ih]
        by_cases hkn : kp n
        · rw [if_pos hkn, if_pos hkn, List.find?_cons, hn₃]
        · rw [if_neg hkn, if_neg hkn]

theorem findNode_pruneBy (keep : FPath → Bool) :
    ∀ (q : FPath) (t : FST α) (pre : FPath),
      FST.findNode q (pruneBy keep t pre)
        = if chainKeep keep pre q
          then (FST.findNode q t).map (fun s => pruneBy keep s (pre ++ q))
          else none := by
  intro q
  induction q with
  | nil =>
    intro t pre
    simp [FST.findNode, chainKeep]
  | cons n q ih =>
    intro t pre
    cases t with
    | file a =>
      rw [pruneBy_file]
      cases hck : chainKeep keep pre (n :: q) <;> simp [FST.findNode]
    | dir cs =>
      rw [pruneBy_dir, findNode_cons_dir,
        childNamed_filter_map cs (fun m => keep (pre ++ [m]))
          (fun e => pruneBy keep e.2 (pre ++ [e.1])) n]
      by_cases hk : keep (pre ++ [n])
      · rw [if_pos hk]
        cases hf : cs.find? (fun e => e.1 == n) with
        | none =>
          have hcn : childNamed cs n = none := by
            unfold childNamed; rw [hf]; rfl
          rw [findNode_cons_dir, hcn]
          cases hck : chainKeep keep pre (n :: q) <;> simp
        | some e =>
          have he1 : e.1 = n := by simpa using List.find?_some hf
          have hcn : childNamed cs n = some e.2 := by
            unfold childNamed; rw [hf]; rfl
          simp only [Option.map_some', Option.some_bind]
          rw [he1, ih e.2 (pre ++ [n])]
          rw [findNode_cons_dir, hcn, Option.some_bind]
          have hchain : chainKeep keep pre (n :: q)
              = (keep (pre ++ [n]) && chainKeep keep (pre ++ [n]) q) := rfl
          rw [hchain, hk, Bool.true_and,
            show pre ++ n :: q = pre ++ [n] ++ q by simp]
      · rw [if_neg hk]
        have hchain : chainKeep keep pre (n :: q)
            = (keep (pre ++ [n]) && chainKeep keep (pre ++ [n]) q) := rfl
        rw [hchain]
        simp only [hk, Bool.false_and, Option.none_bind]
        simp

theorem pruneBy_true {α : Type} :
    ∀ (t : FST α) (pre : FPath), pruneBy (fun _ => true) t pre = t := by
  intro t
  induction t using FST.inductionOn with
  | file a => intro pre; simp
  | dir cs ih =>
    intro pre
    rw [pruneBy_dir]
    congr 1
    rw [List.filter_true]
    calc cs.map (fun e => (e.1, pruneBy (fun _ => true) e.2 (pre ++ [e.1])))
        = cs.map (fun e => e) := by
          apply List.map_congr_left
          intro e he
          rw [ih e he (pre ++ [e.1])]
    _ = cs := by simp

theorem findNode_single_isSome {cs : List (String × FST α)} {n : String} {c : FST α}
    (h : (n, c) ∈ cs) : (FST.findNode [n] (.dir cs)).isSome := by
  rw [findNode_cons_dir]
  cases hc : childNamed cs n with
  | none => rw [childNamed] at hc; simp at hc; exact absurd (hc n c h) (by simp)
  | some c₂ => simp [FST.findNode]

/-- Pruning only inspects `keep` at paths that denote a node of the
tree, so two keep functions agreeing there prune identically. -/
theorem pruneBy_congr {α : Type} {keep₁ keep₂ : FPath → Bool} :
    ∀ (t : FST α), wfNames t → ∀ pre,
      (∀ r, r ≠ [] → (FST.findNode r t).isSome →
        keep₁ (pre ++ r) = keep₂ (pre ++ r)) →
      pruneBy keep₁ t pre = pruneBy keep₂ t pre := by
  intro t
  induction t using FST.inductionOn with
  | file a => intro _ pre _; simp
  | dir cs ih =>
    intro hwf pre hagree
    rw [pruneBy_dir, pruneBy_dir]
    have hfilter : cs.filter (fun e => keep₁ (pre ++ [e.1]))
        = cs.filter (fun e => keep₂ (pre ++ [e.1])) := by
      apply List.filter_congr
      intro e he
      exact hagree [e.1] (by simp) (findNode_single_isSome (by simpa using he))
    rw [← hfilter]
    congr 1
    apply List.map_congr_left
    intro e he
    have hecs : e ∈ cs := List.mem_of_mem_filter he
    have hwfc : wfNames e.2 := wfNames_child hwf (by simpa using hecs)
    congr 1
    apply ih e hecs hwfc
    intro r hr hsome
    have hchild : childNamed cs e.1 = some e.2 :=
      childNamed_eq_of_mem_nodup (wfNames_names_nodup hwf) (by simpa using hecs)
    have : (FST.findNode (e.1 :: r) (.dir cs)).isSome := by
      rw [findNode_cons_dir, hchild, Option.some_bind]
      exact hsome
    have h₂ := hagree (e.1 :: r) (by simp) this
    rw [show pre ++ e.1 :: r = pre ++ [e.1] ++ r by simp] at h₂
    exact h₂

/-- Removing the entry at `pre ++ p` from a pruned tree is the same as
pruning with `keep` forced to `false` at `pre ++ p`. -/
theorem removeAt_pruneBy {α : Type} {keep : FPath → Bool} :
    ∀ (t : FST α), wfNames t → ∀ (pre p : FPath), p ≠ [] →
      FST.removeAt p (pruneBy keep t pre)
        = pruneBy (fun r => if r = pre ++ p then false else keep r) t pre := by
  intro t
  induction t using FST.inductionOn with
  | file a =>
    intro _ pre p hp
    cases p with
    | nil => exact absurd rfl hp
    | cons n p => simp [FST.removeAt]
  | dir cs ih =>
    intro hwf pre p hp
    cases p with
    | nil => exact absurd rfl hp
    | cons n p' =>
      cases p' with
      | nil =>
        -- unlink / rmdir of a direct child named n
        rw [pruneBy_dir, pruneBy_dir]
        show FST.dir (((cs.filter _).map _).eraseP _) = _
        congr 1
        have hnames := wfNames_names_nodup hwf
        have hwfc : ∀ e ∈ cs, wfNames e.2 := by
          intro e he; exact wfNames_child hwf (by simpa using he)
        have hgcongr : ∀ e ∈ cs, e.1 ≠ n →
            pruneBy (fun r => if r = pre ++ [n] then false else keep r) e.2 (pre ++ [e.1])
              = pruneBy keep e.2 (pre ++ [e.1]) := by
          intro e he hne
          apply pruneBy_congr e.2 (hwfc e he)
          intro r hr _
          have : pre ++ [e.1] ++ r ≠ pre ++ [n] := by
            intro hcontra
            rw [show pre ++ [e.1] ++ r = pre ++ ([e.1] ++ r) by simp] at hcontra
            have := List.append_cancel_left hcontra
            cases r with
            | nil => simp at this; exact hne this
            | cons m r => simp at this
          rw [if_neg this]
        clear hwf ih
        induction cs with
        | nil => simp
        | cons e cs ihcs =>
          simp only [List.map_cons, List.nodup_cons] at hnames
          by_cases hen : e.1 = n
          · have hf₂ : (if pre ++ [e.1] = pre ++ [n] then false else keep (pre ++ [e.1]))
                = false := by rw [hen, if_pos rfl]
            have hnomatch : ∀ x ∈ cs, ¬(x.1 = n) := by
              intro x hx hxn
              exact hnames.1 (List.mem_map.mpr ⟨x, hx, hxn.trans hen.symm⟩)
            have hrest : cs.filter
                  (fun e => if pre ++ [e.1] = pre ++ [n] then false else keep (pre ++ [e.1]))
                = cs.filter (fun e => keep (pre ++ [e.1])) := by
              apply List.filter_congr
              intro x hx
              have : pre ++ [x.1] ≠ pre ++ [n] := by
                intro hcontra
                have := List.append_cancel_left hcontra
                simp at this
                exact hnomatch x hx this
              rw [if_neg this]
            have hrestmap : (cs.filter (fun e => keep (pre ++ [e.1]))).map
                  (fun e => (e.1,
                    pruneBy (fun r => if r = pre ++ [n] then false else keep r) e.2 (pre ++ [e.1])))
                = (cs.filter (fun e => keep (pre ++ [e.1]))).map
                  (fun e => (e.1, pruneBy keep e.2 (pre ++ [e.1]))) := by
              apply List.map_congr_left
              intro x hx
              have hxcs := List.mem_of_mem_filter hx
              rw [hgcongr x (by simp [hxcs]) (hnomatch x hxcs)]
            by_cases hk : keep (pre ++ [e.1])
            · rw [List.filter_cons, if_pos hk, List.map_cons,
                List.eraseP_cons_of_pos (by simp [hen]),
                List.filter_cons, hf₂, if_neg Bool.false_ne_true, hrest, hrestmap]
            · rw [List.filter_cons, if_neg hk, List.filter_cons, hf₂,
                if_neg Bool.false_ne_true, hrest, hrestmap]
              apply List.eraseP_of_forall_not
              intro x hx
              obtain ⟨y, hy, rfl⟩ := List.mem_map.mp hx
              have hycs := List.mem_of_mem_filter hy
              simp only
              intro hcontra
              exact hnomatch y hycs (by simpa using hcontra)
          · have hf₂ : (if pre ++ [e.1] = pre ++ [n] then false else keep (pre ++ [e.1]))
                = keep (pre ++ [e.1]) := by
              rw [if_neg]
              intro hcontra
              have := List.append_cancel_left hcontra
              simp at this
              exact hen this
            have ihtail := ihcs hnames.2
              (fun x hx => hwfc x (by simp [hx]))
              (fun x hx hxn => hgcongr x (by simp [hx]) hxn)
            by_cases hk : keep (pre ++ [e.1])
            · rw [List.filter_cons, if_pos hk, List.map_cons,
                List.eraseP_cons_of_neg (by simp [hen]),
                List.filter_cons, hf₂, if_pos hk, List.map_cons,
                hgcongr e (by simp) hen, ihtail]
            · rw [List.filter_cons, if_neg hk, List.filter_cons, hf₂, if_neg hk, ihtail]
      | cons m p'' =>
        -- removal deeper inside the child named n
        rw [pruneBy_dir, pruneBy_dir]
        show FST.dir (((cs.filter _).map _).map _) = _
        rw [List.map_map]
        congr 1
        have hf₂ : cs.filter (fun e =>
              if pre ++ [e.1] = pre ++ (n :: m :: p'') then false else keep (pre ++ [e.1]))
            = cs.filter (fun e => keep (pre ++ [e.1])) := by
          apply List.filter_congr
          intro x _
          rw [if_neg]
          intro hcontra
          have := congrArg List.length hcontra
          simp at this
        rw [hf₂]
        apply List.map_congr_left
        intro e he
        have hecs := List.mem_of_mem_filter he
        have hwfc : wfNames e.2 := wfNames_child hwf (by simpa using hecs)
        by_cases hen : e.1 = n
        · simp only [Function.comp_apply, hen, beq_self_eq_true, if_pos]
          have hih := ih e hecs hwfc (pre ++ [n]) (m :: p'') (by simp)
          rw [show pre ++ n :: m :: p'' = pre ++ [n] ++ (m :: p'') by simp]
          rw [hih]
        · simp only [Function.comp_apply, show (e.1 == n) = false by simpa using hen,
            Bool.false_eq_true, if_false]
          congr 1
          apply (pruneBy_congr e.2 hwfc (pre ++ [e.1]) _).symm
          intro r hr _
          rw [if_neg]
          intro hcontra
          rw [show pre ++ [e.1] ++ r = pre ++ ([e.1] ++ r) by simp] at hcontra
          have := List.append_cancel_left hcontra
          cases r with
          | nil => simp at this
          | cons a r => simp at this; exact hen this.1

/-! ### The sweep deletes exactly the non-surviving nodes -/

/-- The keep function describing the tree state after the sweep has
processed the paths in `done`: a node is still present when it has not
been processed yet, or when it survives processing. -/
def keepAfter (t : FST α) (S done : List FPath) (q : FPath) : Bool :=
  decide (q ∉ done) || survivesAt t S q

/-- Number of deletions after processing `done`. -/
def delCount (t : FST α) (S : List FPath) (done : List FPath) : Nat :=
  (done.filter (fun q => !survivesAt t S q)).length

theorem chainKeep_iff (keep : FPath → Bool) :
    ∀ (q pre : FPath),
      chainKeep keep pre q = true
        ↔ ∀ r, r ≠ [] → r <+: q → keep (pre ++ r) = true := by
  intro q
  induction q with
  | nil =>
    intro pre
    simp only [chainKeep, true_iff]
    intro r hr hpre
    exact absurd (List.prefix_nil.mp hpre) hr
  | cons n q ih =>
    intro pre
    simp only [chainKeep, Bool.and_eq_true, ih (pre ++ [n])]
    constructor
    · rintro ⟨hk, hrest⟩ r hr hpre
      cases r with
      | nil => exact absurd rfl hr
      | cons m r =>
        obtain ⟨heq, hr₂⟩ := List.cons_prefix_cons.mp hpre
        subst heq
        cases r with
        | nil => simpa using hk
        | cons a r =>
          have := hrest (a :: r) (by simp) hr₂
          simpa using this
    · intro h
      refine ⟨by simpa using h [n] (by simp) (by simp), ?_⟩
      intro r hr hpre
      have := h (n :: r) (by simp) (List.cons_prefix_cons.mpr ⟨rfl, hpre⟩)
      simpa using this

theorem delCount_append_singleton (t : FST α) (S done : List FPath) (p : FPath) :
    delCount t S (done ++ [p])
      = delCount t S done + (if survivesAt t S p then 0 else 1) := by
  unfold delCount
  rw [List.filter_append, List.length_append]
  cases h : survivesAt t S p <;> simp [h]

theorem keepAfter_snoc_survive {t : FST α} {S done : List FPath} {p : FPath}
    (hwf : wfNames t) (hpdone : p ∉ done) (hsurv : survivesAt t S p = true) :
    pruneBy (keepAfter t S done) t [] = pruneBy (keepAfter t S (done ++ [p])) t [] := by
  apply pruneBy_congr t hwf
  intro r _ _
  simp only [List.nil_append]
  unfold keepAfter
  by_cases hrp : r = p
  · subst hrp
    rw [hsurv, Bool.or_true, Bool.or_true]
  · have : (r ∉ done ++ [p]) ↔ (r ∉ done) := by simp [hrp]
    rw [decide_eq_decide.mpr this]

theorem keepAfter_snoc_delete {t : FST α} {S done : List FPath} {p : FPath}
    (hwf : wfNames t) (hsurv : survivesAt t S p = false) :
    pruneBy (fun r => if r = p then false else keepAfter t S done r) t []
      = pruneBy (keepAfter t S (done ++ [p])) t [] := by
  apply pruneBy_congr t hwf
  intro r _ _
  simp only [List.nil_append]
  by_cases hrp : r = p
  · subst hrp
    rw [if_pos rfl]
    unfold keepAfter
    rw [hsurv, Bool.or_false]
    simp
  · rw [if_neg hrp]
    unfold keepAfter
    have : (r ∉ done ++ [p]) ↔ (r ∉ done) := by simp [hrp]
    rw [decide_eq_decide.mpr this]

/-- One iteration of the failure-free sweep, at the moment every path
strictly deeper than `p` has been processed and no path at `p`'s depth
or shallower has: it deletes `p` exactly when `p` does not survive. -/
theorem cleanupStep_inv {α : Type} {t : FST α} (hwf : wfNames t) (S : List FPath)
    {done rem : List FPath} {p : FPath}
    (hperm : (done ++ p :: rem).Perm (subPaths t []))
    (hpw : List.Pairwise deeperFirst (done ++ p :: rem)) :
    cleanupStep S (fun _ => false)
        (pruneBy (keepAfter t S done) t [], delCount t S done) p
      = (pruneBy (keepAfter t S (done ++ [p])) t [], delCount t S (done ++ [p])) := by
  have hPmem : p ∈ subPaths t [] := hperm.subset (by simp)
  have hnd : (done ++ p :: rem).Nodup :=
    (hperm.symm).nodup (nodup_subPaths t hwf [])
  have hpdone : p ∉ done := fun h =>
    (List.disjoint_of_nodup_append hnd) h (by simp)
  rw [List.pairwise_append] at hpw
  obtain ⟨-, hpwrest, hcross⟩ := hpw
  have hpfirst : ∀ b ∈ rem, deeperFirst p b :=
    (List.pairwise_cons.mp hpwrest).1
  have hanc : ∀ q, q.length < p.length → q ∉ done := by
    intro q hlen hq
    have := hcross q hq p (by simp)
    unfold deeperFirst at this
    omega
  have hdeep : ∀ q, q ∈ subPaths t [] → p.length < q.length → q ∈ done := by
    intro q hq hlen
    have hq₂ : q ∈ done ++ p :: rem := hperm.symm.subset hq
    rcases List.mem_append.mp hq₂ with h | h
    · exact h
    · rcases List.mem_cons.mp h with rfl | h
      · omega
      · have := hpfirst q h
        unfold deeperFirst at this
        omega
  obtain ⟨hpne, hfindsome⟩ := (mem_subPaths_nil hwf p).mp hPmem
  obtain ⟨tp, htp⟩ := Option.isSome_iff_exists.mp hfindsome
  have hchainp : chainKeep (keepAfter t S done) [] p = true := by
    rw [chainKeep_iff]
    intro r hr hrpre
    rw [List.nil_append]
    unfold keepAfter
    rw [Bool.or_eq_true]
    left
    apply decide_eq_true
    by_cases hrp : r = p
    · exact hrp ▸ hpdone
    · have hlt : r.length < p.length := by
        have hle := hrpre.length_le
        rcases Nat.lt_or_ge r.length p.length with h | h
        · exact h
        · exact absurd (hrpre.eq_of_length (by omega)) hrp
      exact hanc r hlt
  have hfp : FST.findNode p (pruneBy (keepAfter t S done) t [])
      = some (pruneBy (keepAfter t S done) tp p) := by
    rw [findNode_pruneBy, hchainp, if_pos rfl, htp, Option.map_some', List.nil_append]
  by_cases hpS : p ∈ S
  · have hsurv : survivesAt t S p = true := by
      unfold survivesAt
      rw [htp]
      cases tp <;> simp [hpS]
    simp only [cleanupStep, if_pos hpS]
    rw [keepAfter_snoc_survive hwf hpdone hsurv, delCount_append_singleton]
    simp [hsurv]
  · simp only [cleanupStep, if_neg hpS, Bool.false_eq_true, if_false]
    cases tp with
    | file a =>
      have hsurvf : survivesAt t S p = false := by
        unfold survivesAt
        rw [htp]
        show survives S (.file a) p = false
        rw [survives_file]
        exact decide_eq_false hpS
      rw [pruneBy_file] at hfp
      rw [hfp]
      show (FST.removeAt p (pruneBy (keepAfter t S done) t []), delCount t S done + 1) = _
      rw [removeAt_pruneBy t hwf [] p hpne]
      simp only [List.nil_append]
      rw [keepAfter_snoc_delete hwf hsurvf, delCount_append_singleton, hsurvf]
      simp
    | dir ds =>
      have hchild : ∀ e ∈ ds, FST.findNode (p ++ [e.1]) t = some e.2 := by
        intro e he
        exact findNode_child hwf htp he
      have hchildmem : ∀ e ∈ ds, p ++ [e.1] ∈ subPaths t [] := by
        intro e he
        exact (mem_subPaths_nil hwf _).mpr ⟨by simp, by rw [hchild e he]; rfl⟩
      have hchilddone : ∀ e ∈ ds, (p ++ [e.1]) ∈ done := by
        intro e he
        exact hdeep _ (hchildmem e he) (by simp)
      have hkeq : ds.filter (fun e => keepAfter t S done (p ++ [e.1]))
          = ds.filter (fun e => survives S e.2 (p ++ [e.1])) := by
        apply List.filter_congr
        intro e he
        unfold keepAfter
        rw [decide_eq_false (by simpa using hchilddone e he), Bool.false_or]
        unfold survivesAt
        rw [hchild e he]
      rw [pruneBy_dir, hkeq] at hfp
      rw [hfp]
      by_cases hany : ds.any (fun e => survives S e.2 (p ++ [e.1])) = true
      · have hsurv : survivesAt t S p = true := by
          unfold survivesAt
          rw [htp]
          show survives S (.dir ds) p = true
          rw [survives_dir, hany, Bool.or_true]
        obtain ⟨e, he, hse⟩ := List.any_eq_true.mp hany
        have hne : ((ds.filter (fun e => survives S e.2 (p ++ [e.1]))).map
            (fun e => (e.1, pruneBy (keepAfter t S done) e.2 (p ++ [e.1])))).isEmpty = false := by
          rw [List.isEmpty_eq_false]
          intro hcontra
          have : e ∈ ds.filter (fun e => survives S e.2 (p ++ [e.1])) :=
            List.mem_filter.mpr ⟨he, hse⟩
          rw [List.map_eq_nil_iff.mp hcontra] at this
          simp at this
        show (if ((ds.filter (fun e => survives S e.2 (p ++ [e.1]))).map
            (fun e => (e.1, pruneBy (keepAfter t S done) e.2 (p ++ [e.1])))).isEmpty
          then (FST.removeAt p (pruneBy (keepAfter t S done) t []), delCount t S done + 1)
          else (pruneBy (keepAfter t S done) t [], delCount t S done)) = _
        rw [hne]
        simp only [Bool.false_eq_true, if_false]
        rw [keepAfter_snoc_survive hwf hpdone hsurv, delCount_append_singleton]
        simp [hsurv]
      · have hanyf : ds.any (fun e => survives S e.2 (p ++ [e.1])) = false :=
          Bool.eq_false_iff.mpr hany
        have hsurvf : survivesAt t S p = false := by
          unfold survivesAt
          rw [htp]
          show survives S (.dir ds) p = false
          rw [survives_dir, hanyf, Bool.or_false]
          exact decide_eq_false hpS
        have hfe : ds.filter (fun e => survives S e.2 (p ++ [e.1])) = [] := by
          rw [List.filter_eq_nil_iff]
          intro e he
          have := List.any_eq_false.mp hanyf e he
          simpa using this
        rw [hfe]
        show (FST.removeAt p (pruneBy (keepAfter t S done) t []), delCount t S done + 1) = _
        rw [removeAt_pruneBy t hwf [] p hpne]
        simp only [List.nil_append]
        rw [keepAfter_snoc_delete hwf hsurvf, delCount_append_singleton, hsurvf]
        simp

theorem cleanup_fold_inv {α : Type} {t : FST α} (hwf : wfNames t) (S : List FPath) :
    ∀ (rem done : List FPath),
      (done ++ rem).Perm (subPaths t []) →
      List.Pairwise deeperFirst (done ++ rem) →
      rem.foldl (cleanupStep S (fun _ => false))
          (pruneBy (keepAfter t S done) t [], delCount t S done)
        = (pruneBy (keepAfter t S (done ++ rem)) t [],
            delCount t S (done ++ rem)) := by
  intro rem
  induction rem with
  | nil => intro done h₁ h₂; simp
  | cons p rem ih =>
    intro done hperm hpw
    rw [List.foldl_cons, cleanupStep_inv hwf S hperm hpw]
    have h₃ := ih (done ++ [p]) (by simpa using hperm) (by simpa using hpw)
    rw [h₃]
    simp

/-- Master characterization of the failure-free sweep: the resulting
tree keeps exactly the surviving nodes and the count is the number of
non-survivors. -/
theorem cleanupDir_eq {α : Type} {t : FST α} (hwf : wfNames t) (S : List FPath) :
    cleanupDir t S (fun _ => false)
      = (pruneBy (fun q => survivesAt t S q) t [],
          ((subPaths t []).filter (fun q => !survivesAt t S q)).length) := by
  unfold cleanupDir
  have hperm : ([] ++ (subPaths t []).insertionSort deeperFirst).Perm (subPaths t []) := by
    simpa using List.perm_insertionSort deeperFirst (subPaths t [])
  have hpw : List.Pairwise deeperFirst
      ([] ++ (subPaths t []).insertionSort deeperFirst) := by
    simpa using List.sorted_insertionSort deeperFirst (subPaths t [])
  have hstart : pruneBy (keepAfter t S []) t [] = t := by
    rw [show pruneBy (keepAfter t S []) t [] = pruneBy (fun _ => true) t [] from
      pruneBy_congr t hwf [] (by intro r _ _; unfold keepAfter; simp)]
    exact pruneBy_true t []
  have h := cleanup_fold_inv hwf S ((subPaths t []).insertionSort deeperFirst) [] hperm hpw
  simp only [List.nil_append] at h
  rw [hstart] at h
  rw [show delCount t S ([] : List FPath) = 0 from rfl] at h
  rw [h]
  have hsortperm := List.perm_insertionSort deeperFirst (subPaths t [])
  refine Prod.ext ?_ ?_
  · apply pruneBy_congr t hwf
    intro r hr hsome
    rw [List.nil_append]
    unfold keepAfter
    have hrP : r ∈ subPaths t [] := (mem_subPaths_nil hwf r).mpr ⟨hr, hsome⟩
    have hrsorted : r ∈ (subPaths t []).insertionSort deeperFirst :=
      hsortperm.symm.subset hrP
    rw [decide_eq_false (by simpa using hrsorted), Bool.false_or]
  · show delCount t S ((subPaths t []).insertionSort deeperFirst) = _
    unfold delCount
    exact (hsortperm.filter _).length_eq

theorem isSome_findNode_of_append {t : FST α} {p q : FPath}
    (h : (FST.findNode (p ++ q) t).isSome) : (FST.findNode p t).isSome := by
  rw [findNode_append] at h
  cases hp : FST.findNode p t with
  | none => rw [hp] at h; simp at h
  | some s => simp

/-- A surviving node makes its parent survive: the parent directory is
then non-empty after the sweep, and the sweep never removes it. -/
theorem survivesAt_parent {t : FST α} {S : List FPath} (q : FPath) (n : String)
    (hsome : (FST.findNode (q ++ [n]) t).isSome)
    (hs : survivesAt t S (q ++ [n]) = true) :
    survivesAt t S q = true := by
  have hq : (FST.findNode q t).isSome := isSome_findNode_of_append hsome
  obtain ⟨tq, htq⟩ := Option.isSome_iff_exists.mp hq
  rw [findNode_append, htq, Option.some_bind] at hsome
  cases tq with
  | file a => simp [FST.findNode] at hsome
  | dir ds =>
    rw [findNode_cons_dir] at hsome
    cases hc : childNamed ds n with
    | none => rw [hc] at hsome; simp at hsome
    | some c =>
      have hsc : survives S c (q ++ [n]) = true := by
        unfold survivesAt at hs
        rw [findNode_append, htq, Option.some_bind, findNode_cons_dir, hc,
          Option.some_bind] at hs
        simpa [FST.findNode] using hs
      unfold survivesAt
      rw [htq]
      show survives S (.dir ds) q = true
      rw [survives_dir, Bool.or_eq_true]
      right
      rw [List.any_eq_true]
      exact ⟨(n, c), childNamed_mem hc, hsc⟩

/-- Survival propagates from a node to each of its ancestors. -/
theorem survivesAt_prefix {t : FST α} {S : List FPath} {r : FPath} :
    ∀ (s : List String), (FST.findNode (r ++ s) t).isSome →
      survivesAt t S (r ++ s) = true → survivesAt t S r = true := by
  intro s
  induction s using List.reverseRecOn with
  | nil => intro h₁ h₂; simpa using h₂
  | append_singleton s n ih =>
    intro h₁ h₂
    rw [show r ++ (s ++ [n]) = (r ++ s) ++ [n] by simp] at h₁ h₂
    exact ih (isSome_findNode_of_append h₁) (survivesAt_parent (r ++ s) n h₁ h₂)

/-- Pointwise description of the swept tree: an enumerated path is still
present if and only if its node survives. -/
theorem findNode_pruneSurvive_isSome_iff {t : FST α} {S : List FPath}
    (hwf : wfNames t) {p : FPath} (hp : p ∈ subPaths t []) :
    (FST.findNode p (pruneBy (fun q => survivesAt t S q) t [])).isSome
      ↔ survivesAt t S p = true := by
  obtain ⟨hpne, hsome⟩ := (mem_subPaths_nil hwf p).mp hp
  rw [findNode_pruneBy]
  constructor
  · intro h
    by_cases hck : chainKeep (fun q => survivesAt t S q) [] p = true
    · have := (chainKeep_iff _ p []).mp hck p hpne (List.prefix_refl p)
      simpa using this
    · rw [if_neg hck] at h
      simp at h
  · intro hs
    have hck : chainKeep (fun q => survivesAt t S q) [] p = true := by
      rw [chainKeep_iff]
      intro r hr hrpre
      rw [List.nil_append]
      obtain ⟨s, rfl⟩ := hrpre
      exact survivesAt_prefix s hsome hs
    rw [if_pos hck]
    obtain ⟨tp, htp⟩ := Option.isSome_iff_exists.mp hsome
    rw [htp]
    simp

theorem survivesAt_of_mem_written {t : FST α} {S : List FPath} {p : FPath}
    (hsome : (FST.findNode p t).isSome) (hpS : p ∈ S) :
    survivesAt t S p = true := by
  obtain ⟨tp, htp⟩ := Option.isSome_iff_exists.mp hsome
  unfold survivesAt
  rw [htp]
  cases tp <;> simp [hpS]

theorem isNone_findNode_pruneSurvive {t : FST α} {S : List FPath}
    (hwf : wfNames t) {p : FPath} (hp : p ∈ subPaths t []) :
    (FST.findNode p (pruneBy (fun q => survivesAt t S q) t [])).isNone
      = !survivesAt t S p := by
  have hiff := findNode_pruneSurvive_isSome_iff (S := S) hwf hp
  cases hfn : FST.findNode p (pruneBy (fun q => survivesAt t S q) t []) with
  | none =>
    rw [hfn] at hiff
    simp only [Option.isSome_none] at hiff
    cases hsv : survivesAt t S p
    · simp
    · exact absurd (hiff.mpr hsv) (by simp)
  | some s =>
    rw [hfn] at hiff
    simp only [Option.isSome_some] at hiff
    rw [hiff.mp trivial]
    simp

/-- Claim C1.  On every well-formed tree `t` (the existing local state)
and written-paths set `S`, the failure-free sweep `cleanupDir`:
deletes exactly the files under the root that are not in `S`; never
deletes a path in `S`; deletes a directory not in `S` exactly when
every entry below it has been deleted (equivalently, never deletes a
directory that still contains an entry); and returns exactly the number
of paths it deleted. -/
theorem cleanup_deletes_exactly_unwritten {α : Type} (t : FST α) (S : List FPath)
    (hwf : wfNames t = true) :
    (∀ p, p ∈ subPaths t [] → p ∈ S →
        (FST.findNode p (cleanupDir t S (fun _ => false)).1).isSome = true) ∧
    (∀ p a, p ∈ subPaths t [] → FST.findNode p t = some (.file a) → p ∉ S →
        FST.findNode p (cleanupDir t S (fun _ => false)).1 = none) ∧
    (∀ p ds, p ∈ subPaths t [] → FST.findNode p t = some (.dir ds) → p ∉ S →
        (FST.findNode p (cleanupDir t S (fun _ => false)).1 = none
          ↔ ∀ q, q ∈ subPaths t [] → p <+: q → q ≠ p →
              FST.findNode q (cleanupDir t S (fun _ => false)).1 = none)) ∧
    (cleanupDir t S (fun _ => false)).2
      = ((subPaths t []).filter
          (fun p => (FST.findNode p (cleanupDir t S (fun _ => false)).1).isNone)).length := by
  rw [cleanupDir_eq hwf S]
  refine ⟨?_, ?_, ?_, ?_⟩
  · intro p hp hpS
    exact (findNode_pruneSurvive_isSome_iff hwf hp).mpr
      (survivesAt_of_mem_written ((mem_subPaths_nil hwf p).mp hp).2 hpS)
  · intro p a hp htp hpS
    have hsv : survivesAt t S p = false := by
      unfold survivesAt
      rw [htp]
      show survives S (.file a) p = false
      rw [survives_file]
      exact decide_eq_false hpS
    rw [← Option.not_isSome_iff_eq_none]
    intro hcontra
    rw [(findNode_pruneSurvive_isSome_iff hwf hp).mp hcontra] at hsv
    simp at hsv
  · intro p ds hp htp hpS
    constructor
    · intro hnone q hq hpq hqp
      rw [← Option.not_isSome_iff_eq_none]
      intro hq_some
      have hsvq := (findNode_pruneSurvive_isSome_iff hwf hq).mp hq_some
      obtain ⟨s, rfl⟩ := hpq
      have hqt : (FST.findNode (p ++ s) t).isSome :=
        ((mem_subPaths_nil hwf _).mp hq).2
      have hsvp := survivesAt_prefix s hqt hsvq
      have := (findNode_pruneSurvive_isSome_iff hwf hp).mpr hsvp
      rw [hnone] at this
      simp at this
    · intro hall
      rw [← Option.not_isSome_iff_eq_none]
      intro hp_some
      have hsvp := (findNode_pruneSurvive_isSome_iff hwf hp).mp hp_some
      unfold survivesAt at hsvp
      rw [htp] at hsvp
      have hsvp₂ : survives S (.dir ds) p = true := hsvp
      rw [survives_dir, Bool.or_eq_true] at hsvp₂
      rcases hsvp₂ with h | h
      · exact hpS (of_decide_eq_true h)
      · obtain ⟨e, he, hse⟩ := List.any_eq_true.mp h
        have hchild := findNode_child hwf htp he
        have hqmem : p ++ [e.1] ∈ subPaths t [] :=
          (mem_subPaths_nil hwf _).mpr ⟨by simp, by rw [hchild]; rfl⟩
        have hsvq : survivesAt t S (p ++ [e.1]) = true := by
          unfold survivesAt
          rw [hchild]
          exact hse
        have hq_some := (findNode_pruneSurvive_isSome_iff hwf hqmem).mpr hsvq
        rw [hall (p ++ [e.1]) hqmem (by simp) (by simp)] at hq_some
        simp at hq_some
  · show ((subPaths t []).filter (fun q => !survivesAt t S q)).length = _
    congr 1
    apply List.filter_congr
    intro p hp
    exact (isNone_findNode_pruneSurvive hwf hp).symm

/-- The concrete scenario of the spec: `a/b/c/file.md` with written set
`{root, a, a/b}` (the root is `[]` here). -/
def exC1Tree : FST Unit :=
  .dir [("a", .dir [("b", .dir [("c", .dir [("file.md", .file ())])])])]

def exC1S : List FPath := [[], ["a"], ["a", "b"]]

theorem exC1_wf : wfNames exC1Tree = true := by
  simp [exC1Tree, wfNames_dir, wfNames_file]

theorem exC1_sub : subPaths exC1Tree []
    = [["a"], ["a", "b"], ["a", "b", "c"], ["a", "b", "c", "file.md"]] := by
  simp [exC1Tree, subPaths_dir, subPaths_file]

/-- Witness for C1: on the spec's concrete scenario the hypotheses hold,
the sweep deletes exactly `a/b/c/file.md` and the emptied `a/b/c`,
keeps `a` and `a/b`, and reports 2 deletions. -/
theorem cleanup_deletes_exactly_unwritten_witness :
    wfNames exC1Tree = true ∧
    (cleanupDir exC1Tree exC1S (fun _ => false)).2
      = ((subPaths exC1Tree []).filter
          (fun p => (FST.findNode p (cleanupDir exC1Tree exC1S (fun _ => false)).1).isNone)).length ∧
    (cleanupDir exC1Tree exC1S (fun _ => false)).2 = 2 ∧
    (FST.findNode ["a", "b", "c", "file.md"] (cleanupDir exC1Tree exC1S (fun _ => false)).1).isNone = true ∧
    (FST.findNode ["a", "b", "c"] (cleanupDir exC1Tree exC1S (fun _ => false)).1).isNone = true ∧
    (FST.findNode ["a", "b"] (cleanupDir exC1Tree exC1S (fun _ => false)).1).isSome = true := by
  refine ⟨exC1_wf,
    (cleanup_deletes_exactly_unwritten exC1Tree exC1S exC1_wf).2.2.2, ?_, ?_, ?_, ?_⟩ <;>
    (unfold cleanupDir; rw [exC1_sub]; decide)

/-! ## Claim C9: the output directory root itself is never a candidate -/

theorem subPaths_longer {α : Type} :
    ∀ (t : FST α) (pre q : FPath), q ∈ subPaths t pre → pre.length < q.length := by
  intro t
  induction t using FST.inductionOn with
  | file a => intro pre q hq; simp at hq
  | dir cs ih =>
    intro pre q hq
    rw [subPaths_dir, List.mem_flatMap] at hq
    obtain ⟨e, he, hq⟩ := hq
    rcases List.mem_cons.mp hq with rfl | hq
    · simp
    · have := ih e he (pre ++ [e.1]) q hq
      simp at this
      omega

def FST.isDirB : FST α → Bool
  | .file _ => false
  | .dir _ => true

theorem removeAt_isDirB (p : FPath) (t : FST α) :
    (FST.removeAt p t).isDirB = t.isDirB := by
  cases p with
  | nil => rfl
  | cons n p =>
    cases t with
    | file a => cases p <;> rfl
    | dir cs => cases p <;> rfl

theorem cleanupStep_isDirB (S : List FPath) (fails : FPath → Bool)
    (st : FST α × Nat) (p : FPath) :
    (cleanupStep S fails st p).1.isDirB = st.1.isDirB := by
  unfold cleanupStep
  split
  · rfl
  · split
    · rfl
    · split
      · rfl
      · exact removeAt_isDirB p st.1
      · split
        · exact removeAt_isDirB p st.1
        · rfl

theorem cleanup_foldl_isDirB (S : List FPath) (fails : FPath → Bool) :
    ∀ (l : List FPath) (st : FST α × Nat),
      (l.foldl (cleanupStep S fails) st).1.isDirB = st.1.isDirB := by
  intro l
  induction l with
  | nil => intro st; rfl
  | cons p l ih =>
    intro st
    rw [List.foldl_cons, ih, cleanupStep_isDirB]

/-- Claim C9.  `getAllPaths` never enumerates the output directory root
itself — every candidate path is strictly inside it — so the root
directory node survives every cleanup pass, for every written-paths set
(including the empty one) and every failure pattern. -/
theorem cleanup_never_deletes_root {α : Type} (root : Option (FST α))
    (S : List FPath) (fails : FPath → Bool) :
    ([] ∉ getAllPaths root) ∧
    (∀ cs, root = some (.dir cs) →
      ∃ cs₂, (cleanupUnwrittenFiles root S fails).1 = some (FST.dir cs₂)) := by
  constructor
  · cases root with
    | none => simp [getAllPaths]
    | some t =>
      cases t with
      | file a => simp [getAllPaths]
      | dir cs =>
        intro hcontra
        have := subPaths_longer (FST.dir cs) [] [] hcontra
        simp at this
  · intro cs hroot
    subst hroot
    show ∃ cs₂, some (cleanupDir (FST.dir cs) S fails).1 = some (FST.dir cs₂)
    have hdir : (cleanupDir (FST.dir cs) S fails).1.isDirB = true := by
      unfold cleanupDir
      rw [cleanup_foldl_isDirB]
      rfl
    cases hres : (cleanupDir (FST.dir cs) S fails).1 with
    | file a => rw [hres] at hdir; simp [FST.isDirB] at hdir
    | dir cs₂ => exact ⟨cs₂, rfl⟩

/-- Witness for C9: an empty root directory with an empty written set
survives the sweep. -/
theorem cleanup_never_deletes_root_witness :
    ([] ∉ getAllPaths (α := Unit) (some (.dir []))) ∧
    (∃ cs₂, (cleanupUnwrittenFiles (α := Unit) (some (.dir [])) [] (fun _ => false)).1
      = some (FST.dir cs₂)) :=
  ⟨(cleanup_never_deletes_root (some (.dir [])) [] (fun _ => false)).1,
    (cleanup_never_deletes_root (some (.dir [])) [] (fun _ => false)).2 [] rfl⟩

/-! ## Claim C8: failures are swallowed, the count reflects only
successful deletions -/

theorem childNamed_cons (e : String × FST α) (cs : List (String × FST α)) (n : String) :
    childNamed (e :: cs) n = if e.1 == n then some e.2 else childNamed cs n := by
  unfold childNamed
  rw [List.find?_cons]
  cases he : e.1 == n <;> simp [he]

theorem childNamed_eraseP_ne {cs : List (String × FST α)} {m n : String}
    (h : m ≠ n) :
    childNamed (cs.eraseP (fun e => e.1 == m)) n = childNamed cs n := by
  induction cs with
  | nil => rfl
  | cons e cs ih =>
    by_cases hem : (e.1 == m) = true
    · rw [show List.eraseP (fun e => e.1 == m) (e :: cs) = cs from
        List.eraseP_cons_of_pos hem, childNamed_cons]
      have hee : e.1 = m := by simpa using hem
      rw [if_neg (by simp [hee, h])]
    · rw [show List.eraseP (fun e => e.1 == m) (e :: cs)
          = e :: List.eraseP (fun e => e.1 == m) cs from
        List.eraseP_cons_of_neg (by simpa using hem), childNamed_cons, childNamed_cons, ih]

theorem childNamed_mapIf_ne {cs : List (String × FST α)} {m n : String}
    (f : FST α → FST α) (h : m ≠ n) :
    childNamed (cs.map (fun e => if e.1 == m then (e.1, f e.2) else e)) n
      = childNamed cs n := by
  induction cs with
  | nil => rfl
  | cons e cs ih =>
    rw [List.map_cons]
    by_cases hem : (e.1 == m) = true
    · have hee : e.1 = m := by simpa using hem
      rw [if_pos hem, childNamed_cons, childNamed_cons]
      show (if ((e.1, f e.2).1 == n) = true then some (e.1, f e.2).2 else _) = _
      rw [if_neg (by simp [hee, h]), if_neg (by simp [hee, h]), ih]
    · rw [if_neg hem, childNamed_cons, childNamed_cons]
      by_cases hen : (e.1 == n) = true
      · rw [if_pos hen, if_pos hen]
      · rw [if_neg hen, if_neg hen, ih]

theorem childNamed_mapIf_eq {cs : List (String × FST α)} {n : String}
    (f : FST α → FST α) :
    childNamed (cs.map (fun e => if e.1 == n then (e.1, f e.2) else e)) n
      = (childNamed cs n).map f := by
  induction cs with
  | nil => rfl
  | cons e cs ih =>
    rw [List.map_cons]
    by_cases hen : (e.1 == n) = true
    · rw [if_pos hen, childNamed_cons, childNamed_cons]
      show (if ((e.1, f e.2).1 == n) = true then some (e.1, f e.2).2 else _)
        = Option.map f (if (e.1 == n) = true then some e.2 else childNamed cs n)
      rw [if_pos (by simpa using hen), if_pos hen]
      rfl
    · rw [if_neg hen, childNamed_cons, childNamed_cons, if_neg hen, if_neg hen, ih]

/-- Removing an entry at `q` does not change whether any path that does
not extend `q` resolves. -/
theorem isSome_findNode_removeAt {α : Type} :
    ∀ (p q : FPath) (fs : FST α), ¬ (q <+: p) →
      (FST.findNode p (FST.removeAt q fs)).isSome
        = (FST.findNode p fs).isSome := by
  intro p
  induction p with
  | nil => intro q fs _; simp [FST.findNode]
  | cons pd p ih =>
    intro q fs hq
    cases fs with
    | file a =>
      cases q with
      | nil => rfl
      | cons m q => cases q <;> simp [FST.removeAt]
    | dir cs =>
      cases q with
      | nil => exact absurd (List.nil_prefix) hq
      | cons m q =>
        cases q with
        | nil =>
          have hmp : m ≠ pd := by
            intro h
            exact hq (h ▸ List.cons_prefix_cons.mpr ⟨rfl, List.nil_prefix⟩)
          show (FST.findNode (pd :: p) (.dir (cs.eraseP (fun e => e.1 == m)))).isSome = _
          rw [findNode_cons_dir, findNode_cons_dir, childNamed_eraseP_ne hmp]
        | cons m₂ q₂ =>
          show (FST.findNode (pd :: p)
            (.dir (cs.map (fun e =>
              if e.1 == m then (e.1, FST.removeAt (m₂ :: q₂) e.2) else e)))).isSome = _
          rw [findNode_cons_dir, findNode_cons_dir]
          by_cases hmp : m = pd
          · subst hmp
            rw [childNamed_mapIf_eq]
            cases hc : childNamed cs m with
            | none => rfl
            | some c =>
              simp only [Option.map_some', Option.some_bind]
              apply ih
              intro hcontra
              exact hq (List.cons_prefix_cons.mpr ⟨rfl, hcontra⟩)
          · rw [childNamed_mapIf_ne _ hmp]

theorem wfNames_removeAt {α : Type} :
    ∀ (q : FPath) (fs : FST α), wfNames fs = true →
      wfNames (FST.removeAt q fs) = true := by
  intro q
  induction q with
  | nil => intro fs h; exact h
  | cons m q ih =>
    intro fs hwf
    cases fs with
    | file a => cases q <;> exact hwf
    | dir cs =>
      cases q with
      | nil =>
        show wfNames (.dir (cs.eraseP (fun e => e.1 == m))) = true
        rw [wfNames_dir, Bool.and_eq_true]
        constructor
        · apply decide_eq_true
          have hsub : (cs.eraseP (fun e => e.1 == m)).Sublist cs := List.eraseP_sublist cs
          exact (hsub.map (fun e => e.1)).nodup (wfNames_names_nodup hwf)
        · rw [List.all_eq_true]
          intro e he
          exact wfNames_child hwf (by
            have := (List.eraseP_sublist (l := cs) (p := fun e => e.1 == m)).mem he
            simpa using this)
      | cons m₂ q₂ =>
        show wfNames (.dir (cs.map (fun e =>
          if e.1 == m then (e.1, FST.removeAt (m₂ :: q₂) e.2) else e))) = true
        rw [wfNames_dir, Bool.and_eq_true]
        constructor
        · apply decide_eq_true
          have : (cs.map (fun e =>
              if e.1 == m then (e.1, FST.removeAt (m₂ :: q₂) e.2) else e)).map (fun e => e.1)
              = cs.map (fun e => e.1) := by
            rw [List.map_map]
            apply List.map_congr_left
            intro e _
            show (if e.1 == m then (e.1, FST.removeAt (m₂ :: q₂) e.2) else e).1 = e.1
            split <;> rfl
          rw [this]
          exact wfNames_names_nodup hwf
        · rw [List.all_eq_true]
          intro e he
          obtain ⟨x, hx, rfl⟩ := List.mem_map.mp he
          by_cases hxm : (x.1 == m) = true
          · rw [if_pos hxm]
            exact ih x.2 (wfNames_child hwf (by simpa using hx))
          · rw [if_neg hxm]
            exact wfNames_child hwf (by simpa using hx)

theorem sum_size_eraseP {cs : List (String × FST α)} {n : String} {c : FST α}
    (hnd : (cs.map (fun e => e.1)).Nodup) (hc : childNamed cs n = some c) :
    ((cs.eraseP (fun e => e.1 == n)).map (fun e => FST.size e.2)).sum + FST.size c
      = (cs.map (fun e => FST.size e.2)).sum := by
  induction cs with
  | nil => simp [childNamed] at hc
  | cons e cs ih =>
    rw [childNamed_cons] at hc
    simp only [List.map_cons, List.nodup_cons] at hnd
    by_cases hen : (e.1 == n) = true
    · rw [if_pos hen] at hc
      have hce : c = e.2 := by simpa using hc.symm
      rw [show List.eraseP (fun e => e.1 == n) (e :: cs) = cs from
        List.eraseP_cons_of_pos hen, hce]
      simp [Nat.add_comm]
    · rw [if_neg hen] at hc
      rw [show List.eraseP (fun e => e.1 == n) (e :: cs)
            = e :: List.eraseP (fun e => e.1 == n) cs from
        List.eraseP_cons_of_neg (by simpa using hen)]
      have := ih hnd.2 hc
      simp only [List.map_cons, List.sum_cons]
      omega

theorem sum_size_mapIf {cs : List (String × FST α)} {n : String} {c : FST α}
    (hnd : (cs.map (fun e => e.1)).Nodup) (hc : childNamed cs n = some c)
    (f : FST α → FST α) :
    ((cs.map (fun e => if e.1 == n then (e.1, f e.2) else e)).map
        (fun e => FST.size e.2)).sum + FST.size c
      = (cs.map (fun e => FST.size e.2)).sum + FST.size (f c) := by
  induction cs with
  | nil => simp [childNamed] at hc
  | cons e cs ih =>
    rw [childNamed_cons] at hc
    simp only [List.map_cons, List.nodup_cons] at hnd
    by_cases hen : (e.1 == n) = true
    · rw [if_pos hen] at hc
      have hce : c = e.2 := by simpa using hc.symm
      have hee : e.1 = n := by simpa using hen
      have htail : cs.map (fun e => if e.1 == n then (e.1, f e.2) else e) = cs := by
        have h0 : cs.map (fun e => if e.1 == n then (e.1, f e.2) else e) = cs.map id := by
          apply List.map_congr_left
          intro x hx
          simp only [id_eq]
          rw [if_neg (fun hxn => hnd.1 (List.mem_map.mpr ⟨x, hx, by
            have hxn₂ : x.1 = n := by simpa using hxn
            simpa using hxn₂.trans hee.symm⟩))]
        rw [h0, List.map_id]
      rw [List.map_cons, if_pos hen, htail, hce]
      simp only [List.map_cons, List.sum_cons]
      omega
    · rw [if_neg hen] at hc
      rw [List.map_cons, if_neg hen]
      have := ih hnd.2 hc
      simp only [List.map_cons, List.sum_cons]
      omega

theorem size_removeAt {α : Type} :
    ∀ (q : FPath) (fs s : FST α), wfNames fs = true → q ≠ [] →
      FST.findNode q fs = some s →
      FST.size (FST.removeAt q fs) + FST.size s = FST.size fs := by
  intro q
  induction q with
  | nil => intro fs s _ hq _; exact absurd rfl hq
  | cons n q ih =>
    intro fs s hwf _ hfind
    cases fs with
    | file a => simp [FST.findNode] at hfind
    | dir cs =>
      rw [findNode_cons_dir] at hfind
      cases hc : childNamed cs n with
      | none => rw [hc] at hfind; simp at hfind
      | some c =>
        rw [hc, Option.some_bind] at hfind
        cases q with
        | nil =>
          have hcs : c = s := by simpa [FST.findNode] using hfind
          show FST.size (.dir (cs.eraseP (fun e => e.1 == n))) + _ = _
          rw [size_dir, size_dir]
          have := sum_size_eraseP (wfNames_names_nodup hwf) hc
          rw [hcs] at this
          omega
        | cons m q₂ =>
          show FST.size (.dir (cs.map (fun e =>
            if e.1 == n then (e.1, FST.removeAt (m :: q₂) e.2) else e))) + _ = _
          rw [size_dir, size_dir]
          have h₁ := sum_size_mapIf (wfNames_names_nodup hwf) hc (FST.removeAt (m :: q₂))
          have h₂ := ih c s (wfNames_child hwf (childNamed_mem hc)) (by simp) hfind
          omega

theorem cleanupStep_size {α : Type} {S : List FPath} {fails : FPath → Bool}
    {st : FST α × Nat} {p : FPath}
    (hwf : wfNames st.1 = true) (hp : p ≠ []) :
    wfNames (cleanupStep S fails st p).1 = true ∧
    (cleanupStep S fails st p).2 + FST.size (cleanupStep S fails st p).1
      = st.2 + FST.size st.1 := by
  by_cases h1 : p ∈ S
  · simp only [cleanupStep, if_pos h1]
    exact ⟨hwf, by simp⟩
  · by_cases h2 : fails p = true
    · simp only [cleanupStep, if_neg h1, h2, if_true]
      exact ⟨hwf, by simp⟩
    · have h2f : fails p = false := by simpa using h2
      cases h3 : FST.findNode p st.1 with
      | none =>
        simp only [cleanupStep, if_neg h1, h2f, Bool.false_eq_true, if_false, h3]
        exact ⟨hwf, by simp⟩
      | some s =>
        cases s with
        | file a =>
          simp only [cleanupStep, if_neg h1, h2f, Bool.false_eq_true, if_false, h3]
          refine ⟨wfNames_removeAt p st.1 hwf, ?_⟩
          have := size_removeAt p st.1 (.file a) hwf hp h3
          rw [size_file] at this
          omega
        | dir cs =>
          by_cases hcse : cs.isEmpty = true
          · simp only [cleanupStep, if_neg h1, h2f, Bool.false_eq_true, if_false, h3, hcse,
              if_true]
            refine ⟨wfNames_removeAt p st.1 hwf, ?_⟩
            have := size_removeAt p st.1 (.dir cs) hwf hp h3
            rw [size_dir, List.isEmpty_iff.mp hcse] at this
            simp at this
            omega
          · have hcse₂ : cs.isEmpty = false := by simpa using hcse
            simp only [cleanupStep, if_neg h1, h2f, Bool.false_eq_true, if_false, h3, hcse₂]
            exact ⟨hwf, by simp⟩

theorem cleanup_foldl_size {α : Type} (S : List FPath) (fails : FPath → Bool) :
    ∀ (l : List FPath) (st : FST α × Nat),
      wfNames st.1 = true → (∀ q ∈ l, q ≠ []) →
      wfNames (l.foldl (cleanupStep S fails) st).1 = true ∧
      (l.foldl (cleanupStep S fails) st).2
          + FST.size (l.foldl (cleanupStep S fails) st).1
        = st.2 + FST.size st.1 := by
  intro l
  induction l with
  | nil => intro st hwf _; exact ⟨hwf, rfl⟩
  | cons p l ih =>
    intro st hwf hne
    rw [List.foldl_cons]
    obtain ⟨hwf₂, hsize₂⟩ :=
      @cleanupStep_size α S fails st p hwf (hne p (by simp))
    obtain ⟨hwf₃, hsize₃⟩ := ih (cleanupStep S fails st p) hwf₂
      (fun q hq => hne q (by simp [hq]))
    exact ⟨hwf₃, by omega⟩

/-- A path whose own processing is guarded (written or failing) is never
removed by any iteration of the sweep: its own turn is skipped, and no
other turn can delete an ancestor while it is still present. -/
theorem cleanupStep_preserves_isSome {α : Type} {S : List FPath} {fails : FPath → Bool}
    {st : FST α × Nat} {p q : FPath}
    (hpres : (FST.findNode p st.1).isSome = true)
    (hguard : p ∈ S ∨ fails p = true) :
    (FST.findNode p (cleanupStep S fails st q).1).isSome = true := by
  by_cases h1 : q ∈ S
  · simpa [cleanupStep, if_pos h1] using hpres
  · by_cases h2 : fails q = true
    · simpa [cleanupStep, if_neg h1, h2] using hpres
    · have h2f : fails q = false := by simpa using h2
      have hqp : q ≠ p := by
        rintro rfl
        rcases hguard with h | h
        · exact h1 h
        · rw [h] at h2f; exact Bool.true_eq_false.mp h2f
      cases h3 : FST.findNode q st.1 with
      | none =>
        simpa [cleanupStep, if_neg h1, h2f, h3] using hpres
      | some s =>
        cases s with
        | file a =>
          simp only [cleanupStep, if_neg h1, h2f, Bool.false_eq_true, if_false, h3]
          have hnpref : ¬ (q <+: p) := by
            intro hqpref
            obtain ⟨r, rfl⟩ := hqpref
            cases r with
            | nil => exact hqp (by simp)
            | cons m r =>
              rw [findNode_append, h3, Option.some_bind] at hpres
              simp [FST.findNode] at hpres
          rw [isSome_findNode_removeAt p q st.1 hnpref]
          exact hpres
        | dir cs =>
          by_cases hcse : cs.isEmpty = true
          · have hcs : cs = [] := List.isEmpty_iff.mp hcse
            simp only [cleanupStep, if_neg h1, h2f, Bool.false_eq_true, if_false, h3, hcse,
              if_true]
            have hnpref : ¬ (q <+: p) := by
              intro hqpref
              obtain ⟨r, rfl⟩ := hqpref
              cases r with
              | nil => exact hqp (by simp)
              | cons m r =>
                rw [findNode_append, h3, Option.some_bind, hcs, findNode_cons_dir] at hpres
                simp [childNamed] at hpres
            rw [isSome_findNode_removeAt p q st.1 hnpref]
            exact hpres
          · have hcse₂ : cs.isEmpty = false := by simpa using hcse
            simpa [cleanupStep, if_neg h1, h2f, h3, hcse₂] using hpres

theorem cleanup_foldl_preserves_isSome {α : Type} {S : List FPath} {fails : FPath → Bool}
    {p : FPath} (hguard : p ∈ S ∨ fails p = true) :
    ∀ (l : List FPath) (st : FST α × Nat),
      (FST.findNode p st.1).isSome = true →
      (FST.findNode p (l.foldl (cleanupStep S fails) st).1).isSome = true := by
  intro l
  induction l with
  | nil => intro st h; exact h
  | cons q l ih =>
    intro st h
    rw [List.foldl_cons]
    exact ih _ (cleanupStep_preserves_isSome h hguard)

/-- Claim C8.  The sweep never raises: a missing output directory gives
zero deletions rather than an error, every per-entry delete failure is
swallowed (the failing entry is simply left in place while the sweep
continues), and the returned count equals exactly the number of nodes
actually removed from the tree. -/
theorem cleanup_swallows_failures {α : Type} (t : FST α) (S : List FPath)
    (fails : FPath → Bool) (hwf : wfNames t = true) :
    (∀ (written : List FPath) (fl : FPath → Bool),
        cleanupUnwrittenFiles (α := α) none written fl = (none, 0)) ∧
    (∀ p, p ∈ subPaths t [] → fails p = true →
        (FST.findNode p (cleanupDir t S fails).1).isSome = true) ∧
    ((cleanupDir t S fails).2 + FST.size (cleanupDir t S fails).1 = FST.size t) := by
  refine ⟨fun written fl => rfl, ?_, ?_⟩
  · intro p hp hfp
    unfold cleanupDir
    exact cleanup_foldl_preserves_isSome (Or.inr hfp) _ _
      ((mem_subPaths_nil hwf p).mp hp).2
  · unfold cleanupDir
    have h := cleanup_foldl_size S fails ((subPaths t []).insertionSort deeperFirst)
      (t, 0) hwf ?_
    · simpa using h.2
    · intro q hq
      have : q ∈ subPaths t [] :=
        (List.perm_insertionSort deeperFirst (subPaths t [])).subset hq
      have := subPaths_longer t [] q this
      intro hcontra
      rw [hcontra] at this
      simp at this

def exC8fails : FPath → Bool := fun p => decide (p = ["a", "b", "c", "file.md"])

/-- Witness for C8: with a failing delete on `a/b/c/file.md`, the file
survives the sweep and the count still balances the tree size. -/
theorem cleanup_swallows_failures_witness :
    wfNames exC1Tree = true ∧
    exC8fails ["a", "b", "c", "file.md"] = true ∧
    (FST.findNode ["a", "b", "c", "file.md"]
        (cleanupDir exC1Tree exC1S exC8fails).1).isSome = true ∧
    ((cleanupDir exC1Tree exC1S exC8fails).2
        + FST.size (cleanupDir exC1Tree exC1S exC8fails).1 = FST.size exC1Tree) :=
  ⟨exC1_wf, by decide,
    (cleanup_swallows_failures exC1Tree exC1S exC8fails exC1_wf).2.1
      ["a", "b", "c", "file.md"] (by rw [exC1_sub]; simp) (by decide),
    (cleanup_swallows_failures exC1Tree exC1S exC8fails exC1_wf).2.2⟩

/-! ## The local tree reader
(`readCollectionFilesForDirectory`, src/services/output-files.ts,
lines 159-238)

Document files are modelled as already decoded `(metadata, content)`
pairs: `gray-matter` plus the `zod` schema (`documentFrontmatterSchema`)
decode the on-disk bytes into exactly this shape, and the claims under
study concern traversal, ordering and structure checking, not YAML
parsing.  `sidebar.order` is modelled as `Int` (the code only ever
writes integers and compares with subtraction).  `lastModifiedAt` is
omitted (no claim touches it). -/

structure SidebarMeta where
  order : Option Int
deriving Repr, DecidableEq

structure DocumentFrontmatter where
  title : String
  description : Option String := none
  sidebar : Option SidebarMeta := none
  outlineId : Option String := none
deriving Repr, DecidableEq

structure DocFile where
  metadata : DocumentFrontmatter
  content : String
deriving Repr, DecidableEq

/-- `Omit<ParsedDocument, 'relativeIndex'>`: a document as read, before
its position among the sorted siblings is known. -/
structure PreDoc where
  metadata : DocumentFrontmatter
  content : String
  filePath : FPath
  parentDocumentId : Option String
deriving Repr, DecidableEq

structure ParsedDocument where
  metadata : DocumentFrontmatter
  content : String
  filePath : FPath
  parentDocumentId : Option String
  relativeIndex : Nat
deriving Repr, DecidableEq

/-- `path.join` on the root-relative representation. -/
def pathToString (p : FPath) : String := String.intercalate "/" p

/-- JS truthiness of `parentDocumentId` in
`if (parentDocumentId && entry.name === 'index.md')`: an empty string is
falsy. -/
def truthy : Option String → Bool
  | none => false
  | some s => decide (s ≠ "")

/-- `String.prototype.endsWith`, over the character lists (evaluable in
the kernel, unlike `String.endsWith`). -/
def strEndsWith (s post : String) : Bool := post.data.isSuffixOf s.data

/-- `readDocumentFile` (parse assumed successful, see section comment). -/
def readDocumentFile (d : DocFile) (filePath : FPath) (parent? : Option String) : PreDoc :=
  { metadata := d.metadata, content := d.content, filePath := filePath,
    parentDocumentId := parent? }

/-- `(a.metadata.sidebar?.order ?? 0)`. -/
def sidebarOrderKey (d : PreDoc) : Int :=
  (d.metadata.sidebar.bind (fun s => s.order)).getD 0

/-- The comparator `(a, b) => (a.sidebar?.order ?? 0) - (b.sidebar?.order ?? 0)`
sorts ascending by the coalesced key; `toSorted` is stable, so the
stable `insertionSort` is an exact model. -/
def docOrderLe (a b : PreDoc) : Prop := sidebarOrderKey a ≤ sidebarOrderKey b

instance : DecidableRel docOrderLe :=
  fun a b => inferInstanceAs (Decidable (sidebarOrderKey a ≤ sidebarOrderKey b))

instance : IsTotal PreDoc docOrderLe :=
  ⟨fun a b => Int.le_total (sidebarOrderKey a) (sidebarOrderKey b)⟩

instance : IsTrans PreDoc docOrderLe :=
  ⟨fun _ _ _ h h₂ => Int.le_trans h h₂⟩

/-- `.map((doc, index) => ({ ...doc, relativeIndex: index }))`. -/
def assignIndex : Nat → List PreDoc → List ParsedDocument
  | _, [] => []
  | i, d :: ds =>
    { metadata := d.metadata, content := d.content, filePath := d.filePath,
      parentDocumentId := d.parentDocumentId, relativeIndex := i } :: assignIndex (i + 1) ds

/-- The final step of `readCollectionFilesForDirectory` on the
directory's immediate documents:
`parsedDocuments.toSorted(cmp).map((doc, index) => ({...doc, relativeIndex: index}))`. -/
def sortAndIndex (docs : List PreDoc) : List ParsedDocument :=
  assignIndex 0 (docs.insertionSort docOrderLe)

/-! The directory traversal.  `readEntryList` is the entry loop of
`readCollectionFilesForDirectory` (accumulating the immediate
`parsedDocuments` and the recursive `childrenParsedDocuments`), and
`readCollectionFilesForDirectory` wraps it with the final
sort-and-index.  An error carries the expected `index.md` path. -/

mutual

def readCollectionFilesForDirectory (t : FST DocFile) (dirPath : FPath)
    (parent? : Option String) : Except FPath (List ParsedDocument) :=
  match t with
  | .file _ => .ok []
  | .dir cs =>
    match readEntryList cs dirPath parent? with
    | .error e => .error e
    | .ok (pre, children) => .ok (sortAndIndex pre ++ children)

def readEntryList (entries : List (String × FST DocFile)) (dirPath : FPath)
    (parent? : Option String) :
    Except FPath (List PreDoc × List ParsedDocument) :=
  match entries with
  | [] => .ok ([], [])
  | (n, node) :: rest =>
    -- we've already parsed index.md
    if truthy parent? && (n == "index.md") then
      readEntryList rest dirPath parent?
    else
      match node with
      | .dir sub =>
        match childNamed sub "index.md" with
        | some (.file d) =>
          let indexDoc := readDocumentFile d (dirPath ++ [n, "index.md"]) parent?
          let childParent :=
            indexDoc.metadata.outlineId.getD (pathToString (dirPath ++ [n, "index.md"]))
          match readCollectionFilesForDirectory (.dir sub) (dirPath ++ [n])
              (some childParent) with
          | .error e => .error e
          | .ok children =>
            match readEntryList rest dirPath parent? with
            | .error e => .error e
            | .ok (pre, ch) => .ok (indexDoc :: pre, children ++ ch)
        | _ =>
          -- no index.md file: require it only if the directory has an
          -- immediate entry whose name ends in .md
          if (sub.map (fun e => e.1)).any (fun f => strEndsWith f ".md") then
            .error (dirPath ++ [n, "index.md"])
          else
            readEntryList rest dirPath parent?
      | .file d =>
        if strEndsWith n ".md" then
          match readEntryList rest dirPath parent? with
          | .error e => .error e
          | .ok (pre, ch) =>
            .ok (readDocumentFile d (dirPath ++ [n]) parent? :: pre, ch)
        else
          readEntryList rest dirPath parent?

end

/-- `readCollectionFiles`: read the whole collection output directory. -/
def readCollectionFiles (t : FST DocFile) : Except FPath (List ParsedDocument) :=
  readCollectionFilesForDirectory t [] none

/-! ## Claim C3: per-directory ordering -/

def dropIdx (p : ParsedDocument) : PreDoc :=
  { metadata := p.metadata, content := p.content, filePath := p.filePath,
    parentDocumentId := p.parentDocumentId }

theorem assignIndex_map_dropIdx :
    ∀ (i : Nat) (l : List PreDoc), (assignIndex i l).map dropIdx = l := by
  intro i l
  induction l generalizing i with
  | nil => rfl
  | cons d ds ih => simp [assignIndex, dropIdx, ih]

theorem assignIndex_map_relativeIndex :
    ∀ (i : Nat) (l : List PreDoc),
      (assignIndex i l).map (fun p => p.relativeIndex) = List.range' i l.length := by
  intro i l
  induction l generalizing i with
  | nil => rfl
  | cons d ds ih => simp [assignIndex, ih, List.range']

theorem filter_orderedInsert_eq {a : PreDoc} {k : Int} (l : List PreDoc)
    (ha : sidebarOrderKey a = k) :
    (List.orderedInsert docOrderLe a l).filter (fun d => decide (sidebarOrderKey d = k))
      = a :: l.filter (fun d => decide (sidebarOrderKey d = k)) := by
  induction l with
  | nil => simp [List.orderedInsert, ha]
  | cons b l ih =>
    rw [List.orderedInsert]
    by_cases hab : docOrderLe a b
    · rw [if_pos hab]
      simp [ha]
    · rw [if_neg hab]
      unfold docOrderLe at hab
      have hbk : ¬ (sidebarOrderKey b = k) := by omega
      have hbk₂ : decide (sidebarOrderKey b = k) = false := decide_eq_false hbk
      rw [List.filter_cons, List.filter_cons, hbk₂]
      simp only [Bool.false_eq_true, if_false]
      exact ih

theorem filter_orderedInsert_ne {a : PreDoc} {k : Int} (l : List PreDoc)
    (ha : ¬ (sidebarOrderKey a = k)) :
    (List.orderedInsert docOrderLe a l).filter (fun d => decide (sidebarOrderKey d = k))
      = l.filter (fun d => decide (sidebarOrderKey d = k)) := by
  induction l with
  | nil => simp [List.orderedInsert, ha]
  | cons b l ih =>
    rw [List.orderedInsert]
    by_cases hab : docOrderLe a b
    · rw [if_pos hab]
      simp [ha]
    · rw [if_neg hab]
      rw [List.filter_cons, List.filter_cons]
      cases hb : decide (sidebarOrderKey b = k) <;> simp [hb, ih]

/-- Stability of the model sort: within each coalesced-order class the
enumeration order is preserved (uniquely pinning down the output, as
for the stable ECMAScript `toSorted`). -/
theorem insertionSort_filter_key (k : Int) :
    ∀ (docs : List PreDoc),
      (docs.insertionSort docOrderLe).filter (fun d => decide (sidebarOrderKey d = k))
        = docs.filter (fun d => decide (sidebarOrderKey d = k)) := by
  intro docs
  induction docs with
  | nil => rfl
  | cons d ds ih =>
    rw [List.insertionSort]
    by_cases hd : sidebarOrderKey d = k
    · rw [filter_orderedInsert_eq _ hd, ih, List.filter_cons]
      simp [hd]
    · rw [filter_orderedInsert_ne _ hd, ih, List.filter_cons]
      simp [hd]

/-- Claim C3 (amended).  The reader sorts the immediate documents of a
directory ascending by the coalesced key `sidebar.order ?? 0` — so a
document *without* an order (key 0) sorts *before* every document with
a positive order, not after — the sort is stable with respect to the
directory enumeration order, and `relativeIndex` is assigned densely
`0..n-1` in final position order. -/
theorem reader_sorts_by_coalesced_order (docs : List PreDoc) :
    ((sortAndIndex docs).map dropIdx).Perm docs ∧
    List.Pairwise (fun a b => sidebarOrderKey (dropIdx a) ≤ sidebarOrderKey (dropIdx b))
      (sortAndIndex docs) ∧
    (∀ k : Int, ((sortAndIndex docs).map dropIdx).filter
        (fun d => decide (sidebarOrderKey d = k))
      = docs.filter (fun d => decide (sidebarOrderKey d = k))) ∧
    (sortAndIndex docs).map (fun p => p.relativeIndex) = List.range' 0 docs.length ∧
    (∀ d : PreDoc, d.metadata.sidebar.bind (fun s => s.order) = none →
      sidebarOrderKey d = 0) := by
  have hmap : (sortAndIndex docs).map dropIdx = docs.insertionSort docOrderLe := by
    unfold sortAndIndex
    exact assignIndex_map_dropIdx 0 _
  refine ⟨?_, ?_, ?_, ?_, ?_⟩
  · rw [hmap]
    exact List.perm_insertionSort docOrderLe docs
  · have hsorted : List.Pairwise docOrderLe (docs.insertionSort docOrderLe) :=
      List.sorted_insertionSort docOrderLe docs
    rw [← hmap] at hsorted
    have h₂ : List.Pairwise (fun a b => docOrderLe (dropIdx a) (dropIdx b))
        (sortAndIndex docs) := List.pairwise_map.mp hsorted
    exact h₂
  · intro k
    rw [hmap]
    exact insertionSort_filter_key k docs
  · unfold sortAndIndex
    rw [assignIndex_map_relativeIndex]
    congr 1
    exact (List.length_insertionSort docOrderLe docs)
  · intro d hd
    unfold sidebarOrderKey
    rw [hd]
    rfl

def mkOrderedDoc (title : String) (ord : Option Int) : DocFile :=
  { metadata := { title := title, sidebar := ord.map (fun o => { order := some o }) },
    content := "" }

/-- Directory with `doc1.md` (order 1, title A) enumerated before
`doc2.md` (no order, title B). -/
def exC3Tree : FST DocFile :=
  .dir [("doc1.md", .file (mkOrderedDoc "A" (some 1))),
    ("doc2.md", .file (mkOrderedDoc "B" none))]

/-- Counterexample to claim C3 as stated: the claim predicts that the
order-less document B sorts *after* the ordered document A, but the code
coalesces a missing order to 0, so B (key 0) comes first, at
`relativeIndex` 0, and A (order 1) second — exactly as the repository's
own unit test expects. -/
theorem reader_missing_order_counterexample :
    (readCollectionFiles exC3Tree).toOption.map
        (fun l => l.map (fun d =>
          (d.metadata.title, d.metadata.sidebar.bind (fun s => s.order), d.relativeIndex)))
      = some [("B", none, 0), ("A", some 1, 1)] := by
  simp +decide [readCollectionFiles, readCollectionFilesForDirectory, readEntryList,
    exC3Tree, mkOrderedDoc, sortAndIndex, assignIndex, List.insertionSort,
    List.orderedInsert, docOrderLe, sidebarOrderKey, readDocumentFile, strEndsWith]

/-! ## Claim C6: structure enforcement

`firstStructureError` is the structural content of the traversal alone:
it walks the same directories in the same order, and reports the
expected `index.md` path of the first traversed subdirectory that has no
`index.md` *file* but has an immediate entry whose name ends in `.md`.
A subdirectory without such an immediate entry is skipped silently and
its own subdirectories are not visited at all — no check ever looks
deeper than one level. -/

mutual

def firstStructureError (t : FST DocFile) (dirPath : FPath)
    (parent? : Option String) : Option FPath :=
  match t with
  | .file _ => none
  | .dir cs => firstStructureErrorList cs dirPath parent?

def firstStructureErrorList (entries : List (String × FST DocFile)) (dirPath : FPath)
    (parent? : Option String) : Option FPath :=
  match entries with
  | [] => none
  | (n, node) :: rest =>
    if truthy parent? && (n == "index.md") then
      firstStructureErrorList rest dirPath parent?
    else
      match node with
      | .dir sub =>
        match childNamed sub "index.md" with
        | some (.file d) =>
          let indexDoc := readDocumentFile d (dirPath ++ [n, "index.md"]) parent?
          let childParent :=
            indexDoc.metadata.outlineId.getD (pathToString (dirPath ++ [n, "index.md"]))
          match firstStructureError (.dir sub) (dirPath ++ [n]) (some childParent) with
          | some e => some e
          | none => firstStructureErrorList rest dirPath parent?
        | _ =>
          if (sub.map (fun e => e.1)).any (fun f => strEndsWith f ".md") then
            some (dirPath ++ [n, "index.md"])
          else
            firstStructureErrorList rest dirPath parent?
      | .file _ => firstStructureErrorList rest dirPath parent?

end

/-! Clean one-step equation lemmas for the mutual traversal and its
structural mirror. -/

theorem readCFD_file (a : DocFile) (dirPath : FPath) (parent? : Option String) :
    readCollectionFilesForDirectory (.file a) dirPath parent? = .ok [] := by
  rw [readCollectionFilesForDirectory]

theorem readCFD_dir (cs : List (String × FST DocFile)) (dirPath : FPath)
    (parent? : Option String) :
    readCollectionFilesForDirectory (.dir cs) dirPath parent? =
      match readEntryList cs dirPath parent? with
      | .error e => .error e
      | .ok (pre, children) => .ok (sortAndIndex pre ++ children) := by
  rw [readCollectionFilesForDirectory]

theorem readEntryList_nil (dirPath : FPath) (parent? : Option String) :
    readEntryList [] dirPath parent? = .ok ([], []) := by
  rw [readEntryList]

theorem readEntryList_cons (n : String) (node : FST DocFile)
    (rest : List (String × FST DocFile)) (dirPath : FPath) (parent? : Option String) :
    readEntryList ((n, node) :: rest) dirPath parent? =
      if truthy parent? && (n == "index.md") then
        readEntryList rest dirPath parent?
      else
        match node with
        | .dir sub =>
          match childNamed sub "index.md" with
          | some (.file d) =>
            let indexDoc := readDocumentFile d (dirPath ++ [n, "index.md"]) parent?
            let childParent :=
              indexDoc.metadata.outlineId.getD (pathToString (dirPath ++ [n, "index.md"]))
            match readCollectionFilesForDirectory (.dir sub) (dirPath ++ [n])
                (some childParent) with
            | .error e => .error e
            | .ok children =>
              match readEntryList rest dirPath parent? with
              | .error e => .error e
              | .ok (pre, ch) => .ok (indexDoc :: pre, children ++ ch)
          | _ =>
            if (sub.map (fun e => e.1)).any (fun f => strEndsWith f ".md") then
              .error (dirPath ++ [n, "index.md"])
            else
              readEntryList rest dirPath parent?
        | .file d =>
          if strEndsWith n ".md" then
            match readEntryList rest dirPath parent? with
            | .error e => .error e
            | .ok (pre, ch) =>
              .ok (readDocumentFile d (dirPath ++ [n]) parent? :: pre, ch)
          else
            readEntryList rest dirPath parent? := by
  rw [readEntryList.eq_def]



theorem fse_file (a : DocFile) (dirPath : FPath) (parent? : Option String) :
    firstStructureError (.file a) dirPath parent? = none := by
  rw [firstStructureError]

theorem fse_dir (cs : List (String × FST DocFile)) (dirPath : FPath)
    (parent? : Option String) :
    firstStructureError (.dir cs) dirPath parent? =
      firstStructureErrorList cs dirPath parent? := by
  rw [firstStructureError]

theorem fseList_nil (dirPath : FPath) (parent? : Option String) :
    firstStructureErrorList [] dirPath parent? = none := by
  rw [firstStructureErrorList]

theorem fseList_cons (n : String) (node : FST DocFile)
    (rest : List (String × FST DocFile)) (dirPath : FPath) (parent? : Option String) :
    firstStructureErrorList ((n, node) :: rest) dirPath parent? =
      if truthy parent? && (n == "index.md") then
        firstStructureErrorList rest dirPath parent?
      else
        match node with
        | .dir sub =>
          match childNamed sub "index.md" with
          | some (.file d) =>
            let indexDoc := readDocumentFile d (dirPath ++ [n, "index.md"]) parent?
            let childParent :=
              indexDoc.metadata.outlineId.getD (pathToString (dirPath ++ [n, "index.md"]))
            match firstStructureError (.dir sub) (dirPath ++ [n]) (some childParent) with
            | some e => some e
            | none => firstStructureErrorList rest dirPath parent?
          | _ =>
            if (sub.map (fun e => e.1)).any (fun f => strEndsWith f ".md") then
              some (dirPath ++ [n, "index.md"])
            else
              firstStructureErrorList rest dirPath parent?
        | .file _ => firstStructureErrorList rest dirPath parent? := by
  rw [firstStructureErrorList.eq_def]

/-- Claim C6 (amended).  `readCollectionFilesForDirectory` fails with
error `e` if and only if the first traversed subdirectory lacking an
`index.md` file while *directly* containing an entry whose name ends in
`.md` has expected index path `e` (`firstStructureError`).  The check is
one level deep only: a subdirectory with no immediate `.md`-named entry
is skipped silently and never recursed into, even when markdown files
exist deeper inside it — contrary to the claim's "recursively contains"
reading. -/
theorem reader_structure_error_iff :
    ∀ (t : FST DocFile) (dirPath : FPath) (parent? : Option String) (e : FPath),
      readCollectionFilesForDirectory t dirPath parent? = .error e
        ↔ firstStructureError t dirPath parent? = some e := by
  intro t dirPath parent? e
  refine readCollectionFilesForDirectory.induct
    (fun t dirPath parent? => ∀ e,
      readCollectionFilesForDirectory t dirPath parent? = .error e
        ↔ firstStructureError t dirPath parent? = some e)
    (fun entries dirPath parent? => ∀ e,
      readEntryList entries dirPath parent? = .error e
        ↔ firstStructureErrorList entries dirPath parent? = some e)
    ?_ ?_ ?_ ?_ ?_ ?_ ?_ ?_ ?_ ?_ ?_ ?_ ?_ t dirPath parent? e
  · intro dirPath parent? a e
    simp [readCFD_file, fse_file]
  · intro dirPath parent? cs e₀ herr ih e
    rw [readCFD_dir, herr, fse_dir]
    show (Except.error e₀ : Except FPath (List ParsedDocument)) = .error e ↔ _
    constructor
    · intro h
      simp only [Except.error.injEq] at h
      subst h
      exact (ih e₀).mp herr
    · intro h
      have h₂ := herr.symm.trans ((ih e).mpr h)
      simp only [Except.error.injEq] at h₂
      subst h₂
      rfl
  · intro dirPath parent? cs pre children hok ih e
    rw [readCFD_dir, hok, fse_dir]
    show (Except.ok (sortAndIndex pre ++ children) : Except FPath _) = .error e ↔ _
    constructor
    · intro h
      simp at h
    · intro h
      have h₂ := (ih e).mpr h
      rw [hok] at h₂
      simp at h₂
  · intro dirPath parent? e
    simp [readEntryList_nil, fseList_nil]
  · intro dirPath parent? n node rest hskip ih e
    rw [readEntryList_cons, fseList_cons]
    simp only [hskip, if_true]
    exact ih e
  · intro dirPath parent? n rest hskip sub d hidx idx cp e₀ herr ihsub e
    simp only [Bool.not_eq_true] at hskip
    rw [readEntryList_cons, fseList_cons]
    simp only [hskip, Bool.false_eq_true, if_false, hidx]
    have herr' : readCollectionFilesForDirectory (.dir sub) (dirPath ++ [n])
        (some ((readDocumentFile d (dirPath ++ [n, "index.md"])
          parent?).metadata.outlineId.getD
            (pathToString (dirPath ++ [n, "index.md"])))) = .error e₀ := herr
    have hfse : firstStructureError (.dir sub) (dirPath ++ [n])
        (some ((readDocumentFile d (dirPath ++ [n, "index.md"])
          parent?).metadata.outlineId.getD
            (pathToString (dirPath ++ [n, "index.md"])))) = some e₀ :=
      (ihsub e₀).mp herr'
    rw [herr', hfse]
    simp
  · intro dirPath parent? n rest hskip sub d hidx idx cp children hok e₀ hrest ihsub
      ihrest e
    simp only [Bool.not_eq_true] at hskip
    rw [readEntryList_cons, fseList_cons]
    simp only [hskip, Bool.false_eq_true, if_false, hidx]
    have hok' : readCollectionFilesForDirectory (.dir sub) (dirPath ++ [n])
        (some ((readDocumentFile d (dirPath ++ [n, "index.md"])
          parent?).metadata.outlineId.getD
            (pathToString (dirPath ++ [n, "index.md"])))) = .ok children := hok
    have hfse : firstStructureError (.dir sub) (dirPath ++ [n])
        (some ((readDocumentFile d (dirPath ++ [n, "index.md"])
          parent?).metadata.outlineId.getD
            (pathToString (dirPath ++ [n, "index.md"])))) = none := by
      cases hc : firstStructureError (.dir sub) (dirPath ++ [n])
          (some ((readDocumentFile d (dirPath ++ [n, "index.md"])
            parent?).metadata.outlineId.getD
              (pathToString (dirPath ++ [n, "index.md"])))) with
      | none => rfl
      | some e₂ =>
        have h₂ := (ihsub e₂).mpr hc
        rw [hok'] at h₂
        simp at h₂
    rw [hok', hfse, hrest]
    show (Except.error e₀ : Except FPath (List PreDoc × List ParsedDocument))
        = .error e ↔ _
    constructor
    · intro h
      simp only [Except.error.injEq] at h
      subst h
      exact (ihrest e₀).mp hrest
    · intro h
      exact hrest.symm.trans ((ihrest e).mpr h)
  · intro dirPath parent? n rest hskip sub d hidx idx cp children hok pre ch hrest
      ihsub ihrest e
    simp only [Bool.not_eq_true] at hskip
    rw [readEntryList_cons, fseList_cons]
    simp only [hskip, Bool.false_eq_true, if_false, hidx]
    have hok' : readCollectionFilesForDirectory (.dir sub) (dirPath ++ [n])
        (some ((readDocumentFile d (dirPath ++ [n, "index.md"])
          parent?).metadata.outlineId.getD
            (pathToString (dirPath ++ [n, "index.md"])))) = .ok children := hok
    have hfse : firstStructureError (.dir sub) (dirPath ++ [n])
        (some ((readDocumentFile d (dirPath ++ [n, "index.md"])
          parent?).metadata.outlineId.getD
            (pathToString (dirPath ++ [n, "index.md"])))) = none := by
      cases hc : firstStructureError (.dir sub) (dirPath ++ [n])
          (some ((readDocumentFile d (dirPath ++ [n, "index.md"])
            parent?).metadata.outlineId.getD
              (pathToString (dirPath ++ [n, "index.md"])))) with
      | none => rfl
      | some e₂ =>
        have h₂ := (ihsub e₂).mpr hc
        rw [hok'] at h₂
        simp at h₂
    rw [hok', hfse, hrest]
    constructor
    · intro h
      simp at h
    · intro h
      have h₂ := (ihrest e).mpr h
      rw [hrest] at h₂
      simp at h₂
  · intro dirPath parent? n rest hskip sub hmd hno e
    simp only [Bool.not_eq_true] at hskip
    rw [readEntryList_cons, fseList_cons]
    simp only [hskip, Bool.false_eq_true, if_false]
    cases hc : childNamed sub "index.md" with
    | none =>
      simp only [hc, hmd, if_true]
      simp
    | some node =>
      cases node with
      | file d => exact (hno d hc).elim
      | dir sub₂ =>
        simp only [hc, hmd, if_true]
        simp
  · intro dirPath parent? n rest hskip sub hmd hno ih e
    simp only [Bool.not_eq_true] at hskip
    simp only [Bool.not_eq_true] at hmd
    rw [readEntryList_cons, fseList_cons]
    simp only [hskip, Bool.false_eq_true, if_false]
    cases hc : childNamed sub "index.md" with
    | none =>
      simp only [hc, hmd, Bool.false_eq_true, if_false]
      exact ih e
    | some node =>
      cases node with
      | file d => exact (hno d hc).elim
      | dir sub₂ =>
        simp only [hc, hmd, Bool.false_eq_true, if_false]
        exact ih e
  · intro dirPath parent? n rest hskip d hmd e₀ hrest ih e
    simp only [Bool.not_eq_true] at hskip
    rw [readEntryList_cons, fseList_cons]
    simp only [hskip, Bool.false_eq_true, if_false, hmd, if_true, hrest]
    show (Except.error e₀ : Except FPath (List PreDoc × List ParsedDocument))
        = .error e ↔ _
    constructor
    · intro h
      simp only [Except.error.injEq] at h
      subst h
      exact (ih e₀).mp hrest
    · intro h
      exact hrest.symm.trans ((ih e).mpr h)
  · intro dirPath parent? n rest hskip d hmd pre ch hrest ih e
    simp only [Bool.not_eq_true] at hskip
    rw [readEntryList_cons, fseList_cons]
    simp only [hskip, Bool.false_eq_true, if_false, hmd, if_true, hrest]
    constructor
    · intro h
      simp at h
    · intro h
      have h₂ := (ih e).mpr h
      rw [hrest] at h₂
      simp at h₂
  · intro dirPath parent? n rest hskip d hmd ih e
    simp only [Bool.not_eq_true] at hskip
    simp only [Bool.not_eq_true] at hmd
    rw [readEntryList_cons, fseList_cons]
    simp only [hskip, Bool.false_eq_true, if_false, hmd]
    exact ih e

/-- A collection whose subdirectory `sub` has no `index.md` and no
immediate `.md` entry, but recursively contains `inner/doc.md`. -/
def exC6Tree : FST DocFile :=
  .dir [("sub", .dir [("inner", .dir
    [("index.md", .file (mkOrderedDoc "I" none)),
     ("doc.md", .file (mkOrderedDoc "D" none))])])]

/-- Counterexample to claim C6 as stated: `exC6Tree`'s subdirectory
`sub` recursively contains the document file `sub/inner/doc.md` (it is
among the enumerated paths) and has no `index.md`, yet
`readCollectionFiles` succeeds silently with no documents instead of
failing with an error naming `sub/index.md`. -/
theorem reader_structure_error_counterexample :
    readCollectionFiles exC6Tree = .ok []
      ∧ ["sub", "inner", "doc.md"] ∈ subPaths exC6Tree []
      ∧ (childNamed [("inner", FST.dir
          [("index.md", FST.file (mkOrderedDoc "I" none)),
           ("doc.md", FST.file (mkOrderedDoc "D" none))])] "index.md").isNone = true := by
  refine ⟨?_, ?_, ?_⟩
  · simp +decide [readCollectionFiles, readCollectionFilesForDirectory, readEntryList,
      exC6Tree, mkOrderedDoc, sortAndIndex, assignIndex, List.insertionSort,
      List.orderedInsert, docOrderLe, sidebarOrderKey, readDocumentFile, strEndsWith,
      childNamed, truthy, pathToString]
  · simp [exC6Tree]
  · rfl


/-! ## Claims C2 and C7: the upload pass (`commands/upload.ts`)

The Outline API calls issued by `uploadFile` and its two helpers are
recorded as a trace of `UploadAction`s; the response to
`documents.info` is supplied by an oracle `getDocument : String →
Document` so the functions stay pure.  The action type has a
constructor for a local file write so that the absence of any such
write in the traces is expressible: the source of `uploadFile`,
`updateExistingDocument` and `createNewDocument` performs no filesystem
operation at all. -/

structure Document where
  id : String
  text : String
deriving Repr, DecidableEq

structure CreateDocumentRequest where
  title : String
  text : String
  collectionId : String
  parentDocumentId : Option String
  publish : Bool
deriving Repr, DecidableEq

inductive UploadAction where
  | create (req : CreateDocumentRequest)
  | getDoc (id : String)
  | update (id : String) (title : String) (text : String)
  | writeLocal (filePath : FPath) (content : String)
deriving Repr, DecidableEq

inductive UploadStatusKind where
  | created
  | updated
  | skipped
deriving Repr, DecidableEq

/-- The class matched by the regex `\s` and stripped by
`String.prototype.trim`: ASCII whitespace, NBSP, the Unicode space
separators (U+1680, U+2000-U+200A, U+202F, U+205F, U+3000), the line
and paragraph separators and the BOM. -/
def jsWhitespaceChar (c : Char) : Bool :=
  c == ' ' || c == '\t' || c == '\n' || c == '\r' ||
  c == '\x0b' || c == '\x0c' || c == '\u00a0' || c == '\u1680' ||
  ('\u2000' ≤ c && c ≤ '\u200a') || c == '\u2028' || c == '\u2029' ||
  c == '\u202f' || c == '\u205f' || c == '\u3000' || c == '\ufeff'

/-- `String.prototype.trim`. -/
def jsTrim (s : String) : String :=
  ⟨((s.data.dropWhile jsWhitespaceChar).reverse.dropWhile jsWhitespaceChar).reverse⟩

/-- `updateExistingDocument` (upload.ts 169-196): throws when
`outlineId` is falsy, fetches the document, skips when the trimmed
bodies agree and updates otherwise.  The error value is the document's
`filePath` (interpolated into the thrown message). -/
def updateExistingDocument (getDocument : String → Document)
    (parsedDoc : ParsedDocument) :
    Except FPath (UploadStatusKind × List UploadAction) :=
  if !truthy parsedDoc.metadata.outlineId then
    .error parsedDoc.filePath
  else
    let oid := parsedDoc.metadata.outlineId.getD ""
    let document := getDocument oid
    if jsTrim document.text == jsTrim parsedDoc.content then
      .ok (.skipped, [.getDoc oid])
    else
      .ok (.updated,
        [.getDoc oid, .update oid parsedDoc.metadata.title parsedDoc.content])

/-- `createNewDocument` (upload.ts 201-220): one `documents.create`
call whose `parentDocumentId` is passed through verbatim. -/
def createNewDocument (parsedDoc : ParsedDocument) (collectionId : String)
    (parentDocumentId : Option String) : UploadStatusKind × List UploadAction :=
  (.created, [.create
    { title := parsedDoc.metadata.title, text := parsedDoc.content,
      collectionId := collectionId, parentDocumentId := parentDocumentId,
      publish := true }])

/-- `uploadFile` (upload.ts 145-164). -/
def uploadFile (getDocument : String → Document) (file : ParsedDocument)
    (collectionId : String) (updateOnly : Bool) :
    Except FPath (UploadStatusKind × List UploadAction) :=
  if !truthy file.metadata.outlineId && updateOnly then
    .ok (.skipped, [])
  else if truthy file.metadata.outlineId then
    updateExistingDocument getDocument file
  else
    .ok (createNewDocument file collectionId file.parentDocumentId)

/-! ## Claim C2: parent resolution on upload -/

/-- The claimed scenario: a subdirectory `sub` whose `index.md` (title
"Root") has no `outlineId`, containing `child.md` (title "Child"). -/
def exC2Tree : FST DocFile :=
  .dir [("sub", .dir
    [("index.md", .file { metadata := { title := "Root" }, content := "root body" }),
     ("child.md", .file { metadata := { title := "Child" }, content := "child body" })])]

/-- An oracle that is never consulted (no document carries an
`outlineId`). -/
def exC2Remote : String → Document := fun i => { id := i, text := "" }

/-- Claim C2 is false of the code: uploading the claimed scenario sends
the child's `documents.create` request with `parentDocumentId` equal to
the parent's local file path `"sub/index.md"` — the value the reader
recorded — and not to any remote ID.  `uploadFile` passes
`file.parentDocumentId` through verbatim: no path-to-remote-ID
resolution and no ordering between the two creates exists anywhere in
the upload pass. -/
def exC2RootReq : CreateDocumentRequest :=
  { title := "Root", text := "root body", collectionId := "col-1",
    parentDocumentId := none, publish := true }

def exC2ChildReq : CreateDocumentRequest :=
  { title := "Child", text := "child body", collectionId := "col-1",
    parentDocumentId := some (pathToString ["sub", "index.md"]), publish := true }

theorem upload_child_create_carries_local_path :
    (readCollectionFiles exC2Tree).map (fun docs => docs.map (fun f =>
        uploadFile exC2Remote f "col-1" false))
      = .ok [.ok (.created, [.create exC2RootReq]),
             .ok (.created, [.create exC2ChildReq])] := by
  simp +decide [readCollectionFiles, readCollectionFilesForDirectory, readEntryList,
    exC2Tree, sortAndIndex, assignIndex, List.insertionSort,
    List.orderedInsert, docOrderLe, sidebarOrderKey, readDocumentFile, strEndsWith,
    childNamed, truthy, pathToString, uploadFile, createNewDocument, exC2Remote,
    exC2RootReq, exC2ChildReq, Except.map]

/-! ## Claim C7: update-if-changed -/

/-- Whether a trace contains a `documents.update` call. -/
def issuesUpdate (acts : List UploadAction) : Bool :=
  acts.any fun a => match a with
    | .update _ _ _ => true
    | _ => false

/-- Whether a trace contains a local file write. -/
def writesLocalFile (acts : List UploadAction) : Bool :=
  acts.any fun a => match a with
    | .writeLocal _ _ => true
    | _ => false

/-- Claim C7 (amended).  For a document with a truthy `outlineId`, the
upload pass fetches the remote document first, issues an update if and
only if the trimmed local and remote bodies differ, classifies the
document as `skipped` exactly when they agree (`updated` otherwise) —
but it never rewrites the local file: no filesystem effect occurs in
`updateExistingDocument`, so the original claim's "rewrites the local
file with the server's returned canonical body" does not happen. -/
theorem update_iff_trimmed_bodies_differ
    (getDocument : String → Document) (doc : ParsedDocument) (oid : String)
    (h : doc.metadata.outlineId = some oid) (hne : oid ≠ "") :
    ∃ st acts, updateExistingDocument getDocument doc = .ok (st, acts)
      ∧ acts.head? = some (.getDoc oid)
      ∧ (issuesUpdate acts = true
          ↔ jsTrim (getDocument oid).text ≠ jsTrim doc.content)
      ∧ (st = .skipped ↔ jsTrim (getDocument oid).text = jsTrim doc.content)
      ∧ (st = .updated ↔ jsTrim (getDocument oid).text ≠ jsTrim doc.content)
      ∧ writesLocalFile acts = false := by
  unfold updateExistingDocument
  rw [h]
  have ht : truthy (some oid) = true := by
    simp [truthy, hne]
  rw [ht]
  simp only [Bool.not_true, Bool.false_eq_true, if_false, Option.getD_some]
  by_cases hc : jsTrim (getDocument oid).text = jsTrim doc.content
  · refine ⟨.skipped, [.getDoc oid], ?_⟩
    rw [if_pos (by simp [hc])]
    refine ⟨rfl, rfl, ?_, ?_, ?_, rfl⟩
    · simp [issuesUpdate, hc]
    · simp [hc]
    · simp [hc]
  · refine ⟨.updated, [.getDoc oid, .update oid doc.metadata.title doc.content], ?_⟩
    rw [if_neg (by simpa using hc)]
    refine ⟨rfl, rfl, ?_, ?_, ?_, rfl⟩
    · simp [issuesUpdate, hc]
    · simp [hc]
    · simp [hc]

def exC7Doc : ParsedDocument :=
  { metadata := { title := "T", outlineId := some "doc-1" },
    content := "local body", filePath := ["a.md"], parentDocumentId := none,
    relativeIndex := 0 }

def exC7Remote : String → Document := fun i => { id := i, text := "remote body" }

theorem update_iff_trimmed_bodies_differ_witness :
    exC7Doc.metadata.outlineId = some "doc-1"
      ∧ ∃ st acts, updateExistingDocument exC7Remote exC7Doc = .ok (st, acts)
        ∧ acts.head? = some (.getDoc "doc-1")
        ∧ (issuesUpdate acts = true
            ↔ jsTrim (exC7Remote "doc-1").text ≠ jsTrim exC7Doc.content)
        ∧ (st = .skipped ↔ jsTrim (exC7Remote "doc-1").text = jsTrim exC7Doc.content)
        ∧ (st = .updated ↔ jsTrim (exC7Remote "doc-1").text ≠ jsTrim exC7Doc.content)
        ∧ writesLocalFile acts = false :=
  ⟨rfl, update_iff_trimmed_bodies_differ exC7Remote exC7Doc "doc-1" rfl (by decide)⟩

/-- Counterexample to claim C7 as stated: on a document whose trimmed
body differs from the remote one the pass issues the update, yet its
complete effect trace contains no local file write — the local file is
never rewritten with the server's canonical body. -/
theorem update_never_rewrites_local_counterexample :
    updateExistingDocument exC7Remote exC7Doc
        = .ok (.updated, [.getDoc "doc-1", .update "doc-1" "T" "local body"])
      ∧ writesLocalFile [.getDoc "doc-1", .update "doc-1" "T" "local body"] = false := by
  exact ⟨rfl, rfl⟩

/-! ## Claim C4: `writeDocumentFile` (`utils/file-manager.ts` 30-48)

The function's filesystem effects are recorded as a trace.
`matter.stringify` (gray-matter, an external library) is modelled as a
deterministic YAML-frontmatter serializer over the already
`undefined`-stripped metadata — the stripping is reflected by rendering
only the present `Option` fields.  A disk is a map from paths to
`(bytes, mtime)`; applying a `write` effect stores the bytes with the
current clock value, which is how an unconditional `fs.writeFile`
changes the mtime even when it stores identical bytes. -/

inductive FileEffect where
  | mkdirRecursive (dir : FPath)
  | write (filePath : FPath) (content : String)
deriving Repr, DecidableEq

def yamlLines (m : DocumentFrontmatter) : List String :=
  ["title: " ++ m.title]
  ++ (match m.description with | some d => ["description: " ++ d] | none => [])
  ++ (match m.sidebar with
      | some sb =>
        match sb.order with
        | some o => ["sidebar:", "  order: " ++ toString o]
        | none => ["sidebar:"]
      | none => [])
  ++ (match m.outlineId with | some i => ["outlineId: " ++ i] | none => [])

def matterStringify (content : String) (m : DocumentFrontmatter) : String :=
  "---\n" ++ String.intercalate "\n" (yamlLines m) ++ "\n---\n" ++ content

/-- The bytes the call hands to `fs.writeFile`. -/
def serializedContent (content : String) (metadata : Option DocumentFrontmatter) :
    String :=
  match metadata with
  | some m => matterStringify content m
  | none => content

/-- `writeDocumentFile`: `fs.mkdir(path.dirname(filePath), {recursive:
true})` followed unconditionally by one `fs.writeFile`. -/
def writeDocumentFile (filePath : FPath) (content : String)
    (metadata : Option DocumentFrontmatter) : List FileEffect :=
  [FileEffect.mkdirRecursive filePath.dropLast] ++
  (match metadata with
   | some m => [FileEffect.write filePath (matterStringify content m)]
   | none => [FileEffect.write filePath content])

def applyFileEffect (now : Nat) (disk : FPath → Option (String × Nat)) :
    FileEffect → (FPath → Option (String × Nat))
  | .mkdirRecursive _ => disk
  | .write p bytes => fun q => if q = p then some (bytes, now) else disk q

/-- The disk after a `writeDocumentFile` call at clock `now`. -/
def runWriteDocumentFile (now : Nat) (disk : FPath → Option (String × Nat))
    (filePath : FPath) (content : String)
    (metadata : Option DocumentFrontmatter) : FPath → Option (String × Nat) :=
  (writeDocumentFile filePath content metadata).foldl (applyFileEffect now) disk

/-- Claim C4 (amended).  `writeDocumentFile` is not idempotent at the
byte level: it never inspects the existing file and issues exactly one
write syscall unconditionally, so after any call — including one whose
serialized bytes equal the bytes already on disk — the target file
holds the serialized bytes with the mtime of the call, and every other
path is untouched. -/
theorem writeDocumentFile_always_writes
    (now : Nat) (disk : FPath → Option (String × Nat)) (filePath : FPath)
    (content : String) (metadata : Option DocumentFrontmatter) :
    (writeDocumentFile filePath content metadata).countP
        (fun e => match e with | .write _ _ => true | _ => false) = 1
      ∧ runWriteDocumentFile now disk filePath content metadata filePath
          = some (serializedContent content metadata, now)
      ∧ ∀ q, q ≠ filePath →
          runWriteDocumentFile now disk filePath content metadata q = disk q := by
  refine ⟨?_, ?_, ?_⟩
  · cases metadata <;> rfl
  · cases metadata <;>
      simp [runWriteDocumentFile, writeDocumentFile, applyFileEffect,
        serializedContent]
  · intro q hq
    cases metadata <;>
      simp [runWriteDocumentFile, writeDocumentFile, applyFileEffect, hq]

def exC4Meta : DocumentFrontmatter := { title := "T" }

def exC4Disk : FPath → Option (String × Nat) :=
  fun q => if q = ["docs", "a.md"] then some (matterStringify "body" exC4Meta, 5) else none

/-- Counterexample to claim C4 as stated: the file `docs/a.md` already
holds exactly the bytes the call serializes (mtime 5), yet the call
still issues the write — afterwards the mtime is the call's clock 9,
not 5.  No code path in `writeDocumentFile` reads the existing file or
skips the write. -/
theorem write_not_idempotent_counterexample :
    exC4Disk ["docs", "a.md"] = some (matterStringify "body" exC4Meta, 5)
      ∧ runWriteDocumentFile 9 exC4Disk ["docs", "a.md"] "body" (some exC4Meta)
          ["docs", "a.md"] = some (matterStringify "body" exC4Meta, 9)
      ∧ (5 : Nat) ≠ 9 := by
  refine ⟨rfl, ?_, by decide⟩
  simp [runWriteDocumentFile, writeDocumentFile, applyFileEffect]

theorem writeDocumentFile_always_writes_witness :
    (["x"] : FPath) ≠ ["docs", "a.md"]
      ∧ ((writeDocumentFile ["docs", "a.md"] "body" (some exC4Meta)).countP
          (fun e => match e with | .write _ _ => true | _ => false) = 1
        ∧ runWriteDocumentFile 9 exC4Disk ["docs", "a.md"] "body" (some exC4Meta)
            ["docs", "a.md"] = some (serializedContent "body" (some exC4Meta), 9)
        ∧ ∀ q, q ≠ ["docs", "a.md"] →
            runWriteDocumentFile 9 exC4Disk ["docs", "a.md"] "body" (some exC4Meta) q
              = exC4Disk q) := by
  exact ⟨by decide, writeDocumentFile_always_writes 9 exC4Disk ["docs", "a.md"]
    "body" (some exC4Meta)⟩

/-! ## Claims C5 and C10: attachments (`services/attachments.ts`)

The two markdown scanners are translations of the global regexes
`ATTACHMENT_REGEX` and `RELATIVE_IMAGE_REGEX`: both regexes are
deterministic (every quantified class is a maximal run ended by a
character it cannot contain), so `exec`-in-a-loop is the
leftmost-match scan implemented here with an explicit length fuel.
`String.prototype.replace` with a string pattern replaces the first
occurrence, applying ECMAScript `GetSubstitution` to the replacement
string.  `path.posix.relative` is modelled with the process cwd at
`/`. -/

def hexDigitLower (c : Char) : Bool := ('0' ≤ c && c ≤ '9') || ('a' ≤ c && c ≤ 'f')

/-- The character class `[a-f0-9-]` of `ATTACHMENT_REGEX`. -/
def hexDashChar (c : Char) : Bool := hexDigitLower c || c == '-'

def hexDigitCI (c : Char) : Bool := hexDigitLower c || ('A' ≤ c && c ≤ 'F')

/-- `UUID_REGEX = /^[a-f0-9]{8}-[a-f0-9]{4}-4[a-f0-9]{3}-[89ab][a-f0-9]{3}-[a-f0-9]{12}$/i`
(anchored, case-insensitive), tested positionally on the 36
characters. -/
def uuidV4Test (s : String) : Bool :=
  let cs := s.data
  cs.length == 36 &&
  (List.range 36).all (fun i =>
    let c := cs.getD i ' '
    if i == 8 || i == 13 || i == 18 || i == 23 then c == '-'
    else if i == 14 then c == '4'
    else if i == 19 then
      c == '8' || c == '9' || c == 'a' || c == 'b' || c == 'A' || c == 'B'
    else hexDigitCI c)

/-- Drop an expected literal prefix, or fail. -/
def stripPre : List Char → List Char → Option (List Char)
  | [], s => some s
  | _ :: _, [] => none
  | p :: ps, c :: cs => if p == c then stripPre ps cs else none

/-- One attempted match of `ATTACHMENT_REGEX` at the head of `s`:
`!\[([^\]]*)\]\(\/api\/attachments\.redirect\?id=([a-f0-9-]+)([^)]*)\)`.
Returns the three captures and the suffix after the match. -/
def matchAttachmentAt (s : List Char) :
    Option (List Char × List Char × List Char × List Char) :=
  match stripPre "![".data s with
  | none => none
  | some s₁ =>
    let cap := s₁.takeWhile (fun c => !(c == ']'))
    let s₂ := s₁.drop cap.length
    match stripPre "](/api/attachments.redirect?id=".data s₂ with
    | none => none
    | some s₃ =>
      let idc := s₃.takeWhile hexDashChar
      if idc.isEmpty then none
      else
        let s₄ := s₃.drop idc.length
        let ann := s₄.takeWhile (fun c => !(c == ')'))
        match s₄.drop ann.length with
        | ')' :: rest => some (cap, idc, ann, rest)
        | _ => none

/-- The `exec` loop: try each position left to right, resuming after
each match.  `fuel` is initialized to the string length. -/
def parseAttachmentsAux : Nat → List Char → List (List Char × List Char × List Char)
  | 0, _ => []
  | _ + 1, [] => []
  | fuel + 1, c :: cs =>
    match matchAttachmentAt (c :: cs) with
    | some (cap, idc, ann, rest) => (cap, idc, ann) :: parseAttachmentsAux fuel rest
    | none => parseAttachmentsAux fuel cs

def jsIndexOfCh (l : List Char) (c : Char) : Int :=
  match l.findIdx? (fun x => x == c) with
  | some i => (i : Int)
  | none => -1

def jsLastIndexOfCh (l : List Char) (c : Char) : Int :=
  match l.reverse.findIdx? (fun x => x == c) with
  | some i => (l.length : Int) - 1 - (i : Int)
  | none => -1

/-- `Array/String.prototype.slice` index resolution. -/
def jsSliceList (l : List Char) (a b : Int) : List Char :=
  let n : Int := l.length
  let ra : Nat := (if a < 0 then max (n + a) 0 else min a n).toNat
  let rb : Nat := (if b < 0 then max (n + b) 0 else min b n).toNat
  (l.drop ra).take (rb - ra)

structure AttachmentInfo where
  id : String
  caption : String
  originalUrl : String
  localPath : String
  annotations : Option String
deriving Repr, DecidableEq

/-- `Omit<AttachmentInfo, 'localPath'>`, the element type returned by
`parseAttachments`. -/
structure ParsedAttachment where
  id : String
  caption : String
  originalUrl : String
  annotations : Option String
deriving Repr, DecidableEq

/-- `match[0]` reassembled from the three captures. -/
def matchZero (cap idc ann : List Char) : List Char :=
  "![".data ++ cap ++ "](/api/attachments.redirect?id=".data ++ idc ++ ann ++ [')']

/-- One entry pushed by `parseAttachments`: `originalUrl` is
`match[0].slice(match[0].indexOf('(') + 1, match[0].lastIndexOf(')'))`
and empty `annotations` collapse to `undefined`. -/
def mkParsedAttachment (cap idc ann : List Char) : ParsedAttachment :=
  let m0 := matchZero cap idc ann
  { id := ⟨idc⟩, caption := ⟨cap⟩,
    originalUrl := ⟨jsSliceList m0 (jsIndexOfCh m0 '(' + 1) (jsLastIndexOfCh m0 ')')⟩,
    annotations := if ann.isEmpty then none else some ⟨ann⟩ }

def parseAttachments (content : String) : List ParsedAttachment :=
  (parseAttachmentsAux content.data.length content.data).map
    (fun t => mkParsedAttachment t.1 t.2.1 t.2.2)

/-- One attempted match of `RELATIVE_IMAGE_REGEX` at the head of `s`:
`!\[([^\]]*)\]\(\.\/([^)\s]+)([^)]*)\)`. -/
def matchRelImageAt (s : List Char) :
    Option (List Char × List Char × List Char × List Char) :=
  match stripPre "![".data s with
  | none => none
  | some s₁ =>
    let cap := s₁.takeWhile (fun c => !(c == ']'))
    let s₂ := s₁.drop cap.length
    match stripPre "](./".data s₂ with
    | none => none
    | some s₃ =>
      let pth := s₃.takeWhile (fun c => !(c == ')' || jsWhitespaceChar c))
      if pth.isEmpty then none
      else
        let s₄ := s₃.drop pth.length
        let ann := s₄.takeWhile (fun c => !(c == ')'))
        match s₄.drop ann.length with
        | ')' :: rest => some (cap, pth, ann, rest)
        | _ => none

def parseRelImagesAux : Nat → List Char → List (List Char × List Char × List Char)
  | 0, _ => []
  | _ + 1, [] => []
  | fuel + 1, c :: cs =>
    match matchRelImageAt (c :: cs) with
    | some (cap, pth, ann, rest) => (cap, pth, ann) :: parseRelImagesAux fuel rest
    | none => parseRelImagesAux fuel cs

/-- `String.prototype.split` with a single-character separator. -/
def splitOnChar (sep : Char) (l : List Char) : List (List Char) :=
  l.foldr (fun c acc =>
    if c == sep then [] :: acc
    else match acc with
      | a :: as => (c :: a) :: as
      | [] => [[c]]) [[]]

/-- `filename.slice(0, filename.lastIndexOf('.'))`: when the filename
has no dot, `lastIndexOf` is `-1` and `slice(0, -1)` drops the LAST
character instead of returning the whole filename. -/
def jsStripExt (filename : List Char) : List Char :=
  match filename.reverse.findIdx? (fun c => c == '.') with
  | some i => filename.take (filename.length - 1 - i)
  | none => filename.dropLast

structure ImageUploadInfo where
  caption : String
  relativePath : String
  isExistingAttachment : Bool
  attachmentId : Option String
  annotations : Option String
deriving Repr, DecidableEq

/-- One entry pushed by `parseRelativeImages`. -/
def mkImageUploadInfo (cap pth ann : List Char) : ImageUploadInfo :=
  let filename := ((splitOnChar '/' pth).getLast?).getD []
  let nameWithoutExt := jsStripExt filename
  let isExisting := uuidV4Test ⟨nameWithoutExt⟩
  { caption := ⟨cap⟩, relativePath := ⟨pth⟩,
    isExistingAttachment := isExisting,
    attachmentId := if isExisting then some ⟨nameWithoutExt⟩ else none,
    annotations := if ann.isEmpty then none else some ⟨ann⟩ }

def parseRelativeImages (content : String) : List ImageUploadInfo :=
  (parseRelImagesAux content.data.length content.data).map
    (fun t => mkImageUploadInfo t.1 t.2.1 t.2.2)

/-- `GetSubstitution` for a string search pattern: in the replacement,
`$$` is a dollar, `$&` the matched substring, `$` followed by a
backtick (character 96) the portion before the match, `$'` the portion
after it; a string pattern has no capture groups, so `$n` and
`$<name>` stay literal, as does any other `$`. -/
def getSubstitution (matched before after : List Char) : List Char → List Char
  | [] => []
  | c :: rest =>
    if c == '$' then
      match rest with
      | [] => ['$']
      | c₂ :: rest₂ =>
        if c₂ == '$' then '$' :: getSubstitution matched before after rest₂
        else if c₂ == '&' then matched ++ getSubstitution matched before after rest₂
        else if c₂ == Char.ofNat 96 then
          before ++ getSubstitution matched before after rest₂
        else if c₂ == '\'' then after ++ getSubstitution matched before after rest₂
        else '$' :: getSubstitution matched before after (c₂ :: rest₂)
    else c :: getSubstitution matched before after rest

/-- The first occurrence of `pat`, as the portions before and after it. -/
def findOccurrence (pat : List Char) : List Char → Option (List Char × List Char)
  | [] => none
  | c :: cs =>
    if pat.isPrefixOf (c :: cs) then some ([], (c :: cs).drop pat.length)
    else match findOccurrence pat cs with
      | some (pre, post) => some (c :: pre, post)
      | none => none

/-- `String.prototype.replace` with a string pattern: the first
occurrence is replaced by the replacement processed through
`GetSubstitution`; with no occurrence the string is returned unchanged;
an empty pattern matches at position 0. -/
def jsReplace (s pat rep : String) : String :=
  if pat.data.isEmpty then
    ⟨getSubstitution [] [] s.data rep.data ++ s.data⟩
  else
    match findOccurrence pat.data s.data with
    | none => s
    | some (pre, post) =>
      ⟨pre ++ (getSubstitution pat.data pre post rep.data ++ post)⟩

def strStartsWith (s pre : String) : Bool := pre.data.isPrefixOf s.data

def posixResolveSegs (p : String) : List String :=
  ((splitOnChar '/' p.data).map (fun l => (⟨l⟩ : String))).foldl
    (fun acc seg =>
      if seg == "" || seg == "." then acc
      else if seg == ".." then acc.dropLast
      else acc ++ [seg]) []

def commonPrefixLen : List String → List String → Nat
  | a :: as, b :: bs => if a == b then commonPrefixLen as bs + 1 else 0
  | _, _ => 0

/-- `path.posix.relative(fromP, toP)` with cwd `/`. -/
def posixRelative (fromP toP : String) : String :=
  let f := posixResolveSegs fromP
  let t := posixResolveSegs toP
  let k := commonPrefixLen f t
  String.intercalate "/" ((f.drop k).map (fun _ => "..") ++ t.drop k)

/-- The body of the `transformMarkdownImages` loop. -/
def transformImageStep (documentPath : String) (transformed : String)
    (attachment : AttachmentInfo) : String :=
  let localPath := posixRelative documentPath attachment.localPath
  let relativePath :=
    if strStartsWith localPath "." then localPath else "./" ++ localPath
  let originalPattern :=
    "![" ++ attachment.caption ++ "](" ++ attachment.originalUrl ++ ")"
  let replacement :=
    "![" ++ attachment.caption ++ "](" ++ relativePath
      ++ (attachment.annotations.getD "") ++ ")"
  jsReplace transformed originalPattern replacement

/-- `transformMarkdownImages` (attachments.ts 86-104). -/
def transformMarkdownImages (content : String)
    (attachments : List AttachmentInfo) (documentPath : String) : String :=
  attachments.foldl (transformImageStep documentPath) content

/-- The body of the `transformMarkdownToAttachments` loop. -/
def transformToAttachmentStep (transformed : String)
    (image : ImageUploadInfo) : String :=
  if image.isExistingAttachment && truthy image.attachmentId then
    let originalPattern :=
      "![" ++ image.caption ++ "](./" ++ image.relativePath
        ++ (image.annotations.getD "") ++ ")"
    let replacement :=
      "![" ++ image.caption ++ "](/api/attachments.redirect?id="
        ++ (image.attachmentId.getD "") ++ (image.annotations.getD "") ++ ")"
    jsReplace transformed originalPattern replacement
  else transformed

/-- `transformMarkdownToAttachments` (attachments.ts 109-124). -/
def transformMarkdownToAttachments (content : String)
    (images : List ImageUploadInfo) : String :=
  images.foldl transformToAttachmentStep content

/-! ## Claim C10: UUID classification of relative images -/

/-- The claim's reading of "filename without its extension": strip from
the last dot, or keep the whole filename when it has none.  Spec-side
definition, to be compared with the source's `jsStripExt`. -/
def stripExtBeforeLastDot (filename : List Char) : List Char :=
  match filename.reverse.findIdx? (fun c => c == '.') with
  | some i => filename.take (filename.length - 1 - i)
  | none => filename

/-- Claim C10 (amended).  Every image returned by
`parseRelativeImages` is classified by applying `UUID_REGEX` to
`filename.slice(0, filename.lastIndexOf('.'))`, with `attachmentId`
set to that sliced name exactly when the test succeeds.  For filenames
that contain a dot this agrees with the claim's "filename without its
extension"; for extension-less filenames `lastIndexOf` is `-1` and
`slice(0, -1)` drops the last character, so an extension-less
version-4-UUID filename is NOT classified as an existing attachment,
contrary to the claim. -/
theorem parseRelativeImages_uuid_classification (content : String) :
    ∀ img ∈ parseRelativeImages content,
      ∃ pth : List Char, img.relativePath = ⟨pth⟩
        ∧ img.isExistingAttachment
            = uuidV4Test ⟨jsStripExt (((splitOnChar '/' pth).getLast?).getD [])⟩
        ∧ img.attachmentId
            = (if img.isExistingAttachment
               then some ⟨jsStripExt (((splitOnChar '/' pth).getLast?).getD [])⟩
               else none)
        ∧ ((((splitOnChar '/' pth).getLast?).getD []).contains '.' = true →
            img.isExistingAttachment
              = uuidV4Test ⟨stripExtBeforeLastDot
                  (((splitOnChar '/' pth).getLast?).getD [])⟩) := by
  intro img hmem
  unfold parseRelativeImages at hmem
  rcases List.mem_map.mp hmem with ⟨t, _, rfl⟩
  refine ⟨t.2.1, rfl, rfl, rfl, ?_⟩
  intro hdot
  have hfind : (((splitOnChar '/' t.2.1).getLast?).getD []).reverse.findIdx?
      (fun c => c == '.') ≠ none := by
    intro hnone
    have hnotmem := List.findIdx?_eq_none_iff.mp hnone
    have : ('.' : Char) ∈ (((splitOnChar '/' t.2.1).getLast?).getD []) := by
      simpa using hdot
    have h₂ := hnotmem '.' (by simpa using this)
    simp at h₂
  rcases hi : (((splitOnChar '/' t.2.1).getLast?).getD []).reverse.findIdx?
      (fun c => c == '.') with _ | i
  · exact absurd hi hfind
  · simp only [mkImageUploadInfo, jsStripExt, stripExtBeforeLastDot, hi]

def exC10Image : ImageUploadInfo :=
  { caption := "C", relativePath := "123e4567-e89b-42d3-a456-426614174000",
    isExistingAttachment := false, attachmentId := none, annotations := none }

/-- Counterexample to claim C10 as stated: the relative image
`![C](./123e4567-e89b-42d3-a456-426614174000)` has an extension-less
filename that IS a version-4 UUID (so the claim predicts
`isExistingAttachment = true`), yet the code classifies it as a new
image with no `attachmentId`: `slice(0, lastIndexOf('.'))` with no dot
drops the final character and the 35-character remainder fails
`UUID_REGEX`. -/
theorem parseRelativeImages_extensionless_uuid_counterexample :
    parseRelativeImages "![C](./123e4567-e89b-42d3-a456-426614174000)"
        = [exC10Image]
      ∧ uuidV4Test "123e4567-e89b-42d3-a456-426614174000" = true := by
  constructor
  · rfl
  · decide

theorem parseRelativeImages_uuid_classification_witness :
    ∃ pth : List Char,
      (mkImageUploadInfo "C".data "images/pic.png".data []).relativePath = ⟨pth⟩
        ∧ (mkImageUploadInfo "C".data "images/pic.png".data []).isExistingAttachment
            = uuidV4Test ⟨jsStripExt (((splitOnChar '/' pth).getLast?).getD [])⟩
        ∧ (mkImageUploadInfo "C".data "images/pic.png".data []).attachmentId
            = (if (mkImageUploadInfo "C".data "images/pic.png".data
                  []).isExistingAttachment
               then some ⟨jsStripExt (((splitOnChar '/' pth).getLast?).getD [])⟩
               else none)
        ∧ ((((splitOnChar '/' pth).getLast?).getD []).contains '.' = true →
            (mkImageUploadInfo "C".data "images/pic.png".data
                []).isExistingAttachment
              = uuidV4Test ⟨stripExtBeforeLastDot
                  (((splitOnChar '/' pth).getLast?).getD [])⟩) :=
  parseRelativeImages_uuid_classification "![C](./images/pic.png)"
    (mkImageUploadInfo "C".data "images/pic.png".data []) (by decide)

/-! ## Claim C5: the attachment round trip -/

def exC5Body : String :=
  "![C](/api/attachments.redirect?id=123e4567-e89b-42d3-a456-426614174000)"

/-- The pipeline's enrichment `{ ...attachment, localPath: filePath }`
with a download directory that is NOT below the document's own
directory. -/
def exC5Atts : List AttachmentInfo :=
  (parseAttachments exC5Body).map (fun a =>
    { id := a.id, caption := a.caption, originalUrl := a.originalUrl,
      localPath := "images/shared/" ++ a.id ++ ".png",
      annotations := a.annotations })

def exC5Local : String := transformMarkdownImages exC5Body exC5Atts "docs/subfolder"

/-- Counterexample to claim C5 as stated: for a document at
`docs/subfolder`, an attachment stored at
`images/shared/<uuid>.png` gets the traversal path
`../../images/shared/<uuid>.png`.  `RELATIVE_IMAGE_REGEX` only matches
`](./` — not `](../` — so `parseRelativeImages` finds nothing and the
return transform leaves the body unchanged: the round trip is not the
identity, though the image is an attachment known to exist remotely
and its local file is named by the attachment UUID. -/
theorem attachment_round_trip_counterexample :
    exC5Local = "![C](../../images/shared/123e4567-e89b-42d3-a456-426614174000.png)"
      ∧ parseRelativeImages exC5Local = []
      ∧ transformMarkdownToAttachments exC5Local (parseRelativeImages exC5Local)
          = exC5Local
      ∧ exC5Local ≠ exC5Body := by
  refine ⟨by decide, by decide, by decide, by decide⟩

/-! ### Round-trip machinery: structured bodies

A body is modelled as a list of segments: literal text and embedded
attachment images.  `matchZero cap idc ann` is exactly the remote
rendering of an attachment image, and `localRender cap rel ann` its
local rendering after `transformMarkdownImages`. -/

inductive MarkdownSeg where
  | text (s : List Char)
  | att (cap idc ann : List Char)
deriving Repr, DecidableEq

def renderRemoteSeg : MarkdownSeg → List Char
  | .text t => t
  | .att cap idc ann => matchZero cap idc ann

def renderRemoteL (segs : List MarkdownSeg) : List Char :=
  (segs.map renderRemoteSeg).flatten

def localRender (cap rel ann : List Char) : List Char :=
  '!' :: '[' :: (cap ++ ']' :: '(' :: '.' :: '/' :: (rel ++ ann ++ [')']))

def renderLocalSeg (relOf : List Char → List Char) : MarkdownSeg → List Char
  | .text t => t
  | .att cap idc ann => localRender cap (relOf idc) ann

def renderLocalL (relOf : List Char → List Char) (segs : List MarkdownSeg) :
    List Char :=
  (segs.map (renderLocalSeg relOf)).flatten

def attTriples (segs : List MarkdownSeg) :
    List (List Char × List Char × List Char) :=
  segs.filterMap (fun sg => match sg with
    | .att cap idc ann => some (cap, idc, ann)
    | .text _ => none)

/-- Well-formedness of a segment: text carries no `!`; captions avoid
`]` (unrepresentable in a parsed caption), `!`, `(` and `$` (captions
are interpolated into replacement strings, where `$` templates are
substituted); ids are non-empty lowercase-hex-dash version-4 UUIDs;
annotations are empty or start with a space and avoid `)`, `!` and
`$`. -/
def wfSeg : MarkdownSeg → Prop
  | .text t => ∀ c ∈ t, c ≠ '!'
  | .att cap idc ann =>
    (∀ c ∈ cap, c ≠ ']' ∧ c ≠ '!' ∧ c ≠ '(' ∧ c ≠ '$') ∧
    (∀ c ∈ idc, hexDashChar c = true) ∧
    idc ≠ [] ∧
    uuidV4Test ⟨idc⟩ = true ∧
    (ann = [] ∨ ann.head? = some ' ') ∧
    (∀ c ∈ ann, c ≠ ')' ∧ c ≠ '!' ∧ c ≠ '$')

/-- The relative path computed for an attachment behaves: non-empty,
free of `)`, JS whitespace, `!` and `$`, does not start with a dot (so
the `./` prefix is added and parses back), and stripping the extension
of its final path segment recovers the attachment id. -/
def relOkFor (rel idc : List Char) : Prop :=
  rel ≠ [] ∧
  (∀ c ∈ rel, (c == ')' || jsWhitespaceChar c) = false ∧ c ≠ '!' ∧ c ≠ '$') ∧
  strStartsWith ⟨rel⟩ "." = false ∧
  jsStripExt (((splitOnChar '/' rel).getLast?).getD []) = idc

theorem stripPre_append (p r : List Char) : stripPre p (p ++ r) = some r := by
  induction p with
  | nil => rfl
  | cons c cs ih => simp [stripPre, ih]

theorem stripPre_eq_append {p s r : List Char} (h : stripPre p s = some r) :
    s = p ++ r := by
  induction p generalizing s with
  | nil => simpa [stripPre] using h
  | cons c cs ih =>
    cases s with
    | nil => simp [stripPre] at h
    | cons x xs =>
      rw [stripPre] at h
      by_cases hc : c == x
      · rw [if_pos hc] at h
        have := ih h
        simp only [List.cons_append]
        rw [← this]
        have : c = x := by simpa using hc
        rw [this]
      · rw [if_neg hc] at h
        simp at h

theorem takeWhile_all_stop {q : Char → Bool} {xs : List Char} (y : Char)
    (ys : List Char) (hall : ∀ c ∈ xs, q c = true) (hy : q y = false) :
    (xs ++ y :: ys).takeWhile q = xs := by
  induction xs with
  | nil => simp [List.takeWhile_cons, hy]
  | cons c cs ih =>
    have hc := hall c (by simp)
    simp only [List.cons_append, List.takeWhile_cons, hc, if_true]
    rw [ih (fun c hm => hall c (by simp [hm]))]

theorem drop_length_takeWhile (q : Char → Bool) (l : List Char) :
    l.drop (l.takeWhile q).length = l.dropWhile q := by
  induction l with
  | nil => rfl
  | cons c cs ih =>
    rw [List.takeWhile_cons, List.dropWhile_cons]
    by_cases hc : q c
    · simp [hc, ih]
    · simp [hc]

/-- A successful `ATTACHMENT_REGEX` match decomposes the input. -/
theorem matchAttachmentAt_some_shape {s cap idc ann rest : List Char}
    (h : matchAttachmentAt s = some (cap, idc, ann, rest)) :
    s = matchZero cap idc ann ++ rest := by
  unfold matchAttachmentAt at h
  cases h₁ : stripPre "![".data s with
  | none => rw [h₁] at h; simp at h
  | some s₁ =>
    rw [h₁] at h
    simp only [] at h
    rw [drop_length_takeWhile] at h
    cases h₂ : stripPre "](/api/attachments.redirect?id=".data
        (s₁.dropWhile (fun c => !(c == ']'))) with
    | none => rw [h₂] at h; simp at h
    | some s₃ =>
      rw [h₂] at h
      simp only [] at h
      by_cases hid : (s₃.takeWhile hexDashChar).isEmpty
      · rw [if_pos hid] at h; simp at h
      · rw [if_neg hid] at h
        rw [drop_length_takeWhile, drop_length_takeWhile] at h
        split at h
        · rename_i rest₅ h₅
          simp only [Option.some.injEq, Prod.mk.injEq] at h
          obtain ⟨hcap, hidc, hann, hrest⟩ := h
          have e₁ : s = "![".data ++ s₁ := stripPre_eq_append h₁
          have e₂ : s₁ = cap ++ s₁.dropWhile (fun c => !(c == ']')) := by
            rw [← hcap]
            exact (List.takeWhile_append_dropWhile _ _).symm
          have e₃ := stripPre_eq_append h₂
          have e₄ : s₃ = idc ++ s₃.dropWhile hexDashChar := by
            rw [← hidc]
            exact (List.takeWhile_append_dropWhile _ _).symm
          have e₅ : s₃.dropWhile hexDashChar
              = ann ++ (s₃.dropWhile hexDashChar).dropWhile (fun c => !(c == ')')) := by
            rw [← hann]
            exact (List.takeWhile_append_dropWhile _ _).symm
          have e₆ : (s₃.dropWhile hexDashChar).dropWhile (fun c => !(c == ')'))
              = ')' :: rest := by rw [h₅, hrest]
          rw [e₁, e₂, e₃, e₄]
          conv_lhs => rw [e₅, e₆]
          simp [matchZero]
        · simp at h

/-- A successful `RELATIVE_IMAGE_REGEX` match decomposes the input. -/
theorem matchRelImageAt_some_shape {s cap pth ann rest : List Char}
    (h : matchRelImageAt s = some (cap, pth, ann, rest)) :
    s = localRender cap pth ann ++ rest := by
  unfold matchRelImageAt at h
  cases h₁ : stripPre "![".data s with
  | none => rw [h₁] at h; simp at h
  | some s₁ =>
    rw [h₁] at h
    simp only [] at h
    rw [drop_length_takeWhile] at h
    cases h₂ : stripPre "](./".data (s₁.dropWhile (fun c => !(c == ']'))) with
    | none => rw [h₂] at h; simp at h
    | some s₃ =>
      rw [h₂] at h
      simp only [] at h
      by_cases hp : (s₃.takeWhile (fun c => !(c == ')' || jsWhitespaceChar c))).isEmpty
      · rw [if_pos hp] at h; simp at h
      · rw [if_neg hp] at h
        rw [drop_length_takeWhile, drop_length_takeWhile] at h
        split at h
        · rename_i rest₅ h₅
          simp only [Option.some.injEq, Prod.mk.injEq] at h
          obtain ⟨hcap, hpth, hann, hrest⟩ := h
          have e₁ : s = "![".data ++ s₁ := stripPre_eq_append h₁
          have e₂ : s₁ = cap ++ s₁.dropWhile (fun c => !(c == ']')) := by
            rw [← hcap]
            exact (List.takeWhile_append_dropWhile _ _).symm
          have e₃ := stripPre_eq_append h₂
          have e₄ : s₃ = pth
              ++ s₃.dropWhile (fun c => !(c == ')' || jsWhitespaceChar c)) := by
            rw [← hpth]
            exact (List.takeWhile_append_dropWhile _ _).symm
          have e₅ : s₃.dropWhile (fun c => !(c == ')' || jsWhitespaceChar c))
              = ann ++ (s₃.dropWhile (fun c => !(c == ')' || jsWhitespaceChar c))).dropWhile
                  (fun c => !(c == ')')) := by
            rw [← hann]
            exact (List.takeWhile_append_dropWhile _ _).symm
          have e₆ : (s₃.dropWhile (fun c => !(c == ')' || jsWhitespaceChar c))).dropWhile
              (fun c => !(c == ')')) = ')' :: rest := by rw [h₅, hrest]
          rw [e₁, e₂, e₃, e₄]
          conv_lhs => rw [e₅, e₆]
          simp [localRender]
        · simp at h

theorem matchAttachmentAt_rest_length {s cap idc ann rest : List Char}
    (h : matchAttachmentAt s = some (cap, idc, ann, rest)) :
    rest.length < s.length := by
  have hs := matchAttachmentAt_some_shape h
  rw [hs]
  have h2 : ("![".data).length = 2 := rfl
  have h31 : ("](/api/attachments.redirect?id=".data).length = 31 := rfl
  simp [matchZero]
  omega

theorem matchRelImageAt_rest_length {s cap pth ann rest : List Char}
    (h : matchRelImageAt s = some (cap, pth, ann, rest)) :
    rest.length < s.length := by
  have hs := matchRelImageAt_some_shape h
  rw [hs]
  simp [localRender]
  omega

theorem parseAttachmentsAux_fuel :
    ∀ (f₁ f₂ : Nat) (s : List Char), s.length ≤ f₁ → s.length ≤ f₂ →
      parseAttachmentsAux f₁ s = parseAttachmentsAux f₂ s := by
  intro f₁
  induction f₁ with
  | zero =>
    intro f₂ s h₁ _
    have : s = [] := List.length_eq_zero.mp (Nat.le_zero.mp h₁)
    subst this
    cases f₂ <;> rfl
  | succ f ih =>
    intro f₂ s h₁ h₂
    cases s with
    | nil => cases f₂ <;> rfl
    | cons c cs =>
      cases f₂ with
      | zero => simp at h₂
      | succ g =>
        rw [parseAttachmentsAux, parseAttachmentsAux]
        cases hm : matchAttachmentAt (c :: cs) with
        | none =>
          dsimp only []
          exact ih g cs (by simpa using h₁) (by simpa using h₂)
        | some r =>
          obtain ⟨cap, idc, ann, rest⟩ := r
          dsimp only []
          have hlt := matchAttachmentAt_rest_length hm
          simp only [List.length_cons] at hlt h₁ h₂
          rw [ih g rest (by omega) (by omega)]

theorem parseRelImagesAux_fuel :
    ∀ (f₁ f₂ : Nat) (s : List Char), s.length ≤ f₁ → s.length ≤ f₂ →
      parseRelImagesAux f₁ s = parseRelImagesAux f₂ s := by
  intro f₁
  induction f₁ with
  | zero =>
    intro f₂ s h₁ _
    have : s = [] := List.length_eq_zero.mp (Nat.le_zero.mp h₁)
    subst this
    cases f₂ <;> rfl
  | succ f ih =>
    intro f₂ s h₁ h₂
    cases s with
    | nil => cases f₂ <;> rfl
    | cons c cs =>
      cases f₂ with
      | zero => simp at h₂
      | succ g =>
        rw [parseRelImagesAux, parseRelImagesAux]
        cases hm : matchRelImageAt (c :: cs) with
        | none =>
          dsimp only []
          exact ih g cs (by simpa using h₁) (by simpa using h₂)
        | some r =>
          obtain ⟨cap, pth, ann, rest⟩ := r
          dsimp only []
          have hlt := matchRelImageAt_rest_length hm
          simp only [List.length_cons] at hlt h₁ h₂
          rw [ih g rest (by omega) (by omega)]

/-- The attachment scan at canonical fuel. -/
def scanAtt (s : List Char) : List (List Char × List Char × List Char) :=
  parseAttachmentsAux s.length s

/-- The relative-image scan at canonical fuel. -/
def scanRel (s : List Char) : List (List Char × List Char × List Char) :=
  parseRelImagesAux s.length s

theorem scanAtt_skip {c : Char} {cs : List Char}
    (h : matchAttachmentAt (c :: cs) = none) : scanAtt (c :: cs) = scanAtt cs := by
  unfold scanAtt
  rw [List.length_cons, parseAttachmentsAux, h]

theorem scanAtt_match {s cap idc ann rest : List Char}
    (h : matchAttachmentAt s = some (cap, idc, ann, rest)) :
    scanAtt s = (cap, idc, ann) :: scanAtt rest := by
  have hlt := matchAttachmentAt_rest_length h
  cases s with
  | nil => simp [matchAttachmentAt, stripPre] at h
  | cons c cs =>
    unfold scanAtt
    rw [List.length_cons, parseAttachmentsAux, h]
    dsimp only []
    simp only [List.length_cons] at hlt
    rw [parseAttachmentsAux_fuel cs.length rest.length rest (by omega) le_rfl]

theorem scanRel_skip {c : Char} {cs : List Char}
    (h : matchRelImageAt (c :: cs) = none) : scanRel (c :: cs) = scanRel cs := by
  unfold scanRel
  rw [List.length_cons, parseRelImagesAux, h]

theorem scanRel_match {s cap pth ann rest : List Char}
    (h : matchRelImageAt s = some (cap, pth, ann, rest)) :
    scanRel s = (cap, pth, ann) :: scanRel rest := by
  have hlt := matchRelImageAt_rest_length h
  cases s with
  | nil => simp [matchRelImageAt, stripPre] at h
  | cons c cs =>
    unfold scanRel
    rw [List.length_cons, parseRelImagesAux, h]
    dsimp only []
    simp only [List.length_cons] at hlt
    rw [parseRelImagesAux_fuel cs.length rest.length rest (by omega) le_rfl]

theorem dropWhile_all_stop {q : Char → Bool} {xs : List Char} (y : Char)
    (ys : List Char) (hall : ∀ c ∈ xs, q c = true) (hy : q y = false) :
    (xs ++ y :: ys).dropWhile q = y :: ys := by
  induction xs with
  | nil => simp [List.dropWhile_cons, hy]
  | cons c cs ih =>
    have hc := hall c (by simp)
    simp only [List.cons_append, List.dropWhile_cons, hc, if_true]
    exact ih (fun c hm => hall c (by simp [hm]))

theorem matchAttachmentAt_nil : matchAttachmentAt [] = none := rfl

theorem matchAttachmentAt_none_head {c : Char} (cs : List Char) (hc : c ≠ '!') :
    matchAttachmentAt (c :: cs) = none := by
  unfold matchAttachmentAt
  have : stripPre "![".data (c :: cs) = none := by
    show stripPre ('!' :: '['.toString.data) (c :: cs) = none
    rw [stripPre]
    rw [if_neg (by simpa using fun h => hc (by simpa using h.symm))]
  rw [this]

theorem matchRelImageAt_nil : matchRelImageAt [] = none := rfl

theorem matchRelImageAt_none_head {c : Char} (cs : List Char) (hc : c ≠ '!') :
    matchRelImageAt (c :: cs) = none := by
  unfold matchRelImageAt
  have : stripPre "![".data (c :: cs) = none := by
    show stripPre ('!' :: '['.toString.data) (c :: cs) = none
    rw [stripPre]
    rw [if_neg (by simpa using fun h => hc (by simpa using h.symm))]
  rw [this]

theorem scanAtt_text (t r : List Char) (h : ∀ c ∈ t, c ≠ '!') :
    scanAtt (t ++ r) = scanAtt r := by
  induction t with
  | nil => rfl
  | cons c cs ih =>
    rw [List.cons_append,
      scanAtt_skip (matchAttachmentAt_none_head _ (h c (by simp)))]
    exact ih (fun c hm => h c (by simp [hm]))

theorem scanRel_text (t r : List Char) (h : ∀ c ∈ t, c ≠ '!') :
    scanRel (t ++ r) = scanRel r := by
  induction t with
  | nil => rfl
  | cons c cs ih =>
    rw [List.cons_append,
      scanRel_skip (matchRelImageAt_none_head _ (h c (by simp)))]
    exact ih (fun c hm => h c (by simp [hm]))

/-- The character list of the URL part of an attachment reference,
kept un-expanded in proofs. -/
def attUrlPre : List Char := "(/api/attachments.redirect?id=".data

/-- `ATTACHMENT_REGEX` matches an attachment rendering exactly. -/
theorem matchAttachmentAt_render {cap idc ann : List Char} (r : List Char)
    (hcap : ∀ c ∈ cap, c ≠ ']')
    (hid : ∀ c ∈ idc, hexDashChar c = true) (hid0 : idc ≠ [])
    (hann0 : ann = [] ∨ ann.head? = some ' ')
    (hann : ∀ c ∈ ann, c ≠ ')') :
    matchAttachmentAt (matchZero cap idc ann ++ r) = some (cap, idc, ann, r) := by
  have hcapq : ∀ c ∈ cap, (!(c == ']')) = true := by
    intro c hm
    simpa using hcap c hm
  have hidE : idc.isEmpty = false := by
    cases idc with
    | nil => exact absurd rfl hid0
    | cons a as => rfl
  have hshape : matchZero cap idc ann ++ r
      = "![".data ++ (cap ++ (']' :: (attUrlPre ++ (idc ++ (ann ++ ')' :: r))))) := by
    simp [matchZero, attUrlPre]
  have hstrip₂ : stripPre "](/api/attachments.redirect?id=".data
      (']' :: (attUrlPre ++ (idc ++ (ann ++ ')' :: r))))
      = some (idc ++ (ann ++ ')' :: r)) := by
    rw [show (']' :: (attUrlPre ++ (idc ++ (ann ++ ')' :: r))))
      = "](/api/attachments.redirect?id=".data ++ (idc ++ (ann ++ ')' :: r))
      from rfl]
    exact stripPre_append _ _
  have h₁ : (cap ++ (']' :: (attUrlPre
      ++ (idc ++ (ann ++ ')' :: r))))).takeWhile (fun c => !(c == ']')) = cap :=
    takeWhile_all_stop (']') _ hcapq (by decide)
  unfold matchAttachmentAt
  rw [hshape, stripPre_append]
  rcases hann0 with hAnil | hAcons
  · subst hAnil
    simp only [List.nil_append] at hstrip₂ h₁
    have h₂ : (idc ++ ')' :: r).takeWhile hexDashChar = idc :=
      takeWhile_all_stop (')') _ hid (by decide)
    simp only [List.nil_append, h₁, List.drop_left, hstrip₂, h₂, hidE,
      Bool.false_eq_true, if_false]
    rw [show ((')' :: r).takeWhile (fun c => !(c == ')'))) = [] from by simp]
    simp only [List.length_nil, List.drop_zero]
  · cases ann with
    | nil => simp at hAcons
    | cons a₀ atl =>
      have ha₀ : a₀ = ' ' := by simpa using hAcons
      subst ha₀
      have hannq : ∀ c ∈ (' ' :: atl), (!(c == ')')) = true := by
        intro c hm
        simpa using hann c hm
      have h₂ : (idc ++ ((' ' :: atl) ++ ')' :: r)).takeWhile hexDashChar = idc := by
        rw [show ((' ' :: atl) ++ ')' :: r) = ' ' :: (atl ++ ')' :: r) from rfl]
        exact takeWhile_all_stop (' ') _ hid (by decide)
      have h₃ : ((' ' :: atl) ++ ')' :: r).takeWhile (fun c => !(c == ')'))
          = ' ' :: atl :=
        takeWhile_all_stop (')') _ hannq (by decide)
      have h₄ : ((' ' :: atl) ++ ')' :: r).drop (' ' :: atl).length = ')' :: r :=
        List.drop_left _ _
      simp only [h₁, List.drop_left, hstrip₂, h₂, hidE, Bool.false_eq_true, if_false,
        h₃, h₄]

/-- `RELATIVE_IMAGE_REGEX` matches a local rendering exactly. -/
theorem matchRelImageAt_render {cap rel ann : List Char} (r : List Char)
    (hcap : ∀ c ∈ cap, c ≠ ']')
    (hrel : ∀ c ∈ rel, (c == ')' || jsWhitespaceChar c) = false) (hrel0 : rel ≠ [])
    (hann0 : ann = [] ∨ ann.head? = some ' ')
    (hann : ∀ c ∈ ann, c ≠ ')') :
    matchRelImageAt (localRender cap rel ann ++ r) = some (cap, rel, ann, r) := by
  have hcapq : ∀ c ∈ cap, (!(c == ']')) = true := by
    intro c hm
    simpa using hcap c hm
  have hrelq : ∀ c ∈ rel, (!(c == ')' || jsWhitespaceChar c)) = true := by
    intro c hm
    simpa using hrel c hm
  have hrelE : rel.isEmpty = false := by
    cases rel with
    | nil => exact absurd rfl hrel0
    | cons a as => rfl
  have hshape : localRender cap rel ann ++ r
      = "![".data ++ (cap ++ (']' :: ('(' :: '.' :: '/'
          :: (rel ++ (ann ++ ')' :: r))))) := by
    simp [localRender]
  have hstrip₂ : stripPre "](./".data
      (']' :: ('(' :: '.' :: '/' :: (rel ++ (ann ++ ')' :: r))))
      = some (rel ++ (ann ++ ')' :: r)) := by
    rw [show (']' :: ('(' :: '.' :: '/' :: (rel ++ (ann ++ ')' :: r))))
      = "](./".data ++ (rel ++ (ann ++ ')' :: r)) from rfl]
    exact stripPre_append _ _
  have h₁ : (cap ++ (']' :: ('(' :: '.' :: '/'
      :: (rel ++ (ann ++ ')' :: r))))).takeWhile (fun c => !(c == ']')) = cap :=
    takeWhile_all_stop (']') _ hcapq (by decide)
  unfold matchRelImageAt
  rw [hshape, stripPre_append]
  rcases hann0 with hAnil | hAcons
  · subst hAnil
    simp only [List.nil_append] at hstrip₂ h₁
    have h₂ : (rel ++ ')' :: r).takeWhile
        (fun c => !(c == ')' || jsWhitespaceChar c)) = rel :=
      takeWhile_all_stop (')') _ hrelq (by decide)
    simp only [List.nil_append, h₁, List.drop_left, hstrip₂, h₂, hrelE,
      Bool.false_eq_true, if_false]
    rw [show ((')' :: r).takeWhile (fun c => !(c == ')'))) = [] from by simp]
    simp only [List.length_nil, List.drop_zero]
  · cases ann with
    | nil => simp at hAcons
    | cons a₀ atl =>
      have ha₀ : a₀ = ' ' := by simpa using hAcons
      subst ha₀
      have hannq : ∀ c ∈ (' ' :: atl), (!(c == ')')) = true := by
        intro c hm
        simpa using hann c hm
      have h₂ : (rel ++ ((' ' :: atl) ++ ')' :: r)).takeWhile
          (fun c => !(c == ')' || jsWhitespaceChar c)) = rel := by
        rw [show ((' ' :: atl) ++ ')' :: r) = ' ' :: (atl ++ ')' :: r) from rfl]
        exact takeWhile_all_stop (' ') _ hrelq (by decide)
      have h₃ : ((' ' :: atl) ++ ')' :: r).takeWhile (fun c => !(c == ')'))
          = ' ' :: atl :=
        takeWhile_all_stop (')') _ hannq (by decide)
      have h₄ : ((' ' :: atl) ++ ')' :: r).drop (' ' :: atl).length = ')' :: r :=
        List.drop_left _ _
      simp only [h₁, List.drop_left, hstrip₂, h₂, hrelE, Bool.false_eq_true,
        if_false, h₃, h₄]

/-- The attachment scan over a well-formed remote rendering returns
exactly the attachment segments in order. -/
theorem scanAtt_renderRemote (segs : List MarkdownSeg)
    (hwf : ∀ sg ∈ segs, wfSeg sg) :
    scanAtt (renderRemoteL segs) = attTriples segs := by
  induction segs with
  | nil => rfl
  | cons sg rest ih =>
    have hsg := hwf sg (by simp)
    have hrest := fun t ht => hwf t (List.mem_cons_of_mem _ ht)
    cases sg with
    | text t =>
      show scanAtt (t ++ renderRemoteL rest) = attTriples rest
      rw [scanAtt_text t _ hsg]
      exact ih hrest
    | att cap idc ann =>
      obtain ⟨hcap, hid, hid0, _, hann0, hann⟩ := hsg
      show scanAtt (matchZero cap idc ann ++ renderRemoteL rest)
          = (cap, idc, ann) :: attTriples rest
      rw [scanAtt_match (matchAttachmentAt_render _ (fun c hm => (hcap c hm).1)
        hid hid0 hann0 (fun c hm => (hann c hm).1))]
      rw [ih hrest]

/-- The relative-image scan over a well-formed local rendering returns
the attachment segments with their relative paths, in order. -/
theorem scanRel_renderLocal (relOf : List Char → List Char)
    (segs : List MarkdownSeg)
    (hwf : ∀ sg ∈ segs, wfSeg sg)
    (hrel : ∀ t ∈ attTriples segs, relOkFor (relOf t.2.1) t.2.1) :
    scanRel (renderLocalL relOf segs)
      = (attTriples segs).map (fun t => (t.1, relOf t.2.1, t.2.2)) := by
  induction segs with
  | nil => rfl
  | cons sg rest ih =>
    have hsg := hwf sg (by simp)
    have hrest := fun t ht => hwf t (List.mem_cons_of_mem _ ht)
    cases sg with
    | text t =>
      show scanRel (t ++ renderLocalL relOf rest) = _
      rw [scanRel_text t _ hsg]
      exact ih hrest (by
        intro t' ht'
        exact hrel t' (by simpa [attTriples] using ht'))
    | att cap idc ann =>
      obtain ⟨hcap, hid, hid0, _, hann0, hann⟩ := hsg
      have hr := hrel (cap, idc, ann) (by simp [attTriples])
      obtain ⟨hr0, hrc, _, _⟩ := hr
      show scanRel (localRender cap (relOf idc) ann ++ renderLocalL relOf rest) = _
      rw [scanRel_match (matchRelImageAt_render _ (fun c hm => (hcap c hm).1)
        (fun c hm => (hrc c hm).1) hr0 hann0 (fun c hm => (hann c hm).1))]
      rw [ih hrest (by
        intro t' ht'
        refine hrel t' ?_
        have he : attTriples (MarkdownSeg.att cap idc ann :: rest)
            = (cap, idc, ann) :: attTriples rest := rfl
        rw [he]
        exact List.mem_cons_of_mem _ ht')]
      rfl

theorem findIdx?_stop {p : Char → Bool} {xs : List Char} (y : Char)
    (ys : List Char) (hall : ∀ c ∈ xs, p c = false) (hy : p y = true) :
    (xs ++ y :: ys).findIdx? p = some xs.length := by
  suffices h : ∀ i, List.findIdx? p (xs ++ y :: ys) i = some (xs.length + i) by
    simpa using h 0
  induction xs with
  | nil =>
    intro i
    simp [List.findIdx?_cons, hy]
  | cons c cs ih =>
    intro i
    have hc := hall c (by simp)
    rw [List.cons_append, List.findIdx?_cons, if_neg (by simp [hc])]
    rw [ih (fun c hm => hall c (by simp [hm])) (i + 1)]
    congr 1
    simp
    omega

theorem jsSliceList_exact (P U : List Char) (c : Char) :
    jsSliceList (P ++ (U ++ [c])) (↑P.length) (↑P.length + ↑U.length) = U := by
  unfold jsSliceList
  dsimp only []
  have hn : ((P ++ (U ++ [c])).length : Int) = ↑P.length + ↑U.length + 1 := by
    simp
    ring
  rw [if_neg (by omega), if_neg (by omega)]
  have h₁ : (min (↑P.length : Int) ↑(P ++ (U ++ [c])).length).toNat = P.length := by
    simp only [List.length_append, List.length_cons, List.length_nil]
    omega
  have h₂ : (min ((↑P.length : Int) + ↑U.length) ↑(P ++ (U ++ [c])).length).toNat
      = P.length + U.length := by
    simp only [List.length_append, List.length_cons, List.length_nil]
    omega
  rw [h₁, h₂, List.drop_left]
  have h₃ : P.length + U.length - P.length = U.length := by omega
  rw [h₃, List.take_left]

/-- `originalUrl` of a parsed attachment whose caption avoids `(` is
the inner URL verbatim (the final `)` of `match[0]` is its last). -/
theorem mkParsedAttachment_eq (cap idc ann : List Char)
    (hcap : ∀ c ∈ cap, c ≠ '(') :
    mkParsedAttachment cap idc ann
      = { id := ⟨idc⟩, caption := ⟨cap⟩,
          originalUrl := ⟨"/api/attachments.redirect?id=".data ++ (idc ++ ann)⟩,
          annotations := if ann.isEmpty then none else some ⟨ann⟩ } := by
  have hm0 : matchZero cap idc ann
      = (('!' :: '[' :: (cap ++ [']'])) ++ ['('])
        ++ (("/api/attachments.redirect?id=".data ++ (idc ++ ann)) ++ [')']) := by
    simp [matchZero]
  have hidx : jsIndexOfCh (matchZero cap idc ann) '(' = ↑(cap.length + 3) := by
    unfold jsIndexOfCh
    have hsplit : matchZero cap idc ann
        = ('!' :: '[' :: (cap ++ [']']))
          ++ '(' :: (("/api/attachments.redirect?id=".data ++ (idc ++ ann))
            ++ [')']) := by
      simp [matchZero]
    rw [hsplit, findIdx?_stop '(' _ ?hall (by decide)]
    · simp
      omega
    case hall =>
      intro x hm
      simp only [List.mem_cons, List.mem_append, List.mem_singleton,
        List.not_mem_nil, or_false] at hm
      rcases hm with rfl | rfl | hx | rfl
      · decide
      · decide
      · simpa using hcap x hx
      · decide
  have hlast : jsLastIndexOfCh (matchZero cap idc ann) ')'
      = ↑(matchZero cap idc ann).length - 1 := by
    unfold jsLastIndexOfCh
    have hrev : (matchZero cap idc ann).reverse
        = ')' :: ((('!' :: '[' :: (cap ++ [']'])) ++ ['('])
            ++ ("/api/attachments.redirect?id=".data ++ (idc ++ ann))).reverse := by
      rw [hm0]
      rw [show (('!' :: '[' :: (cap ++ [']'])) ++ ['('])
          ++ (("/api/attachments.redirect?id=".data ++ (idc ++ ann)) ++ [')'])
        = ((('!' :: '[' :: (cap ++ [']'])) ++ ['('])
            ++ ("/api/attachments.redirect?id=".data ++ (idc ++ ann))) ++ [')']
        from by simp]
      rw [List.reverse_append]
      rfl
    rw [hrev, List.findIdx?_cons, if_pos (by decide)]
    dsimp only []
    simp
  unfold mkParsedAttachment
  have hurl : jsSliceList (matchZero cap idc ann)
      (jsIndexOfCh (matchZero cap idc ann) '(' + 1)
      (jsLastIndexOfCh (matchZero cap idc ann) ')')
      = "/api/attachments.redirect?id=".data ++ (idc ++ ann) := by
    rw [hidx, hlast]
    have hlen : ((matchZero cap idc ann).length : Int) - 1
        = ↑(('!' :: '[' :: (cap ++ [']'])) ++ ['(']).length
          + ↑("/api/attachments.redirect?id=".data ++ (idc ++ ann)).length := by
      rw [hm0]
      simp
      ring
    have hidx' : (↑(cap.length + 3) : Int) + 1
        = ↑(('!' :: '[' :: (cap ++ [']'])) ++ ['(']).length := by
      simp
      ring
    rw [hlen, hidx', hm0]
    exact jsSliceList_exact _ _ _
  simp only [hurl]

theorem cap_prefix_eq : ∀ (cap capB u v : List Char),
    (∀ c ∈ cap, c ≠ ']') → (∀ c ∈ capB, c ≠ ']') →
    (cap ++ ']' :: u) <+: (capB ++ ']' :: v) → cap = capB ∧ u <+: v := by
  intro cap
  induction cap with
  | nil =>
    intro capB u v _ hB hp
    cases capB with
    | nil =>
      rw [List.nil_append, List.nil_append, List.cons_prefix_cons] at hp
      exact ⟨rfl, hp.2⟩
    | cons b bs =>
      rw [List.nil_append, List.cons_append, List.cons_prefix_cons] at hp
      exact absurd hp.1.symm (hB b (by simp))
  | cons a as ih =>
    intro capB u v hA hB hp
    cases capB with
    | nil =>
      rw [List.cons_append, List.nil_append, List.cons_prefix_cons] at hp
      exact absurd hp.1 (hA a (by simp))
    | cons b bs =>
      rw [List.cons_append, List.cons_append, List.cons_prefix_cons] at hp
      obtain ⟨rfl, hp'⟩ := hp
      obtain ⟨h1, h2⟩ := ih bs u v (fun c hm => hA c (by simp [hm]))
        (fun c hm => hB c (by simp [hm])) hp'
      exact ⟨by rw [h1], h2⟩

/-- A block of already-processed output: either free of `!`, or an
image reference whose discriminator after `](` is `d` and whose tail
holds no `!`. -/
def GoodBlock (d : Char) (b : List Char) : Prop :=
  (∀ c ∈ b, c ≠ '!') ∨
  ∃ cap u, b = '!' :: '[' :: (cap ++ ']' :: '(' :: d :: u)
    ∧ (∀ c ∈ cap, c ≠ ']') ∧ (∀ c ∈ b.tail, c ≠ '!')

theorem bangfree_no_pattern {capP w : List Char} {dP : Char} :
    ∀ (t : List Char), (∀ c ∈ t, c ≠ '!') → ∀ (rest : List Char) (k : Nat),
      k < t.length →
      ¬ (('!' :: '[' :: (capP ++ ']' :: '(' :: dP :: w)) <+: (t ++ rest).drop k) := by
  intro t
  induction t with
  | nil => intro _ _ k hk; simp at hk
  | cons hd tl ih =>
    intro ht rest k hk hp
    cases k with
    | zero =>
      rw [List.drop_zero, List.cons_append, List.cons_prefix_cons] at hp
      exact ht hd (by simp) hp.1.symm
    | succ k' =>
      rw [List.cons_append, List.drop_succ_cons] at hp
      exact ih (fun c hm => ht c (by simp [hm])) rest k'
        (by simpa using Nat.lt_of_succ_lt_succ hk) hp

/-- A pattern discriminated by `dP` never occurs anywhere inside a
concatenation of blocks discriminated by `dA ≠ dP`. -/
theorem goodBlocks_no_pattern {dA dP : Char} (hne : dP ≠ dA)
    {capP w : List Char} (hcapP : ∀ c ∈ capP, c ≠ ']') :
    ∀ (bs : List (List Char)), (∀ b ∈ bs, GoodBlock dA b) →
      ∀ (suffix : List Char) (k : Nat), k < bs.flatten.length →
      ¬ (('!' :: '[' :: (capP ++ ']' :: '(' :: dP :: w))
          <+: (bs.flatten ++ suffix).drop k) := by
  intro bs
  induction bs with
  | nil => intro _ _ k hk; simp at hk
  | cons b bs' ih =>
    intro hbs suffix k hk hp
    have hflat : (b :: bs').flatten ++ suffix = b ++ (bs'.flatten ++ suffix) := by
      simp
    rw [hflat] at hp
    by_cases hkb : k < b.length
    · rcases hbs b (by simp) with hfree | ⟨cap, u, hb, hcap, htail⟩
      · exact bangfree_no_pattern b hfree _ k hkb hp
      · cases k with
        | zero =>
          rw [List.drop_zero, hb] at hp
          rw [show ('!' :: '[' :: (cap ++ ']' :: '(' :: dA :: u))
              ++ (bs'.flatten ++ suffix)
            = '!' :: '[' :: (cap ++ ']'
                :: ('(' :: dA :: (u ++ (bs'.flatten ++ suffix)))) from by simp] at hp
          rw [List.cons_prefix_cons, List.cons_prefix_cons] at hp
          obtain ⟨-, -, hp'⟩ := hp
          obtain ⟨-, hp''⟩ := cap_prefix_eq capP cap _ _ hcapP hcap hp'
          rw [List.cons_prefix_cons] at hp''
          obtain ⟨-, hp₃⟩ := hp''
          rw [List.cons_prefix_cons] at hp₃
          exact hne hp₃.1
        | succ k' =>
          rw [hb, List.cons_append, List.drop_succ_cons] at hp
          have htail' : ∀ c ∈ ('[' :: (cap ++ ']' :: '(' :: dA :: u)), c ≠ '!' := by
            rw [hb] at htail
            simpa using htail
          exact bangfree_no_pattern _ htail' _ k'
            (by rw [hb] at hkb; simpa using Nat.lt_of_succ_lt_succ hkb) hp
    · push_neg at hkb
      obtain ⟨k', rfl⟩ := Nat.exists_eq_add_of_le hkb
      rw [List.drop_append] at hp
      have hk' : k' < bs'.flatten.length := by
        simp only [List.flatten_cons, List.length_append] at hk
        omega
      exact ih (fun b hm => hbs b (by simp [hm])) suffix k' hk' hp

theorem getSubstitution_dollarFree (m b a : List Char) :
    ∀ (R : List Char), (∀ c ∈ R, c ≠ '$') → getSubstitution m b a R = R := by
  intro R
  induction R with
  | nil => intro _; rfl
  | cons c cs ih =>
    intro h
    have hc : (c == '$') = false := by simpa using h c (by simp)
    rw [getSubstitution.eq_def]
    dsimp only []
    rw [hc]
    simp only [Bool.false_eq_true, if_false]
    rw [ih (fun x hx => h x (by simp [hx]))]

theorem findOccurrence_at (P : List Char) (hP : P ≠ []) :
    ∀ (A B : List Char),
      (∀ k, k < A.length → ¬ (P <+: (A ++ (P ++ B)).drop k)) →
      findOccurrence P (A ++ (P ++ B)) = some (A, B) := by
  intro A
  induction A with
  | nil =>
    intro B _
    rw [List.nil_append]
    cases hPB : P ++ B with
    | nil =>
      cases P with
      | nil => exact absurd rfl hP
      | cons p ps => simp at hPB
    | cons c cs =>
      rw [findOccurrence]
      rw [if_pos (by
        rw [← hPB]
        exact List.isPrefixOf_iff_prefix.mpr (List.prefix_append P B))]
      rw [← hPB, List.drop_left]
  | cons a A' ih =>
    intro B h
    rw [List.cons_append, findOccurrence]
    rw [if_neg (by
      intro hpre
      have h0 := h 0 (by simp)
      rw [List.drop_zero, List.cons_append] at h0
      exact h0 (List.isPrefixOf_iff_prefix.mp hpre))]
    rw [ih B (by
      intro k hk
      have := h (k + 1) (by simpa using Nat.succ_lt_succ hk)
      rw [List.cons_append, List.drop_succ_cons] at this
      exact this)]

/-- Replacing at the first occurrence, with a `$`-free replacement. -/
theorem jsReplace_at (P R : List Char) (hP : P ≠ []) (hR : ∀ c ∈ R, c ≠ '$')
    (A B : List Char)
    (h : ∀ k, k < A.length → ¬ (P <+: (A ++ (P ++ B)).drop k)) :
    jsReplace ⟨A ++ (P ++ B)⟩ ⟨P⟩ ⟨R⟩ = ⟨A ++ (R ++ B)⟩ := by
  unfold jsReplace
  rw [if_neg (by
    cases P with
    | nil => exact absurd rfl hP
    | cons p ps => simp)]
  rw [show (⟨P⟩ : String).data = P from rfl,
    show (⟨A ++ (P ++ B)⟩ : String).data = A ++ (P ++ B) from rfl,
    findOccurrence_at P hP A B h]
  dsimp only []
  rw [getSubstitution_dollarFree P A B R hR]

/-- The attachment entry handed to `transformMarkdownImages` by the
download pipeline: a parsed attachment enriched with its local file
path. -/
def attEntry (localPathOf : String → String)
    (t : List Char × List Char × List Char) : AttachmentInfo :=
  { id := ⟨t.2.1⟩, caption := ⟨t.1⟩,
    originalUrl := ⟨"/api/attachments.redirect?id=".data ++ (t.2.1 ++ t.2.2)⟩,
    localPath := localPathOf ⟨t.2.1⟩,
    annotations := if t.2.2.isEmpty then none else some ⟨t.2.2⟩ }

theorem transformImageStep_render (docPath : String)
    (localPathOf : String → String) (cap idc ann s : List Char)
    (hdot : strStartsWith (posixRelative docPath (localPathOf ⟨idc⟩)) "." = false) :
    transformImageStep docPath ⟨s⟩ (attEntry localPathOf (cap, idc, ann))
      = jsReplace ⟨s⟩ ⟨matchZero cap idc ann⟩
          ⟨localRender cap (posixRelative docPath (localPathOf ⟨idc⟩)).data ann⟩ := by
  unfold transformImageStep attEntry
  dsimp only []
  simp only [hdot, Bool.false_eq_true, if_false]
  have hpat : ("![" ++ (⟨cap⟩ : String) ++ "]("
      ++ (⟨"/api/attachments.redirect?id=".data ++ (idc ++ ann)⟩ : String)
      ++ ")").data = matchZero cap idc ann := by
    simp only [String.data_append]
    simp [matchZero]
  have hrep : ("![" ++ (⟨cap⟩ : String) ++ "]("
      ++ ("./" ++ posixRelative docPath (localPathOf ⟨idc⟩))
      ++ ((if ann.isEmpty then none else some (⟨ann⟩ : String)).getD "")
      ++ ")").data
      = localRender cap (posixRelative docPath (localPathOf ⟨idc⟩)).data ann := by
    cases hann : ann.isEmpty
    · simp only [hann, Bool.false_eq_true, if_false, Option.getD_some]
      simp only [String.data_append]
      simp [localRender]
    · have : ann = [] := by
        cases ann with
        | nil => rfl
        | cons x xs => simp [List.isEmpty] at hann
      subst this
      simp only [hann, if_true, Option.getD_none]
      simp only [String.data_append]
      simp [localRender]
  rw [show ("![" ++ (⟨cap⟩ : String) ++ "]("
      ++ (⟨"/api/attachments.redirect?id=".data ++ (idc ++ ann)⟩ : String)
      ++ ")") = (⟨matchZero cap idc ann⟩ : String) from by rw [← hpat]]
  rw [show ("![" ++ (⟨cap⟩ : String) ++ "]("
      ++ ("./" ++ posixRelative docPath (localPathOf ⟨idc⟩))
      ++ ((if ann.isEmpty then none else some (⟨ann⟩ : String)).getD "")
      ++ ")")
      = (⟨localRender cap (posixRelative docPath (localPathOf ⟨idc⟩)).data ann⟩
          : String) from by rw [← hrep]]

theorem transformToAttachmentStep_render (cap idc ann rel s : List Char)
    (hid0 : idc ≠ []) :
    transformToAttachmentStep ⟨s⟩
      { caption := ⟨cap⟩, relativePath := ⟨rel⟩, isExistingAttachment := true,
        attachmentId := some ⟨idc⟩,
        annotations := if ann.isEmpty then none else some ⟨ann⟩ }
      = jsReplace ⟨s⟩ ⟨localRender cap rel ann⟩ ⟨matchZero cap idc ann⟩ := by
  unfold transformToAttachmentStep
  dsimp only []
  have htr : truthy (some (⟨idc⟩ : String)) = true := by
    simp only [truthy]
    simp only [decide_eq_true_eq]
    intro he
    exact hid0 (by
      have := congrArg String.data he
      simpa using this)
  rw [if_pos (by simp [htr])]
  have hpat : ("![" ++ (⟨cap⟩ : String) ++ "](./" ++ (⟨rel⟩ : String)
      ++ ((if ann.isEmpty then none else some (⟨ann⟩ : String)).getD "")
      ++ ")").data = localRender cap rel ann := by
    cases hann : ann.isEmpty
    · simp only [hann, Bool.false_eq_true, if_false, Option.getD_some]
      simp only [String.data_append]
      simp [localRender]
    · have : ann = [] := by
        cases ann with
        | nil => rfl
        | cons x xs => simp [List.isEmpty] at hann
      subst this
      simp only [hann, if_true, Option.getD_none]
      simp only [String.data_append]
      simp [localRender]
  have hrep : ("![" ++ (⟨cap⟩ : String) ++ "](/api/attachments.redirect?id="
      ++ ((some (⟨idc⟩ : String)).getD "")
      ++ ((if ann.isEmpty then none else some (⟨ann⟩ : String)).getD "")
      ++ ")").data = matchZero cap idc ann := by
    cases hann : ann.isEmpty
    · simp only [hann, Bool.false_eq_true, if_false, Option.getD_some]
      simp only [String.data_append]
      simp [matchZero]
    · have : ann = [] := by
        cases ann with
        | nil => rfl
        | cons x xs => simp [List.isEmpty] at hann
      subst this
      simp only [hann, if_true, Option.getD_none]
      simp only [String.data_append]
      simp [matchZero]
  rw [show ("![" ++ (⟨cap⟩ : String) ++ "](./" ++ (⟨rel⟩ : String)
      ++ ((if ann.isEmpty then none else some (⟨ann⟩ : String)).getD "")
      ++ ")") = (⟨localRender cap rel ann⟩ : String) from by rw [← hpat]]
  rw [show ("![" ++ (⟨cap⟩ : String) ++ "](/api/attachments.redirect?id="
      ++ ((some (⟨idc⟩ : String)).getD "")
      ++ ((if ann.isEmpty then none else some (⟨ann⟩ : String)).getD "")
      ++ ")") = (⟨matchZero cap idc ann⟩ : String) from by rw [← hrep]]

theorem mkImageUploadInfo_eq (cap rel ann idc : List Char)
    (hstrip : jsStripExt (((splitOnChar '/' rel).getLast?).getD []) = idc)
    (huuid : uuidV4Test ⟨idc⟩ = true) :
    mkImageUploadInfo cap rel ann
      = { caption := ⟨cap⟩, relativePath := ⟨rel⟩, isExistingAttachment := true,
          attachmentId := some ⟨idc⟩,
          annotations := if ann.isEmpty then none else some ⟨ann⟩ } := by
  unfold mkImageUploadInfo
  dsimp only []
  rw [hstrip, huuid]
  simp

/-- The shape of a remote attachment reference as a guarded block with
discriminator `/`. -/
theorem matchZero_shape (cap idc ann : List Char) :
    matchZero cap idc ann
      = '!' :: '[' :: (cap ++ ']' :: '(' :: '/'
          :: ("api/attachments.redirect?id=".data ++ (idc ++ (ann ++ [')'])))) := by
  simp [matchZero]

theorem goodBlock_local (cap rel ann : List Char)
    (hcap : ∀ c ∈ cap, c ≠ ']' ∧ c ≠ '!' ∧ c ≠ '(' ∧ c ≠ '$')
    (hrelb : ∀ c ∈ rel, c ≠ '!')
    (hann : ∀ c ∈ ann, c ≠ '!') :
    GoodBlock '.' (localRender cap rel ann) := by
  refine Or.inr ⟨cap, '/' :: (rel ++ ann ++ [')']), rfl,
    fun c hm => (hcap c hm).1, ?_⟩
  show ∀ c ∈ ('[' :: (cap ++ ']' :: '(' :: '.' :: '/' :: (rel ++ ann ++ [')']))),
    c ≠ '!'
  simp only [List.forall_mem_cons, List.forall_mem_append,
    List.forall_mem_singleton]
  exact ⟨by decide, fun c hm => (hcap c hm).2.1, by decide, by decide, by decide,
    by decide, ⟨fun c hm => hrelb c hm, fun c hm => hann c hm⟩, by decide⟩

theorem goodBlock_remote (cap idc ann : List Char)
    (hcap : ∀ c ∈ cap, c ≠ ']' ∧ c ≠ '!' ∧ c ≠ '(' ∧ c ≠ '$')
    (hid : ∀ c ∈ idc, hexDashChar c = true)
    (hann : ∀ c ∈ ann, c ≠ '!') :
    GoodBlock '/' (matchZero cap idc ann) := by
  rw [matchZero_shape]
  refine Or.inr ⟨cap, "api/attachments.redirect?id=".data ++ (idc ++ (ann ++ [')'])),
    rfl, fun c hm => (hcap c hm).1, ?_⟩
  show ∀ c ∈ ('[' :: (cap ++ ']' :: '(' :: '/'
      :: ("api/attachments.redirect?id=".data ++ (idc ++ (ann ++ [')']))))), c ≠ '!'
  simp only [List.forall_mem_cons, List.forall_mem_append,
    List.forall_mem_singleton]
  refine ⟨by decide, fun c hm => (hcap c hm).2.1, by decide, by decide, by decide,
    by decide, ?_, ?_, by decide⟩
  · intro c hm he
    subst he
    have := hid '!' hm
    simp [hexDashChar, hexDigitLower] at this
  · exact fun c hm => hann c hm

/-- A well-formed local rendering contains no dollar sign. -/
theorem localRender_dollarFree (cap rel ann : List Char)
    (hcap : ∀ c ∈ cap, c ≠ '$') (hrel : ∀ c ∈ rel, c ≠ '$')
    (hann : ∀ c ∈ ann, c ≠ '$') :
    ∀ c ∈ localRender cap rel ann, c ≠ '$' := by
  show ∀ c ∈ ('!' :: '[' :: (cap ++ ']' :: '(' :: '.' :: '/' :: (rel ++ ann ++ [')']))),
    c ≠ '$'
  simp only [List.forall_mem_cons, List.forall_mem_append,
    List.forall_mem_singleton]
  exact ⟨by decide, by decide, hcap, by decide, by decide, by decide, by decide,
    ⟨hrel, hann⟩, by decide⟩

/-- A well-formed remote rendering contains no dollar sign. -/
theorem matchZero_dollarFree (cap idc ann : List Char)
    (hcap : ∀ c ∈ cap, c ≠ '$') (hid : ∀ c ∈ idc, hexDashChar c = true)
    (hann : ∀ c ∈ ann, c ≠ '$') :
    ∀ c ∈ matchZero cap idc ann, c ≠ '$' := by
  rw [matchZero_shape]
  simp only [List.forall_mem_cons, List.forall_mem_append,
    List.forall_mem_singleton]
  refine ⟨by decide, by decide, hcap, by decide, by decide, by decide, by decide,
    ?_, hann, by decide⟩
  intro c hm he
  subst he
  have := hid '$' hm
  simp [hexDashChar, hexDigitLower] at this

theorem transform_fold_fwd (docPath : String) (localPathOf : String → String) :
    ∀ (segs : List MarkdownSeg) (bs : List (List Char)),
      (∀ sg ∈ segs, wfSeg sg) →
      (∀ t ∈ attTriples segs,
        relOkFor (posixRelative docPath (localPathOf ⟨t.2.1⟩)).data t.2.1) →
      (∀ b ∈ bs, GoodBlock '.' b) →
      List.foldl (transformImageStep docPath) ⟨bs.flatten ++ renderRemoteL segs⟩
          ((attTriples segs).map (attEntry localPathOf))
        = ⟨bs.flatten ++ renderLocalL
            (fun idc => (posixRelative docPath (localPathOf ⟨idc⟩)).data) segs⟩ := by
  intro segs
  induction segs with
  | nil =>
    intro bs _ _ _
    simp [attTriples, renderRemoteL, renderLocalL]
  | cons sg rest ih =>
    intro bs hwf hrel hbs
    have hwr := fun t ht => hwf t (List.mem_cons_of_mem _ ht)
    cases sg with
    | text t =>
      have hsg : ∀ c ∈ t, c ≠ '!' := hwf (.text t) (by simp)
      have htA : attTriples (MarkdownSeg.text t :: rest) = attTriples rest := rfl
      have hrr : renderRemoteL (MarkdownSeg.text t :: rest)
          = t ++ renderRemoteL rest := by simp [renderRemoteL, renderRemoteSeg]
      rw [htA, hrr]
      rw [show bs.flatten ++ (t ++ renderRemoteL rest)
        = (bs ++ [t]).flatten ++ renderRemoteL rest from by simp]
      rw [ih (bs ++ [t]) hwr (by
          intro t' ht'
          exact hrel t' (by rw [htA]; exact ht'))
        (by
          intro b hm
          rcases List.mem_append.mp hm with hm | hm
          · exact hbs b hm
          · have : b = t := by simpa using hm
            subst this
            exact Or.inl hsg)]
      show (⟨(bs ++ [t]).flatten ++ _⟩ : String) = _
      rw [show (bs ++ [t]).flatten
          ++ renderLocalL (fun idc => (posixRelative docPath (localPathOf ⟨idc⟩)).data) rest
        = bs.flatten ++ (t ++ renderLocalL
            (fun idc => (posixRelative docPath (localPathOf ⟨idc⟩)).data) rest)
        from by simp]
      rfl
    | att cap idc ann =>
      obtain ⟨hcap, hid, hid0, huuid, hann0, hann⟩ := hwf (.att cap idc ann) (by simp)
      have htA : attTriples (MarkdownSeg.att cap idc ann :: rest)
          = (cap, idc, ann) :: attTriples rest := rfl
      have hrr : renderRemoteL (MarkdownSeg.att cap idc ann :: rest)
          = matchZero cap idc ann ++ renderRemoteL rest := by
        simp [renderRemoteL, renderRemoteSeg]
      have hr := hrel (cap, idc, ann) (by rw [htA]; simp)
      obtain ⟨hr0, hrc, hrdot, hrstrip⟩ := hr
      rw [htA, hrr, List.map_cons, List.foldl_cons]
      rw [show bs.flatten ++ (matchZero cap idc ann ++ renderRemoteL rest)
        = bs.flatten ++ (matchZero cap idc ann ++ renderRemoteL rest) from rfl]
      rw [transformImageStep_render docPath localPathOf cap idc ann _ hrdot]
      rw [jsReplace_at (matchZero cap idc ann)
        (localRender cap (posixRelative docPath (localPathOf ⟨idc⟩)).data ann)
        (by simp [matchZero])
        (localRender_dollarFree cap _ ann (fun c hm => (hcap c hm).2.2.2)
          (fun c hm => (hrc c hm).2.2) (fun c hm => (hann c hm).2.2))
        bs.flatten (renderRemoteL rest) (by
          intro k hk hpre
          rw [matchZero_shape] at hpre
          exact goodBlocks_no_pattern (by decide)
            (fun c hm => (hcap c hm).1) bs hbs _ k hk hpre)]
      rw [show bs.flatten ++ (localRender cap
            (posixRelative docPath (localPathOf ⟨idc⟩)).data ann ++ renderRemoteL rest)
        = (bs ++ [localRender cap
            (posixRelative docPath (localPathOf ⟨idc⟩)).data ann]).flatten
          ++ renderRemoteL rest from by simp]
      rw [ih (bs ++ [localRender cap
            (posixRelative docPath (localPathOf ⟨idc⟩)).data ann])
        hwr
        (by
          intro t' ht'
          exact hrel t' (by rw [htA]; exact List.mem_cons_of_mem _ ht'))
        (by
          intro b hm
          rcases List.mem_append.mp hm with hm | hm
          · exact hbs b hm
          · have : b = localRender cap
                (posixRelative docPath (localPathOf ⟨idc⟩)).data ann := by
              simpa using hm
            subst this
            exact goodBlock_local cap _ ann hcap
              (fun c hm => (hrc c hm).2.1) (fun c hm => (hann c hm).2.1))]
      show (⟨_⟩ : String) = _
      rw [show (bs ++ [localRender cap
            (posixRelative docPath (localPathOf ⟨idc⟩)).data ann]).flatten
          ++ renderLocalL (fun idc => (posixRelative docPath (localPathOf ⟨idc⟩)).data) rest
        = bs.flatten ++ (localRender cap
            (posixRelative docPath (localPathOf ⟨idc⟩)).data ann
          ++ renderLocalL (fun idc => (posixRelative docPath (localPathOf ⟨idc⟩)).data) rest)
        from by simp]
      rfl

theorem mem_attTriples {t : List Char × List Char × List Char}
    {segs : List MarkdownSeg} (ht : t ∈ attTriples segs) :
    MarkdownSeg.att t.1 t.2.1 t.2.2 ∈ segs := by
  unfold attTriples at ht
  rcases List.mem_filterMap.mp ht with ⟨sg, hm, he⟩
  cases sg with
  | text s => simp at he
  | att cap idc ann =>
    simp only [Option.some.injEq] at he
    rw [← he]
    exact hm

theorem transform_fold_bwd (relOf : List Char → List Char) :
    ∀ (segs : List MarkdownSeg) (bs : List (List Char)),
      (∀ sg ∈ segs, wfSeg sg) →
      (∀ t ∈ attTriples segs, relOkFor (relOf t.2.1) t.2.1) →
      (∀ b ∈ bs, GoodBlock '/' b) →
      List.foldl transformToAttachmentStep ⟨bs.flatten ++ renderLocalL relOf segs⟩
          ((attTriples segs).map (fun t =>
            ({ caption := ⟨t.1⟩, relativePath := ⟨relOf t.2.1⟩,
               isExistingAttachment := true, attachmentId := some ⟨t.2.1⟩,
               annotations := if t.2.2.isEmpty then none else some ⟨t.2.2⟩ }
              : ImageUploadInfo)))
        = ⟨bs.flatten ++ renderRemoteL segs⟩ := by
  intro segs
  induction segs with
  | nil =>
    intro bs _ _ _
    simp [attTriples, renderRemoteL, renderLocalL]
  | cons sg rest ih =>
    intro bs hwf hrel hbs
    have hwr := fun t ht => hwf t (List.mem_cons_of_mem _ ht)
    cases sg with
    | text t =>
      have hsg : ∀ c ∈ t, c ≠ '!' := hwf (.text t) (by simp)
      have htA : attTriples (MarkdownSeg.text t :: rest) = attTriples rest := rfl
      have hrl : renderLocalL relOf (MarkdownSeg.text t :: rest)
          = t ++ renderLocalL relOf rest := by simp [renderLocalL, renderLocalSeg]
      rw [htA, hrl]
      rw [show bs.flatten ++ (t ++ renderLocalL relOf rest)
        = (bs ++ [t]).flatten ++ renderLocalL relOf rest from by simp]
      rw [ih (bs ++ [t]) hwr (by
          intro t' ht'
          exact hrel t' (by rw [htA]; exact ht'))
        (by
          intro b hm
          rcases List.mem_append.mp hm with hm | hm
          · exact hbs b hm
          · have : b = t := by simpa using hm
            subst this
            exact Or.inl hsg)]
      show (⟨(bs ++ [t]).flatten ++ _⟩ : String) = _
      rw [show (bs ++ [t]).flatten ++ renderRemoteL rest
        = bs.flatten ++ (t ++ renderRemoteL rest) from by simp]
      rfl
    | att cap idc ann =>
      obtain ⟨hcap, hid, hid0, huuid, hann0, hann⟩ := hwf (.att cap idc ann) (by simp)
      have htA : attTriples (MarkdownSeg.att cap idc ann :: rest)
          = (cap, idc, ann) :: attTriples rest := rfl
      have hrl : renderLocalL relOf (MarkdownSeg.att cap idc ann :: rest)
          = localRender cap (relOf idc) ann ++ renderLocalL relOf rest := by
        simp [renderLocalL, renderLocalSeg]
      have hr := hrel (cap, idc, ann) (by rw [htA]; simp)
      obtain ⟨hr0, hrc, hrdot, hrstrip⟩ := hr
      rw [htA, hrl, List.map_cons, List.foldl_cons]
      rw [transformToAttachmentStep_render cap idc ann (relOf idc) _ hid0]
      rw [jsReplace_at (localRender cap (relOf idc) ann) (matchZero cap idc ann)
        (by simp [localRender])
        (matchZero_dollarFree cap idc ann (fun c hm => (hcap c hm).2.2.2)
          hid (fun c hm => (hann c hm).2.2))
        bs.flatten (renderLocalL relOf rest) (by
          intro k hk hpre
          rw [show localRender cap (relOf idc) ann
            = '!' :: '[' :: (cap ++ ']' :: '(' :: '.'
                :: ('/' :: (relOf idc ++ ann ++ [')']))) from rfl] at hpre
          exact goodBlocks_no_pattern (by decide)
            (fun c hm => (hcap c hm).1) bs hbs _ k hk hpre)]
      rw [show bs.flatten ++ (matchZero cap idc ann ++ renderLocalL relOf rest)
        = (bs ++ [matchZero cap idc ann]).flatten ++ renderLocalL relOf rest
        from by simp]
      rw [ih (bs ++ [matchZero cap idc ann]) hwr
        (by
          intro t' ht'
          exact hrel t' (by rw [htA]; exact List.mem_cons_of_mem _ ht'))
        (by
          intro b hm
          rcases List.mem_append.mp hm with hm | hm
          · exact hbs b hm
          · have : b = matchZero cap idc ann := by simpa using hm
            subst this
            exact goodBlock_remote cap idc ann hcap hid
              (fun c hm => (hann c hm).2.1))]
      show (⟨_⟩ : String) = _
      rw [show (bs ++ [matchZero cap idc ann]).flatten ++ renderRemoteL rest
        = bs.flatten ++ (matchZero cap idc ann ++ renderRemoteL rest) from by simp]
      rfl

/-- Claim C5 (amended).  For a body built from well-formed segments
(`wfSeg`: in particular captions and annotations free of `$`, which
`GetSubstitution` would substitute inside the interpolated
replacements) whose attachments download to files named by their UUID
that resolve, from the document's directory, to relative paths below
it (`relOkFor`: free of `)`, JS whitespace, `!` and `$`, and not
starting with a dot), converting attachment references to local paths
and then back over the images parsed from the result is the identity.
The original claim fails without the path condition: local paths above
the document directory render as `(../…` which
`RELATIVE_IMAGE_REGEX` never re-matches. -/
theorem attachment_round_trip (segs : List MarkdownSeg) (docPath : String)
    (localPathOf : String → String)
    (hwf : ∀ sg ∈ segs, wfSeg sg)
    (hrel : ∀ t ∈ attTriples segs,
      relOkFor (posixRelative docPath (localPathOf ⟨t.2.1⟩)).data t.2.1) :
    transformMarkdownToAttachments
      (transformMarkdownImages ⟨renderRemoteL segs⟩
        ((parseAttachments ⟨renderRemoteL segs⟩).map (fun a =>
          { id := a.id, caption := a.caption, originalUrl := a.originalUrl,
            localPath := localPathOf a.id, annotations := a.annotations }))
        docPath)
      (parseRelativeImages
        (transformMarkdownImages ⟨renderRemoteL segs⟩
          ((parseAttachments ⟨renderRemoteL segs⟩).map (fun a =>
            { id := a.id, caption := a.caption, originalUrl := a.originalUrl,
              localPath := localPathOf a.id, annotations := a.annotations }))
          docPath))
      = ⟨renderRemoteL segs⟩ := by
  have hatts : (parseAttachments ⟨renderRemoteL segs⟩).map (fun a =>
      ({ id := a.id, caption := a.caption, originalUrl := a.originalUrl,
         localPath := localPathOf a.id, annotations := a.annotations }
        : AttachmentInfo))
      = (attTriples segs).map (attEntry localPathOf) := by
    have h1 : parseAttachments ⟨renderRemoteL segs⟩
        = (scanAtt (renderRemoteL segs)).map
          (fun t => mkParsedAttachment t.1 t.2.1 t.2.2) := rfl
    rw [h1, scanAtt_renderRemote segs hwf, List.map_map]
    refine List.map_congr_left ?_
    intro t ht
    have hseg := hwf _ (mem_attTriples ht)
    obtain ⟨hcap, _, _, _, _, _⟩ := hseg
    show (fun a =>
        ({ id := a.id, caption := a.caption, originalUrl := a.originalUrl,
           localPath := localPathOf a.id, annotations := a.annotations }
          : AttachmentInfo))
      (mkParsedAttachment t.1 t.2.1 t.2.2) = attEntry localPathOf t
    rw [mkParsedAttachment_eq t.1 t.2.1 t.2.2 (fun c hm => (hcap c hm).2.2.1)]
    rfl
  have hfwd : transformMarkdownImages ⟨renderRemoteL segs⟩
      ((parseAttachments ⟨renderRemoteL segs⟩).map (fun a =>
        { id := a.id, caption := a.caption, originalUrl := a.originalUrl,
          localPath := localPathOf a.id, annotations := a.annotations }))
      docPath
      = ⟨renderLocalL (fun idc => (posixRelative docPath (localPathOf ⟨idc⟩)).data)
          segs⟩ := by
    rw [hatts]
    unfold transformMarkdownImages
    have := transform_fold_fwd docPath localPathOf segs [] hwf hrel (by simp)
    simpa using this
  rw [hfwd]
  have himgs : parseRelativeImages
      ⟨renderLocalL (fun idc => (posixRelative docPath (localPathOf ⟨idc⟩)).data)
        segs⟩
      = (attTriples segs).map (fun t =>
          ({ caption := ⟨t.1⟩,
             relativePath := ⟨(posixRelative docPath (localPathOf ⟨t.2.1⟩)).data⟩,
             isExistingAttachment := true, attachmentId := some ⟨t.2.1⟩,
             annotations := if t.2.2.isEmpty then none else some ⟨t.2.2⟩ }
            : ImageUploadInfo)) := by
    have h1 : parseRelativeImages
        ⟨renderLocalL (fun idc => (posixRelative docPath (localPathOf ⟨idc⟩)).data)
          segs⟩
        = (scanRel (renderLocalL
            (fun idc => (posixRelative docPath (localPathOf ⟨idc⟩)).data) segs)).map
          (fun t => mkImageUploadInfo t.1 t.2.1 t.2.2) := rfl
    rw [h1, scanRel_renderLocal _ segs hwf hrel, List.map_map]
    refine List.map_congr_left ?_
    intro t ht
    have hseg := hwf _ (mem_attTriples ht)
    obtain ⟨_, _, _, huuid, _, _⟩ := hseg
    obtain ⟨_, _, _, hstrip⟩ := hrel t ht
    show mkImageUploadInfo t.1
        ((posixRelative docPath (localPathOf ⟨t.2.1⟩)).data) t.2.2 = _
    rw [mkImageUploadInfo_eq t.1 _ t.2.2 t.2.1 hstrip huuid]
  rw [himgs]
  unfold transformMarkdownToAttachments
  have := transform_fold_bwd
    (fun idc => (posixRelative docPath (localPathOf ⟨idc⟩)).data) segs [] hwf hrel
    (by simp)
  simpa using this

def exC5Segs : List MarkdownSeg :=
  [.text "pre ".data,
   .att "C".data "123e4567-e89b-42d3-a456-426614174000".data " =100x".data,
   .text " after".data]

def exC5PathOf : String → String := fun i => "docs/images/" ++ i ++ ".png"

theorem attachment_round_trip_witness :
    (∀ sg ∈ exC5Segs, wfSeg sg)
      ∧ transformMarkdownToAttachments
          (transformMarkdownImages ⟨renderRemoteL exC5Segs⟩
            ((parseAttachments ⟨renderRemoteL exC5Segs⟩).map (fun a =>
              { id := a.id, caption := a.caption, originalUrl := a.originalUrl,
                localPath := exC5PathOf a.id, annotations := a.annotations }))
            "docs")
          (parseRelativeImages
            (transformMarkdownImages ⟨renderRemoteL exC5Segs⟩
              ((parseAttachments ⟨renderRemoteL exC5Segs⟩).map (fun a =>
                { id := a.id, caption := a.caption, originalUrl := a.originalUrl,
                  localPath := exC5PathOf a.id, annotations := a.annotations }))
              "docs"))
          = ⟨renderRemoteL exC5Segs⟩ := by
  have hwf : ∀ sg ∈ exC5Segs, wfSeg sg := by
    intro sg hm
    simp only [exC5Segs, List.mem_cons, List.not_mem_nil, or_false] at hm
    rcases hm with rfl | rfl | rfl
    · exact (by decide : ∀ c ∈ "pre ".data, c ≠ '!')
    · exact ⟨by decide, by decide, by decide, by decide, by decide, by decide⟩
    · exact (by decide : ∀ c ∈ " after".data, c ≠ '!')
  have hrel : ∀ t ∈ attTriples exC5Segs,
      relOkFor (posixRelative "docs" (exC5PathOf ⟨t.2.1⟩)).data t.2.1 := by
    intro t ht
    have he : attTriples exC5Segs
        = [("C".data, "123e4567-e89b-42d3-a456-426614174000".data,
            " =100x".data)] := rfl
    rw [he] at ht
    simp only [List.mem_singleton] at ht
    subst ht
    exact ⟨by decide, by decide, by decide, by decide⟩
  exact ⟨hwf, attachment_round_trip exC5Segs "docs" exC5PathOf hwf hrel⟩

end OutlineSync
